import Mathlib

/-! The mx containers: a shallow embedding of `src/mx/vector.c`.

The growable vector of `src/mx/vector.c` is embedded as a header record
(`element_size`, `volume`, `length`) together with the bytes of its inline
storage.  `size_t` is the 64-bit unsigned type selected by `common.h`
(`SIZE_MAX == ULLONG_MAX`); every `size_t` operation is a natural-number
operation reduced modulo `2 ^ 64`.  The C allocator is an explicit state: a
stream of outcomes (failure, or success together with the indeterminate
content of fresh bytes) and counters of the calls made so far.
-/

namespace Mx

/-! ## `size_t` arithmetic (`common.h`) -/

/-- A byte of storage. -/
abbrev Byte := Nat

/-- The constant `SIZE_MAX` for the 64-bit `size_t` of `common.h`. -/
def SIZE_MAX : Nat := 18446744073709551615

/-- The modulus of `size_t` arithmetic, `SIZE_MAX + 1`. -/
def SIZE_MOD : Nat := 18446744073709551616

/-- The value `sizeof(header_t)`: three `size_t` fields; the flexible array member adds nothing. -/
def HEADER_SIZE : Nat := 24

/-- Wrapping `size_t` addition. -/
def size_add (a b : Nat) : Nat := (a + b) % SIZE_MOD

/-- Wrapping `size_t` subtraction. -/
def size_sub (a b : Nat) : Nat := (a + SIZE_MOD - b % SIZE_MOD) % SIZE_MOD

/-- Wrapping `size_t` multiplication. -/
def size_mul (a b : Nat) : Nat := (a * b) % SIZE_MOD

/-- The builtin behind `mx_addz_overflow(a, b, &c)`: the overflow flag and the wrapped sum stored in `c`. -/
def mx_addz_overflow (a b : Nat) : Bool × Nat := (decide (SIZE_MAX < a + b), size_add a b)

/-- The builtin behind `mx_mulz_overflow(a, b, &c)`: the overflow flag and the wrapped product stored in `c`. -/
def mx_mulz_overflow (a b : Nat) : Bool × Nat := (decide (SIZE_MAX < a * b), size_mul a b)

/-- The macro `MX_MINIMUM(a, b)`, that is `_a < _b ? _a : _b`. -/
def MX_MINIMUM (a b : Nat) : Nat := if a < b then a else b

/-! ## Memory: blocks, `memmove`, `memcpy`, and the allocator -/

/-- The struct `header_t` of `vector.c` together with the bytes of its flexible array member `data`. -/
structure header_t where
  element_size : Nat
  volume : Nat
  length : Nat
  data : List Byte
deriving DecidableEq, Repr

/-- The allocator: `outcome k` is what the `k`-th call to `malloc`/`realloc` does
(`none`: it returns `NULL`; `some junk`: it succeeds and `junk p` is the
indeterminate content of the fresh byte at offset `p`), `calls` counts the calls
made so far and `moved` counts those that succeeded. -/
structure Allocator where
  outcome : Nat → Option (Nat → Byte)
  calls : Nat
  moved : Nat

/-- The call `memmove(data + target, data + source, size)` inside one block. -/
def memmove (data : List Byte) (target source size : Nat) : List Byte :=
  data.take target ++ (data.drop source).take size ++ data.drop (target + size)

/-- The call `memcpy(data + target, src, size)` from a buffer `src` outside the block. -/
def memcpy (data : List Byte) (target : Nat) (src : List Byte) (size : Nat) : List Byte :=
  data.take target ++ src.take size ++ data.drop (target + size)

/-- The storage after a successful `realloc` to `n` data bytes: the common prefix is kept, fresh bytes are junk. -/
def realloc_data (data : List Byte) (n : Nat) (junk : Nat → Byte) : List Byte :=
  data.take n ++ (List.range (n - data.length)).map (fun p => junk (data.length + p))

/-- The call `realloc(header, size)` with `size >= sizeof(header_t)`: on failure the block is
untouched and `none` is returned; on success the header fields and the common prefix of the
data are carried over to the new block. -/
def realloc (al : Allocator) (h : header_t) (size : Nat) : Allocator × Option header_t :=
  match al.outcome al.calls with
  | none => ({ al with calls := al.calls + 1 }, none)
  | some junk =>
    ({ al with calls := al.calls + 1, moved := al.moved + 1 },
      some { h with data := realloc_data h.data (size - HEADER_SIZE) junk })

/-- What a function returning `mx_vector_t` leaves behind: `null orig` when it returns `NULL`,
with `orig` the state of the caller's block after the call; `some v` when it returns the
(possibly relocated) vector `v`. -/
inductive Ret where
  | null (orig : header_t)
  | some (v : header_t)
deriving DecidableEq, Repr

/-- The block the caller owns after the call: the returned one on success, the original one on failure. -/
def Ret.block : Ret → header_t
  | Ret.null orig => orig
  | Ret.some v => v

/-- Whether the call returned `NULL`. -/
def Ret.isNull : Ret → Bool
  | Ret.null _ => true
  | Ret.some _ => false

/-! ## `vector.c` -/

/-- The byte offset of `mx_vector_at(vector, i)` from the start of the data: `i * element_size` in `size_t`. -/
def mx_vector_at (v : header_t) (i : Nat) : Nat := size_mul i v.element_size

/-- The bytes `mx_vector_get(vector, i, elmt)` copies into `elmt`. -/
def mx_vector_get (v : header_t) (i : Nat) : List Byte :=
  (v.data.drop (mx_vector_at v i)).take v.element_size

/-- The function `mx_vector_resize` (vector.c:152-169). -/
def mx_vector_resize (al : Allocator) (v : header_t) (volume : Nat) : Allocator × Ret :=
  let m := mx_mulz_overflow volume v.element_size
  if m.1 then (al, Ret.null v)
  else
    let a := mx_addz_overflow m.2 HEADER_SIZE
    if a.1 then (al, Ret.null v)
    else
      match realloc al v a.2 with
      | (al1, none) => (al1, Ret.null v)
      | (al1, some h) =>
        (al1, Ret.some { h with volume := volume, length := MX_MINIMUM h.length volume })

/-- The function `mx_vector_shrink` (vector.c:171-177). -/
def mx_vector_shrink (al : Allocator) (v : header_t) : Allocator × Ret :=
  match mx_vector_resize al v v.length with
  | (al1, Ret.some shrunk) => (al1, Ret.some shrunk)
  | (al1, Ret.null orig) => (al1, Ret.some orig)

/-- The preallocation target of `mx_vector_ensure` and `mx_vector_create_with`:
`length / 5 * 8 + ((length % 5) * 8 + 3) / 5` evaluated in `size_t`. -/
def prealloc_volume (length : Nat) : Nat :=
  size_add (size_mul (length / 5) 8) (size_add (size_mul (length % 5) 8) 3 / 5)

/-- The function `mx_vector_ensure` (vector.c:179-195). -/
def mx_vector_ensure (al : Allocator) (v : header_t) (length : Nat) : Allocator × Ret :=
  if v.volume < length then
    let volume := prealloc_volume length
    if length < volume then
      match mx_vector_resize al v volume with
      | (al1, Ret.some resize) => (al1, Ret.some resize)
      | (al1, Ret.null orig) => mx_vector_resize al1 orig length
    else mx_vector_resize al v length
  else (al, Ret.some v)

/-- The function `mx_vector_inject` (vector.c:201-224); `elmt = none` is the `NULL` source. -/
def mx_vector_inject (al : Allocator) (v : header_t) (i : Nat) (elmt : Option (List Byte))
    (n : Nat) : Allocator × Ret :=
  let a := mx_addz_overflow v.length n
  if a.1 then (al, Ret.null v)
  else
    match mx_vector_ensure al v a.2 with
    | (al1, Ret.null orig) => (al1, Ret.null orig)
    | (al1, Ret.some w) =>
      let target := mx_vector_at w (size_add i n)
      let source := mx_vector_at w (size_add i 0)
      let size := size_mul (size_sub w.length i) w.element_size
      let moved := memmove w.data target source size
      let copied :=
        match elmt with
        | none => moved
        | some e => memcpy moved (mx_vector_at w i) e (size_mul n w.element_size)
      (al1, Ret.some { w with data := copied, length := a.2 })

/-- The function `mx_vector_insert` (vector.c:197-199). -/
def mx_vector_insert (al : Allocator) (v : header_t) (i : Nat) (elmt : Option (List Byte)) :
    Allocator × Ret :=
  mx_vector_inject al v i elmt 1

/-- The shrink target of `mx_vector_excise`: `length / 5 * 6 + ((length % 5) * 6 + 4) / 5` in `size_t`. -/
def shrink_volume (length : Nat) : Nat :=
  size_add (size_mul (length / 5) 6) (size_add (size_mul (length % 5) 6) 4 / 5)

/-- The function `mx_vector_excise` (vector.c:230-252). -/
def mx_vector_excise (al : Allocator) (v : header_t) (i n : Nat) : Allocator × Ret :=
  let length := size_sub v.length n
  let target := mx_vector_at v (size_add i 0)
  let source := mx_vector_at v (size_add i n)
  let size := size_mul (size_sub length i) v.element_size
  let w : header_t := { v with data := memmove v.data target source size }
  if length ≤ size_sub w.volume 1 / 2 then
    let volume := shrink_volume length
    match mx_vector_resize al w volume with
    | (al1, Ret.some resize) => (al1, Ret.some { resize with length := length })
    | (al1, Ret.null orig) => (al1, Ret.some { orig with length := length })
  else (al, Ret.some { w with length := length })

/-- The function `mx_vector_remove` (vector.c:226-228). -/
def mx_vector_remove (al : Allocator) (v : header_t) (i : Nat) : Allocator × Ret :=
  mx_vector_excise al v i 1

/-- The function `mx_vector_truncate` (vector.c:254-257). -/
def mx_vector_truncate (al : Allocator) (v : header_t) (length : Nat) : Allocator × Ret :=
  let n := size_sub v.length length
  mx_vector_excise al v (size_sub v.length n) n

/-- The function `mx_vector_append` (vector.c:259-261). -/
def mx_vector_append (al : Allocator) (v : header_t) (elmt : Option (List Byte)) :
    Allocator × Ret :=
  mx_vector_insert al v v.length elmt

/-- The function `mx_vector_extend` (vector.c:263-265). -/
def mx_vector_extend (al : Allocator) (v : header_t) (elmt : Option (List Byte)) (n : Nat) :
    Allocator × Ret :=
  mx_vector_inject al v v.length elmt n

/-- The function `mx_vector_pull` (vector.c:271-275); `out` tells whether `elmt` is non-`NULL`, and
the second component is what was copied into it. -/
def mx_vector_pull (al : Allocator) (v : header_t) (out : Bool) :
    (Allocator × Ret) × Option (List Byte) :=
  let copied := if out then Option.some (mx_vector_get v (size_sub v.length 1)) else Option.none
  (mx_vector_remove al v (size_sub v.length 1), copied)

/-- The function `mx_vector_shift` (vector.c:277-281); `out` tells whether `elmt` is non-`NULL`, and
the second component is what was copied into it. -/
def mx_vector_shift (al : Allocator) (v : header_t) (out : Bool) :
    (Allocator × Ret) × Option (List Byte) :=
  let copied := if out then Option.some (mx_vector_get v 0) else Option.none
  (mx_vector_remove al v 0, copied)

/-! ## Abstraction: the element sequence of a vector -/

/-- The first `n` elements of `es` bytes each stored in `bytes`. -/
def chunks (es n : Nat) (bytes : List Byte) : List (List Byte) :=
  (List.range n).map (fun k => (bytes.drop (k * es)).take es)

/-- The element sequence held by a vector: its first `length` elements. -/
def elements (v : header_t) : List (List Byte) := chunks v.element_size v.length v.data

/-- A well-formed vector block: the fields are `size_t` values, the allocation of
`sizeof(header_t) + volume * element_size` bytes exists, and `length <= volume`. -/
structure header_t.wf (v : header_t) : Prop where
  es_le : v.element_size ≤ SIZE_MAX
  vol_le : v.volume ≤ SIZE_MAX
  size_le : v.volume * v.element_size + HEADER_SIZE ≤ SIZE_MAX
  data_len : v.data.length = v.volume * v.element_size
  len_le : v.length ≤ v.volume

/-! ## Auxiliary definitions for the specifications -/

/-- The vector `mx_vector_resize` returns when its reallocation succeeds with fresh bytes `junk`. -/
def resized (v : header_t) (volume : Nat) (junk : Nat → Byte) : header_t :=
  { element_size := v.element_size, volume := volume, length := MX_MINIMUM v.length volume,
    data := realloc_data v.data (volume * v.element_size) junk }

/-- The block after the `memmove` of `mx_vector_excise`, before its length is decreased. -/
def excise_moved (v : header_t) (i n : Nat) : header_t :=
  { v with
    data :=
      memmove v.data (mx_vector_at v (size_add i 0)) (mx_vector_at v (size_add i n))
        (size_mul (size_sub (size_sub v.length n) i) v.element_size) }

/-- The header invariant of the data model: `length <= volume`. -/
def length_le_volume (v : header_t) : Prop := v.length ≤ v.volume

instance (v : header_t) : Decidable (length_le_volume v) :=
  inferInstanceAs (Decidable (v.length ≤ v.volume))

/-- The storage after the `memmove` and the `memcpy` of `mx_vector_inject`, with every offset
and size computed without wrap-around. -/
def injected_data (d : List Byte) (es len i n : Nat) (elmt : Option (List Byte)) : List Byte :=
  match elmt with
  | none => memmove d ((i + n) * es) (i * es) ((len - i) * es)
  | some e => memcpy (memmove d ((i + n) * es) (i * es) ((len - i) * es)) (i * es) e (n * es)

/-- The writes of `mx_vector_inject` after its `mx_vector_ensure` succeeded with block `w`
(vector.c:211-221): the `memmove`, the `memcpy` when `elmt` is not `NULL`, and the new length. -/
def inject_write (w : header_t) (i : Nat) (elmt : Option (List Byte)) (n length : Nat) :
    header_t :=
  { w with
    data :=
      match elmt with
      | none =>
        memmove w.data (mx_vector_at w (size_add i n)) (mx_vector_at w (size_add i 0))
          (size_mul (size_sub w.length i) w.element_size)
      | some e =>
        memcpy
          (memmove w.data (mx_vector_at w (size_add i n)) (mx_vector_at w (size_add i 0))
            (size_mul (size_sub w.length i) w.element_size))
          (mx_vector_at w i) e (size_mul n w.element_size)
    length := length }

/-! ## Concrete allocators and vectors used to instantiate the theorems -/

/-- An allocator whose every call succeeds, fresh bytes reading as `0`. -/
def alloc_ok : Allocator := { outcome := fun _ => some (fun _ => 0), calls := 0, moved := 0 }

/-- An allocator whose every call fails. -/
def alloc_fail : Allocator := { outcome := fun _ => none, calls := 0, moved := 0 }

/-- A full vector of two two-byte elements `[1, 2]` and `[3, 4]`. -/
def vec_full : header_t := { element_size := 2, volume := 2, length := 2, data := [1, 2, 3, 4] }

/-- A vector of three one-byte elements in a block of volume eight. -/
def vec_slack : header_t :=
  { element_size := 1, volume := 8, length := 3, data := [7, 8, 9, 0, 0, 0, 0, 0] }

/-! ## Sequences of insertions -/

/-- One inserting call: `mx_vector_insert(v, i, elmt)`, `mx_vector_append(v, elmt)` or
`mx_vector_inject(v, i, elmt, n)`. -/
inductive InsertCall where
  | insert (i : Nat) (elmt : Option (List Byte))
  | append (elmt : Option (List Byte))
  | inject (i : Nat) (elmt : Option (List Byte)) (n : Nat)

/-- The number of elements an inserting call adds. -/
def InsertCall.count : InsertCall → Nat
  | InsertCall.insert _ _ => 1
  | InsertCall.append _ => 1
  | InsertCall.inject _ _ n => n

/-- Perform one inserting call. -/
def InsertCall.run (al : Allocator) (v : header_t) : InsertCall → Allocator × Ret
  | InsertCall.insert i elmt => mx_vector_insert al v i elmt
  | InsertCall.append elmt => mx_vector_append al v elmt
  | InsertCall.inject i elmt n => mx_vector_inject al v i elmt n

/-- The total number of elements a sequence of inserting calls adds. -/
def total_count : List InsertCall → Nat
  | [] => 0
  | c :: cs => c.count + total_count cs

/-- Perform a sequence of inserting calls, each on the vector returned by the previous one,
stopping at the first call that returns `NULL`. -/
def run_calls (al : Allocator) (v : header_t) : List InsertCall → Allocator × Ret
  | [] => (al, Ret.some v)
  | c :: cs =>
    match c.run al v with
    | (al1, Ret.null orig) => (al1, Ret.null orig)
    | (al1, Ret.some w) => run_calls al1 w cs

/-! ## `vector.c`: creation and duplication -/

/-- The call `malloc(size)` with `size >= sizeof(header_t)`: `none` when it returns `NULL`,
otherwise the indeterminate bytes after the header of the fresh block. -/
def malloc (al : Allocator) (size : Nat) : Allocator × Option (List Byte) :=
  match al.outcome al.calls with
  | none => ({ al with calls := al.calls + 1 }, none)
  | some junk =>
    ({ al with calls := al.calls + 1, moved := al.moved + 1 },
      some ((List.range (size - HEADER_SIZE)).map junk))

/-- The function `mx_vector_create` (vector.c:25-36); `none` is the `NULL` return. -/
def mx_vector_create (al : Allocator) (element_size : Nat) : Allocator × Option header_t :=
  match malloc al HEADER_SIZE with
  | (al1, none) => (al1, none)
  | (al1, some d) =>
    (al1, some { element_size := element_size, volume := 0, length := 0, data := d })

/-- The function `mx_vector_create_with` (vector.c:38-68); `none` is the `NULL` return. The
first `if` is a short-circuit conjunction: `malloc` is called only when the three tests before
it pass. -/
def mx_vector_create_with (al : Allocator) (element_size length : Nat) :
    Allocator × Option header_t :=
  let volume := prealloc_volume length
  let m := mx_mulz_overflow volume element_size
  let a := mx_addz_overflow m.2 HEADER_SIZE
  let first : Allocator × Option (List Byte) :=
    if length < volume ∧ m.1 = false ∧ a.1 = false then malloc al a.2 else (al, none)
  match first with
  | (al1, some d) =>
    (al1, some { element_size := element_size, volume := volume, length := length, data := d })
  | (al1, none) =>
    let m2 := mx_mulz_overflow length element_size
    if m2.1 then (al1, none)
    else
      let a2 := mx_addz_overflow m2.2 HEADER_SIZE
      if a2.1 then (al1, none)
      else
        match malloc al1 a2.2 with
        | (al2, none) => (al2, none)
        | (al2, some d) =>
          (al2,
            some { element_size := element_size, volume := length, length := length, data := d })

/-- The function `mx_vector_duplicate` (vector.c:70-92). The first component is the allocator
and the returned vector (`none` is `NULL`); the second is the block of `source` after the
call. -/
def mx_vector_duplicate (al : Allocator) (source : header_t) :
    (Allocator × Option header_t) × header_t :=
  let element_size := source.element_size
  let volume := source.volume
  let length := source.length
  match malloc al (size_add HEADER_SIZE (size_mul volume element_size)) with
  | (al1, none) =>
    if length = volume then ((al1, none), source)
    else
      match malloc al1 (size_add HEADER_SIZE (size_mul length element_size)) with
      | (al2, none) => ((al2, none), source)
      | (al2, some d) =>
        ((al2,
          some
            { element_size := element_size, volume := length, length := length
              data := memcpy d 0 source.data (size_mul length element_size) }), source)
  | (al1, some d) =>
    ((al1,
      some
        { element_size := element_size, volume := volume, length := length
          data := memcpy d 0 source.data (size_mul length element_size) }), source)

/-- The sequence `mx_vector_create(element_size)` followed by `mx_vector_ensure(length)` on the
created vector, as described for `mx_vector_create_with` in vector.h:19-20. -/
def create_then_ensure (al : Allocator) (element_size length : Nat) : Allocator × Option header_t :=
  match mx_vector_create al element_size with
  | (al1, none) => (al1, none)
  | (al1, some v) =>
    match mx_vector_ensure al1 v length with
    | (al2, Ret.null _) => (al2, none)
    | (al2, Ret.some w) => (al2, some w)

/-! ## Sequences of calls at the tail -/

/-- One call at the tail: `mx_vector_append(v, elmt)` or `mx_vector_pull(v, elmt)`; for the
latter `out` tells whether `elmt` is non-`NULL`. -/
inductive TailCall where
  | append (elmt : Option (List Byte))
  | pull (out : Bool)

/-- Perform one call at the tail. -/
def TailCall.run (al : Allocator) (v : header_t) : TailCall → Allocator × Ret
  | TailCall.append elmt => mx_vector_append al v elmt
  | TailCall.pull out => (mx_vector_pull al v out).1

/-- Perform a sequence of calls at the tail, each on the vector returned by the previous one,
stopping at the first call that returns `NULL`. -/
def run_tail_calls (al : Allocator) (v : header_t) : List TailCall → Allocator × Ret
  | [] => (al, Ret.some v)
  | c :: cs =>
    match c.run al v with
    | (al1, Ret.null orig) => (al1, Ret.null orig)
    | (al1, Ret.some w) => run_tail_calls al1 w cs

/-- An alternating sequence: an append, then a pull, then an append, and so on. -/
def alternating : List TailCall → Bool
  | [] => true
  | [TailCall.append _] => true
  | TailCall.append _ :: TailCall.pull _ :: cs => alternating cs
  | _ => false

/-- The empty vector of one-byte elements: volume 0, length 0. -/
def vec_empty : header_t := { element_size := 1, volume := 0, length := 0, data := [] }

/-- A full vector holding the single one-byte element `9`: volume 1, length 1. -/
def vec_one : header_t := { element_size := 1, volume := 1, length := 1, data := [9] }

/-- The second half of `mx_vector_create_with` (vector.c:56-67): the allocation of exactly
`length` elements. -/
def create_exact (al : Allocator) (element_size length : Nat) : Allocator × Option header_t :=
  if SIZE_MAX < length * element_size + HEADER_SIZE then (al, none)
  else
    match malloc al (length * element_size + HEADER_SIZE) with
    | (al2, none) => (al2, none)
    | (al2, some d) =>
      (al2, some { element_size := element_size, volume := length, length := length, data := d })

/-! ## `string.c` -/

/-- The struct `header_t` of `string.c` (`volume`, `length`) together with the bytes of its
flexible array member `data`, which holds `volume + 1` bytes. -/
structure string_header_t where
  volume : Nat
  length : Nat
  data : List Byte
deriving DecidableEq, Repr

/-- The value `sizeof(header_t)` in `string.c`: two `size_t` fields. -/
def STRING_HEADER_SIZE : Nat := 16

/-- What a function returning `mx_string_t` leaves behind: `null orig` when it returns `NULL`,
with `orig` the state of the caller's block after the call; `some s` when it returns the
(possibly relocated) string `s`. -/
inductive StrRet where
  | null (orig : string_header_t)
  | some (s : string_header_t)
deriving DecidableEq, Repr

/-- The block the caller owns after the call: the returned one on success, the original one on failure. -/
def StrRet.block : StrRet → string_header_t
  | StrRet.null orig => orig
  | StrRet.some s => s

/-- Whether the call returned `NULL`. -/
def StrRet.isNull : StrRet → Bool
  | StrRet.null _ => true
  | StrRet.some _ => false

/-- The call `realloc(header, size)` on a string block with `size >= sizeof(header_t)`. -/
def string_realloc (al : Allocator) (h : string_header_t) (size : Nat) :
    Allocator × Option string_header_t :=
  match al.outcome al.calls with
  | none => ({ al with calls := al.calls + 1 }, none)
  | some junk =>
    ({ al with calls := al.calls + 1, moved := al.moved + 1 },
      some { h with data := realloc_data h.data (size - STRING_HEADER_SIZE) junk })

/-- The function `mx_string_resize` (string.c:86-103). -/
def mx_string_resize (al : Allocator) (s : string_header_t) (volume : Nat) :
    Allocator × StrRet :=
  let a := mx_addz_overflow volume (STRING_HEADER_SIZE + 1)
  if a.1 then (al, StrRet.null s)
  else
    match string_realloc al s a.2 with
    | (al1, none) => (al1, StrRet.null s)
    | (al1, some h) =>
      if volume < h.length then
        (al1, StrRet.some { volume := volume, length := volume, data := h.data.set volume 0 })
      else (al1, StrRet.some { h with volume := volume })

/-- The function `mx_string_ensure` (string.c:113-129). -/
def mx_string_ensure (al : Allocator) (s : string_header_t) (length : Nat) :
    Allocator × StrRet :=
  if s.volume < length then
    let volume := prealloc_volume length
    if length < volume then
      match mx_string_resize al s volume with
      | (al1, StrRet.some resize) => (al1, StrRet.some resize)
      | (al1, StrRet.null orig) => mx_string_resize al1 orig length
    else mx_string_resize al s length
  else (al, StrRet.some s)

/-- The function `mx_string_inject` (string.c:135-154); `c` holds the bytes at the pointer `c`. -/
def mx_string_inject (al : Allocator) (s : string_header_t) (i : Nat) (c : List Byte) (n : Nat) :
    Allocator × StrRet :=
  let a := mx_addz_overflow s.length n
  if a.1 then (al, StrRet.null s)
  else
    match mx_string_ensure al s a.2 with
    | (al1, StrRet.null orig) => (al1, StrRet.null orig)
    | (al1, StrRet.some w) =>
      let moved := memmove w.data (i + n) i (size_add (size_sub w.length i) 1)
      let copied := memcpy moved i c n
      (al1, StrRet.some { w with data := copied, length := a.2 })

/-- The function `mx_string_excise` (string.c:160-179). -/
def mx_string_excise (al : Allocator) (s : string_header_t) (i n : Nat) : Allocator × StrRet :=
  let length := size_sub s.length n
  let w : string_header_t := { s with data := memmove s.data i (i + n) (size_sub length i) }
  if length ≤ size_sub w.volume 1 / 2 then
    let volume := shrink_volume length
    match mx_string_resize al w volume with
    | (al1, StrRet.some resize) => (al1, StrRet.some { resize with length := length })
    | (al1, StrRet.null orig) => (al1, StrRet.some { orig with length := length })
  else (al, StrRet.some { w with length := length })

/-- The function `mx_string_remove` (string.c:156-158). -/
def mx_string_remove (al : Allocator) (s : string_header_t) (i : Nat) : Allocator × StrRet :=
  mx_string_excise al s i 1

/-- The function `mx_string_extend` (string.c:185-187). -/
def mx_string_extend (al : Allocator) (s : string_header_t) (c : List Byte) (n : Nat) :
    Allocator × StrRet :=
  mx_string_inject al s s.length c n

/-- The bytes of a string: its first `length` bytes. -/
def string_bytes (s : string_header_t) : List Byte := s.data.take s.length

/-- A well-formed string block: the allocation of `sizeof(header_t) + 1 + volume` bytes exists,
`length <= volume`, and the byte at offset `length` is the terminator `0`. -/
structure string_header_t.wf (s : string_header_t) : Prop where
  size_le : s.volume + (STRING_HEADER_SIZE + 1) ≤ SIZE_MAX
  data_len : s.data.length = s.volume + 1
  len_le : s.length ≤ s.volume
  terminated : s.data[s.length]? = some 0

/-- The string `"abc"` in a block of volume 3. -/
def str_abc : string_header_t := { volume := 3, length := 3, data := [97, 98, 99, 0] }

/-! ## Volumes along runs of appends and pulls -/

/-- The volume after `mx_vector_append` on a vector of length `len` and volume `vol`, when the
preallocation succeeds. -/
def append_volume (len vol : Nat) : Nat := if vol < len + 1 then (8 * (len + 1) + 3) / 5 else vol

/-- The volume after `mx_vector_pull` on a vector of length `len` and volume `vol`, when the
shrinking reallocation succeeds. -/
def pull_volume (len vol : Nat) : Nat :=
  if 2 * (len - 1) < vol then (6 * (len - 1) + 4) / 5 else vol

/-- The volume after `k` appends starting from length `len` and volume `vol`. -/
def volume_after_appends (len vol : Nat) : Nat → Nat
  | 0 => vol
  | k + 1 => volume_after_appends (len + 1) (append_volume len vol) k

/-- The number of reallocations during `k` appends starting from length `len` and volume `vol`. -/
def reallocs_after_appends (len vol : Nat) : Nat → Nat
  | 0 => 0
  | k + 1 =>
    (if vol < len + 1 then 1 else 0) + reallocs_after_appends (len + 1) (append_volume len vol) k

/-- The volume after `k` pulls starting from length `len` and volume `vol`. -/
def volume_after_pulls (len vol : Nat) : Nat → Nat
  | 0 => vol
  | k + 1 => volume_after_pulls (len - 1) (pull_volume len vol) k

/-- The number of reallocations during `k` pulls starting from length `len` and volume `vol`. -/
def reallocs_after_pulls (len vol : Nat) : Nat → Nat
  | 0 => 0
  | k + 1 =>
    (if 2 * (len - 1) < vol then 1 else 0) +
      reallocs_after_pulls (len - 1) (pull_volume len vol) k

/-- A vector on which an append followed by a pull reallocates nothing: there is room for one
more element and at least half of the volume is in use. -/
def steady (v : header_t) : Prop :=
  v.length + 1 ≤ v.volume ∧ v.volume ≤ 2 * v.length ∧ v.volume ≤ SIZE_MAX

/-! ## `string.c`: creation and formatted append -/

/-- The call `strlen(source)`: the number of bytes before the first `0` in the buffer. -/
def strlen (source : List Byte) : Nat := (source.takeWhile (fun c => c != 0)).length

/-- The call `malloc(size)` for a string block with `size >= sizeof(header_t)`: `none` when it
returns `NULL`, otherwise the indeterminate bytes after the header of the fresh block. -/
def string_malloc (al : Allocator) (size : Nat) : Allocator × Option (List Byte) :=
  match al.outcome al.calls with
  | none => ({ al with calls := al.calls + 1 }, none)
  | some junk =>
    ({ al with calls := al.calls + 1, moved := al.moved + 1 },
      some ((List.range (size - STRING_HEADER_SIZE)).map junk))

/-- The call `memset(data, c, n)` at the start of a block. -/
def memset (data : List Byte) (c : Byte) (n : Nat) : List Byte :=
  List.replicate n c ++ data.drop n

/-- The function `mx_string_create` (string.c:25-49); `source = none` is the `NULL` source and
the result `none` is the `NULL` return. -/
def mx_string_create (al : Allocator) (source : Option (List Byte)) (length : Nat) :
    Allocator × Option string_header_t :=
  let length :=
    match source with
    | some src => if length = 0 then strlen src else length
    | none => length
  let a := mx_addz_overflow length (STRING_HEADER_SIZE + 1)
  if a.1 then (al, none)
  else
    match string_malloc al a.2 with
    | (al1, none) => (al1, none)
    | (al1, some d) =>
      let filled :=
        match source with
        | some src => memcpy d 0 src length
        | none => memset d 0 length
      (al1, some { volume := length, length := length, data := filled.set length 0 })

/-- The call `vsnprintf(data + pos, size, format, args)` for a formatter whose complete output
is `output`: when `size > 0` it writes at most `size - 1` bytes of the output followed by a
`0`; it returns the length of the complete output. -/
def vsnprintf (data : List Byte) (pos size : Nat) (output : List Byte) : List Byte × Nat :=
  if size = 0 then (data, output.length)
  else
    (memcpy data pos (output.take (size - 1) ++ [0]) (min output.length (size - 1) + 1),
      output.length)

/-- The function `mx_string_catf` (string.c:189-226) for a format and arguments whose complete
output is `output`. -/
def mx_string_catf (al : Allocator) (s : string_header_t) (output : List Byte) :
    Allocator × StrRet :=
  let buffer := size_add (size_sub s.volume s.length) 1
  let pass1 := vsnprintf s.data s.length buffer output
  let s1 : string_header_t := { s with data := pass1.1 }
  if pass1.2 < buffer then (al, StrRet.some { s1 with length := size_add s1.length pass1.2 })
  else
    match mx_string_ensure al s1 (size_add s1.length pass1.2) with
    | (al1, StrRet.null orig) => (al1, StrRet.null orig)
    | (al1, StrRet.some w) =>
      let buffer2 := size_add (size_sub w.volume w.length) 1
      let pass2 := vsnprintf w.data w.length buffer2 output
      let w1 : string_header_t := { w with data := pass2.1 }
      if pass2.2 < buffer2 then
        (al1, StrRet.some { w1 with length := size_add w1.length pass2.2 })
      else (al1, StrRet.null { w1 with data := w1.data.set w1.length 0 })

/-- The string `"ab"` in a block of volume 3, with one spare byte. -/
def str_ab_spare : string_header_t := { volume := 3, length := 2, data := [97, 98, 0, 0] }

/-- The length `mx_string_create` settles on before it allocates (string.c:29-30): the length
of the source up to its first `0` when a source is given with `length == 0`. -/
def create_length (source : Option (List Byte)) (length : Nat) : Nat :=
  match source with
  | some src => if length = 0 then strlen src else length
  | none => length

/-! ## `bitset.c` -/

/-- The value `MX_BITSET_UNIT_SIZE`, that is `sizeof(unsigned int)`. -/
def MX_BITSET_UNIT_SIZE : Nat := 4

/-- The value `MX_BITSET_UNIT_BITS`, that is `MX_BITSET_UNIT_SIZE * CHAR_BIT`. -/
def MX_BITSET_UNIT_BITS : Nat := 32

/-- The largest `unsigned int`, the value of `~0U`. -/
def UINT_MAX : Nat := 4294967295

/-- The number of `unsigned int` values, `2 ^ 32`. -/
def UINT_MOD : Nat := 4294967296

/-- The sentinel `MX_ABSENT` (common.h:20). -/
def MX_ABSENT : Nat := SIZE_MAX

/-- The block of a bitset (bitset.c:10-13): the header field and the units after it. -/
structure bitset_header_t where
  volume : Nat
  data : List Nat
deriving DecidableEq, Repr

/-- The unit `bitset[i]`. -/
def bitset_header_t.unit (bitset : bitset_header_t) (i : Nat) : Nat := bitset.data.getD i 0

/-- The store `bitset[i] = value`. -/
def bitset_header_t.store (bitset : bitset_header_t) (i : Nat) (value : Nat) :
    bitset_header_t :=
  { bitset with data := bitset.data.set i value }

/-- The operator `~` on an `unsigned int`. -/
def uint_not (x : Nat) : Nat := UINT_MAX - x

/-- The operator `<<` on `unsigned int` operands. -/
def uint_shl (x n : Nat) : Nat := (x <<< n) % UINT_MOD

/-- The operator `-` on `unsigned int` operands. -/
def uint_sub (x y : Nat) : Nat := (x + UINT_MOD - y) % UINT_MOD

/-- The function `volume_to_length` (bitset.c:16-22). -/
def volume_to_length (volume : Nat) : Nat :=
  volume / MX_BITSET_UNIT_BITS + (if volume % MX_BITSET_UNIT_BITS > 0 then 1 else 0)

/-- The function `mx_bitset_volume` (bitset.c:66-68). -/
def mx_bitset_volume (bitset : bitset_header_t) : Nat := bitset.volume

/-- The function `mx_bitset_length` (bitset.c:62-64). -/
def mx_bitset_length (bitset : bitset_header_t) : Nat :=
  volume_to_length (mx_bitset_volume bitset)

/-- The function `mx_bitset_get` (bitset.c:70-74). -/
def mx_bitset_get (bitset : bitset_header_t) (i : Nat) : Bool :=
  let unit_i := i / MX_BITSET_UNIT_BITS
  let offset := i % MX_BITSET_UNIT_BITS
  ((bitset.unit unit_i >>> offset) &&& 1) != 0

/-- The call `memset(bitset, number, size)` on the units of a bitset, for `size` a multiple
of the unit size: every byte of the first `size / MX_BITSET_UNIT_SIZE` units becomes the low
byte of `number`. -/
def memset_units (data : List Nat) (number size : Nat) : List Nat :=
  List.replicate (size / MX_BITSET_UNIT_SIZE)
      (number % 256 + (number % 256) * 256 + (number % 256) * 65536
        + (number % 256) * 16777216)
    ++ data.drop (size / MX_BITSET_UNIT_SIZE)

/-- The function `mx_bitset_zero` (bitset.c:101-104). -/
def mx_bitset_zero (bitset : bitset_header_t) : bitset_header_t :=
  { bitset with
    data := memset_units bitset.data 0 (size_mul (mx_bitset_length bitset) MX_BITSET_UNIT_SIZE) }

/-- The function `mx_bitset_unzero` (bitset.c:106-109). -/
def mx_bitset_unzero (bitset : bitset_header_t) : bitset_header_t :=
  { bitset with
    data := memset_units bitset.data (uint_not 0)
      (size_mul (mx_bitset_length bitset) MX_BITSET_UNIT_SIZE) }

/-- The function `mx_bitset_sanitize` (bitset.c:116-132). -/
def mx_bitset_sanitize (bitset : bitset_header_t) (x : Bool) : bitset_header_t :=
  let offset := mx_bitset_volume bitset % MX_BITSET_UNIT_BITS
  if offset = 0 then bitset
  else
    let tail_i := mx_bitset_volume bitset / MX_BITSET_UNIT_BITS
    let mask := uint_sub (uint_shl 1 offset) 1
    bitset.store tail_i
      (if x then bitset.unit tail_i ||| uint_not mask else bitset.unit tail_i &&& mask)

/-- The loop `for (i = 0; i < length; i++) a[i] = f(a[i], b[i])` of the binary operations. -/
def unit_loop (f : Nat → Nat → Nat) (a b : bitset_header_t) (length : Nat) : bitset_header_t :=
  (List.range length).foldl (fun acc i => acc.store i (f (acc.unit i) (b.unit i))) a

/-- The function `mx_bitset_and` (bitset.c:134-144), on two distinct blocks: the blocks `a`
and `b` after the call. -/
def mx_bitset_and (a b : bitset_header_t) : bitset_header_t × bitset_header_t :=
  let a_length := mx_bitset_length a
  let b_length := mx_bitset_length b
  let length := MX_MINIMUM a_length b_length
  let b1 := if b_length ≤ a_length then mx_bitset_sanitize b true else b
  (unit_loop (fun x y => x &&& y) a b1 length, b1)

/-- The function `mx_bitset_or` (bitset.c:146-156), on two distinct blocks. -/
def mx_bitset_or (a b : bitset_header_t) : bitset_header_t × bitset_header_t :=
  let a_length := mx_bitset_length a
  let b_length := mx_bitset_length b
  let length := MX_MINIMUM a_length b_length
  let b1 := if b_length ≤ a_length then mx_bitset_sanitize b false else b
  (unit_loop (fun x y => x ||| y) a b1 length, b1)

/-- The function `mx_bitset_xor` (bitset.c:158-168), on two distinct blocks. -/
def mx_bitset_xor (a b : bitset_header_t) : bitset_header_t × bitset_header_t :=
  let a_length := mx_bitset_length a
  let b_length := mx_bitset_length b
  let length := MX_MINIMUM a_length b_length
  let b1 := if b_length ≤ a_length then mx_bitset_sanitize b false else b
  (unit_loop (fun x y => x ^^^ y) a b1 length, b1)

/-- The function `mx_bitset_all` (bitset.c:170-179): the result and the block after the
call. -/
def mx_bitset_all (bitset : bitset_header_t) : Bool × bitset_header_t :=
  let b := mx_bitset_sanitize bitset true
  ((List.range (mx_bitset_length b)).all (fun i => !(b.unit i != uint_not 0)), b)

/-- The function `mx_bitset_any` (bitset.c:181-190). -/
def mx_bitset_any (bitset : bitset_header_t) : Bool × bitset_header_t :=
  let b := mx_bitset_sanitize bitset false
  ((List.range (mx_bitset_length b)).any (fun i => b.unit i != 0), b)

/-- The function `mx_bitset_none` (bitset.c:192-201). -/
def mx_bitset_none (bitset : bitset_header_t) : Bool × bitset_header_t :=
  let b := mx_bitset_sanitize bitset false
  ((List.range (mx_bitset_length b)).all (fun i => !(b.unit i != 0)), b)

/-- The builtin `__builtin_popcount`: the number of 1-bits of an `unsigned int`. -/
def builtin_popcount (x : Nat) : Nat :=
  (List.range MX_BITSET_UNIT_BITS).countP (fun k => x.testBit k)

/-- The builtin `__builtin_ffs`: one plus the index of the least significant 1-bit, or zero
for the argument zero. -/
def builtin_ffs (x : Nat) : Nat :=
  match (List.range MX_BITSET_UNIT_BITS).find? (fun k => x.testBit k) with
  | some k => k + 1
  | none => 0

/-- The function `mx_bitset_popcnt` (bitset.c:203-212). -/
def mx_bitset_popcnt (bitset : bitset_header_t) : Nat × bitset_header_t :=
  let b := mx_bitset_sanitize bitset false
  ((List.range (mx_bitset_length b)).foldl
    (fun result i => size_add result (builtin_popcount (b.unit i))) 0, b)

/-- The function `mx_bitset_next` (bitset.c:214-233). -/
def mx_bitset_next (bitset : bitset_header_t) (i : Nat) : Nat × bitset_header_t :=
  let unit_i := i / MX_BITSET_UNIT_BITS
  let offset := i % MX_BITSET_UNIT_BITS
  if mx_bitset_volume bitset ≤ i then (MX_ABSENT, bitset)
  else
    let b := mx_bitset_sanitize bitset false
    let result := builtin_ffs (b.unit unit_i >>> offset)
    if result ≠ 0 then
      (size_sub (size_add (size_add (size_mul unit_i MX_BITSET_UNIT_BITS) offset) result) 1, b)
    else
      match (List.range' (unit_i + 1) (mx_bitset_length b - (unit_i + 1))).find?
          (fun u => builtin_ffs (b.unit u) != 0) with
      | some u => (size_sub (size_add (size_mul u MX_BITSET_UNIT_BITS)
          (builtin_ffs (b.unit u))) 1, b)
      | none => (MX_ABSENT, b)

/-- A well-formed bitset block: its volume is a `size_t`, and it holds
`volume_to_length(volume)` units, each an `unsigned int`, in an allocation whose size is a
`size_t`. -/
structure bitset_header_t.wf (b : bitset_header_t) : Prop where
  volume_le : b.volume ≤ SIZE_MAX
  size_le : volume_to_length b.volume * MX_BITSET_UNIT_SIZE + 8 ≤ SIZE_MAX
  data_len : b.data.length = volume_to_length b.volume
  unit_lt : ∀ w ∈ b.data, w < UINT_MOD

/-- A bitset of 37 bits whose 64 stored bits are all set. -/
def bits_37 : bitset_header_t := { volume := 37, data := [4294967295, 4294967295] }

/-- The bitset of 5 bits `1, 0, 1, 0, 1`, with set padding bits above them. -/
def bits_5 : bitset_header_t := { volume := 5, data := [4294967285] }

/-- The bitset of 64 bits, all set. -/
def bits_64 : bitset_header_t := { volume := 64, data := [4294967295, 4294967295] }

/-- The bitset of 10 bits, none set, with all its padding bits set. -/
def bits_10 : bitset_header_t := { volume := 10, data := [4294966272] }

/-- A bitset of 37 bits whose padding bits are mixed: bit 37 is set, bits 38 to 63 are
clear. -/
def bits_37_mixed : bitset_header_t := { volume := 37, data := [4294967295, 63] }

/-- The function `mx_bitset_reset` (bitset.c:76-80). -/
def mx_bitset_reset (bitset : bitset_header_t) (i : Nat) : bitset_header_t :=
  let unit_i := i / MX_BITSET_UNIT_BITS
  let offset := i % MX_BITSET_UNIT_BITS
  bitset.store unit_i (bitset.unit unit_i &&& uint_not (uint_shl 1 offset))

/-- The function `mx_bitset_set` (bitset.c:82-86). -/
def mx_bitset_set (bitset : bitset_header_t) (i : Nat) : bitset_header_t :=
  let unit_i := i / MX_BITSET_UNIT_BITS
  let offset := i % MX_BITSET_UNIT_BITS
  bitset.store unit_i (bitset.unit unit_i ||| uint_shl 1 offset)

/-- The function `mx_bitset_assign` (bitset.c:88-90). -/
def mx_bitset_assign (bitset : bitset_header_t) (i : Nat) (x : Bool) : bitset_header_t :=
  if x then mx_bitset_set bitset i else mx_bitset_reset bitset i

/-- The function `mx_bitset_toggle` (bitset.c:92-96). -/
def mx_bitset_toggle (bitset : bitset_header_t) (i : Nat) : bitset_header_t :=
  let unit_i := i / MX_BITSET_UNIT_BITS
  let offset := i % MX_BITSET_UNIT_BITS
  bitset.store unit_i (bitset.unit unit_i ^^^ uint_shl 1 offset)

/-! ## `common.c` -/

/-- The number of `uint64_t` values, `2 ^ 64`. -/
def UINT64_MOD : Nat := 18446744073709551616

/-- The operand `string[i]` of `hash ^ string[i]` for a stored byte `c`, on a target whose
plain `char` is signed (x86-64): the `char` is promoted to `int` and converted to `uint64_t`,
which sign-extends the bytes from `0x80` on. -/
def char_to_uint64 (c : Byte) : Nat :=
  if c % 256 < 128 then c % 256 else c % 256 + (UINT64_MOD - 256)

/-- The function `mx_fnv1a` (common.c:7-13). -/
def mx_fnv1a (string : List Byte) (length : Nat) : Nat :=
  (List.range length).foldl
    (fun hash i => ((hash ^^^ char_to_uint64 (string.getD i 0)) * 1099511628211) % UINT64_MOD)
    14695981039346656037

/-- The function `mx_string_hash` (string.c:253-256). -/
def mx_string_hash (x : string_header_t) : Nat := mx_fnv1a x.data x.length

/-- The 64-bit FNV-1a hash of a sequence of octets: from the offset basis, each octet is
xor-ed into the hash, which is then multiplied by the FNV prime modulo `2 ^ 64`. -/
def fnv1a_64 (s : List Byte) : Nat :=
  s.foldl (fun h c => ((h ^^^ c) * 1099511628211) % UINT64_MOD) 14695981039346656037

/-! ## `vector.c`: searching -/

/-- The function `mx_vector_find_next` (vector.c:333-340); the predicate `eqf` is given the
bytes of the element its first argument points to and `data`, and tells whether the `int` it
returns is nonzero. -/
def mx_vector_find_next {δ : Type} (v : header_t) (i : Nat) (eqf : List Byte → δ → Bool)
    (data : δ) : Nat :=
  match (List.range' i (v.length - i)).find? (fun j => eqf (mx_vector_get v j) data) with
  | some j => j
  | none => MX_ABSENT

/-- The function `mx_vector_find` (vector.c:329-331). -/
def mx_vector_find {δ : Type} (v : header_t) (eqf : List Byte → δ → Bool) (data : δ) : Nat :=
  mx_vector_find_next v 0 eqf data

/-- The function `mx_vector_find_last` (vector.c:342-349): the loop `for (; i-- > 0;)` visits
`i - 1`, `i - 2`, down to `0`. -/
def mx_vector_find_last {δ : Type} (v : header_t) (i : Nat) (eqf : List Byte → δ → Bool)
    (data : δ) : Nat :=
  match (List.range i).reverse.find? (fun j => eqf (mx_vector_get v j) data) with
  | some j => j
  | none => MX_ABSENT

/-- A vector of four one-byte elements `1, 2, 1, 3` in a block of volume 5. -/
def vec_1213 : header_t :=
  { element_size := 1, volume := 5, length := 4, data := [1, 2, 1, 3, 0] }

/-- The capacities reached by the reallocations during `k` appends starting from length `len`
and volume `vol`, in order: the append number `j` (counted from 0) finds the vector at length
`len + j` and reallocates when its volume is below `len + j + 1`. -/
def capacities_after_appends (len vol k : Nat) : List Nat :=
  (List.range k).filterMap (fun j =>
    if volume_after_appends len vol j < len + j + 1 then
      some (volume_after_appends len vol (j + 1))
    else none)

/-! ## The vectors a program can reach -/

/-- The vectors reachable from `mx_vector_create` and `mx_vector_create_with`: the blocks these
return, the blocks left by `mx_vector_resize`, `mx_vector_shrink`, `mx_vector_ensure`,
`mx_vector_inject` and `mx_vector_excise` called on a reachable vector within their
preconditions (arguments that are `size_t` values, indices within the length, a source that
holds the elements to insert), whether they succeed or return `NULL`, and the copies
`mx_vector_duplicate` returns. -/
inductive Reachable : header_t → Prop
  | create (al al1 : Allocator) (element_size : Nat) (v : header_t) :
      element_size ≤ SIZE_MAX → mx_vector_create al element_size = (al1, some v) → Reachable v
  | create_with (al al1 : Allocator) (element_size length : Nat) (v : header_t) :
      element_size ≤ SIZE_MAX → length ≤ SIZE_MAX →
      mx_vector_create_with al element_size length = (al1, some v) → Reachable v
  | resize (al : Allocator) (v : header_t) (volume : Nat) :
      Reachable v → volume ≤ SIZE_MAX → Reachable (mx_vector_resize al v volume).2.block
  | shrink (al : Allocator) (v : header_t) :
      Reachable v → Reachable (mx_vector_shrink al v).2.block
  | ensure (al : Allocator) (v : header_t) (n : Nat) :
      Reachable v → n ≤ SIZE_MAX → Reachable (mx_vector_ensure al v n).2.block
  | inject (al : Allocator) (v : header_t) (i : Nat) (elmt : Option (List Byte)) (n : Nat) :
      Reachable v → i ≤ v.length → n ≤ SIZE_MAX →
      (∀ e, elmt = some e → n * v.element_size ≤ e.length) →
      Reachable (mx_vector_inject al v i elmt n).2.block
  | excise (al : Allocator) (v : header_t) (i n : Nat) :
      Reachable v → i + n ≤ v.length → Reachable (mx_vector_excise al v i n).2.block
  | duplicate (al : Allocator) (v copy : header_t) :
      Reachable v → (mx_vector_duplicate al v).1.2 = some copy → Reachable copy

/-! ## `vector.c`: swapping and moving elements -/

/-- The loop of `mx_vector_swap` (vector.c:131-136): for `k` below `n`, the bytes at offsets
`a + k` and `b + k` are exchanged through `buffer`. -/
def swap_loop (data : List Byte) (a b n : Nat) : List Byte :=
  (List.range n).foldl
    (fun d k => (d.set (a + k) (d.getD (b + k) 0)).set (b + k) (d.getD (a + k) 0)) data

/-- The function `mx_vector_swap` (vector.c:126-137). -/
def mx_vector_swap (v : header_t) (i j : Nat) : header_t :=
  { v with
    data := swap_loop v.data (mx_vector_at v i) (mx_vector_at v j) v.element_size }

/-- The function `mx_vector_move` (vector.c:139-150). For `target < source` the loop
`while (source-- > target)` swaps at `source - 1`, `source - 2`, down to `target`; otherwise
the `for` loop swaps at `source`, `source + 1`, up to `target - 1`. -/
def mx_vector_move (v : header_t) (target source : Nat) : header_t :=
  if target = source then v
  else if target < source then
    (List.range' target (source - target)).reverse.foldl
      (fun w s => mx_vector_swap w s (size_add s 1)) v
  else
    (List.range' source (target - source)).foldl
      (fun w s => mx_vector_swap w s (size_add s 1)) v

/-- A vector of five two-byte elements in a block of volume 6. -/
def vec_five : header_t :=
  { element_size := 2, volume := 6, length := 5
    data := [10, 11, 20, 21, 30, 31, 40, 41, 50, 51, 0, 0] }

/-! ## Arithmetic facts -/

theorem size_add_eq {a b : Nat} (h : a + b ≤ SIZE_MAX) : size_add a b = a + b := by
  unfold size_add
  exact Nat.mod_eq_of_lt (by unfold SIZE_MAX at h; unfold SIZE_MOD; omega)

theorem size_sub_eq {a b : Nat} (hb : b ≤ a) (ha : a ≤ SIZE_MAX) : size_sub a b = a - b := by
  unfold size_sub
  unfold SIZE_MAX at ha
  unfold SIZE_MOD
  omega

theorem size_mul_eq {a b : Nat} (h : a * b ≤ SIZE_MAX) : size_mul a b = a * b := by
  unfold size_mul
  exact Nat.mod_eq_of_lt (by unfold SIZE_MAX at h; unfold SIZE_MOD; omega)

theorem prealloc_volume_mod (n : Nat) : prealloc_volume n = ((8 * n + 3) / 5) % SIZE_MOD := by
  have h1 : n % 5 * 8 % SIZE_MOD = n % 5 * 8 := Nat.mod_eq_of_lt (by unfold SIZE_MOD; omega)
  have h2 : (n % 5 * 8 + 3) % SIZE_MOD = n % 5 * 8 + 3 :=
    Nat.mod_eq_of_lt (by unfold SIZE_MOD; omega)
  have h3 : n / 5 * 8 + (n % 5 * 8 + 3) / 5 = (8 * n + 3) / 5 := by omega
  unfold prealloc_volume size_add size_mul
  rw [h1, h2, Nat.mod_add_mod, h3]

theorem prealloc_volume_eq {n : Nat} (h : (8 * n + 3) / 5 ≤ SIZE_MAX) :
    prealloc_volume n = (8 * n + 3) / 5 := by
  rw [prealloc_volume_mod]
  exact Nat.mod_eq_of_lt (by unfold SIZE_MAX at h; unfold SIZE_MOD; omega)

theorem shrink_volume_mod (n : Nat) : shrink_volume n = ((6 * n + 4) / 5) % SIZE_MOD := by
  have h1 : n % 5 * 6 % SIZE_MOD = n % 5 * 6 := Nat.mod_eq_of_lt (by unfold SIZE_MOD; omega)
  have h2 : (n % 5 * 6 + 4) % SIZE_MOD = n % 5 * 6 + 4 :=
    Nat.mod_eq_of_lt (by unfold SIZE_MOD; omega)
  have h3 : n / 5 * 6 + (n % 5 * 6 + 4) / 5 = (6 * n + 4) / 5 := by omega
  unfold shrink_volume size_add size_mul
  rw [h1, h2, Nat.mod_add_mod, h3]

theorem shrink_volume_eq {n : Nat} (h : (6 * n + 4) / 5 ≤ SIZE_MAX) :
    shrink_volume n = (6 * n + 4) / 5 := by
  rw [shrink_volume_mod]
  exact Nat.mod_eq_of_lt (by unfold SIZE_MAX at h; unfold SIZE_MOD; omega)

/-! ## The three outcomes of `mx_vector_resize` -/

theorem mx_vector_resize_overflow (al : Allocator) (v : header_t) (volume : Nat)
    (h : SIZE_MAX < volume * v.element_size + HEADER_SIZE) :
    mx_vector_resize al v volume = (al, Ret.null v) := by
  unfold mx_vector_resize mx_mulz_overflow mx_addz_overflow
  by_cases hm : SIZE_MAX < volume * v.element_size
  · simp [hm]
  · have hs : size_mul volume v.element_size = volume * v.element_size :=
      size_mul_eq (Nat.le_of_not_lt hm)
    simp [hm, hs, h]

theorem mx_vector_resize_fail (al : Allocator) (v : header_t) (volume : Nat)
    (h : volume * v.element_size + HEADER_SIZE ≤ SIZE_MAX) (ho : al.outcome al.calls = none) :
    mx_vector_resize al v volume = ({ al with calls := al.calls + 1 }, Ret.null v) := by
  have hm : ¬ SIZE_MAX < volume * v.element_size := by omega
  have hs : size_mul volume v.element_size = volume * v.element_size :=
    size_mul_eq (Nat.le_of_not_lt hm)
  have ha : ¬ SIZE_MAX < volume * v.element_size + HEADER_SIZE := by omega
  unfold mx_vector_resize mx_mulz_overflow mx_addz_overflow realloc
  simp [hm, hs, ha, ho]

theorem mx_vector_resize_ok (al : Allocator) (v : header_t) (volume : Nat) (junk : Nat → Byte)
    (h : volume * v.element_size + HEADER_SIZE ≤ SIZE_MAX)
    (ho : al.outcome al.calls = some junk) :
    mx_vector_resize al v volume =
      ({ al with calls := al.calls + 1, moved := al.moved + 1 },
        Ret.some (resized v volume junk)) := by
  have hm : ¬ SIZE_MAX < volume * v.element_size := by omega
  have hs : size_mul volume v.element_size = volume * v.element_size :=
    size_mul_eq (Nat.le_of_not_lt hm)
  have ha : ¬ SIZE_MAX < volume * v.element_size + HEADER_SIZE := by omega
  have hs2 : size_add (volume * v.element_size) HEADER_SIZE - HEADER_SIZE
      = volume * v.element_size := by
    rw [size_add_eq h]; omega
  unfold mx_vector_resize mx_mulz_overflow mx_addz_overflow realloc
  simp [hm, hs, ha, ho, hs2, resized]

/-- Every call of `mx_vector_resize` ends in one of three ways. -/
theorem mx_vector_resize_cases (al : Allocator) (v : header_t) (volume : Nat) :
    (SIZE_MAX < volume * v.element_size + HEADER_SIZE ∧
      mx_vector_resize al v volume = (al, Ret.null v)) ∨
    (volume * v.element_size + HEADER_SIZE ≤ SIZE_MAX ∧ al.outcome al.calls = none ∧
      mx_vector_resize al v volume = ({ al with calls := al.calls + 1 }, Ret.null v)) ∨
    (∃ junk, volume * v.element_size + HEADER_SIZE ≤ SIZE_MAX ∧
      al.outcome al.calls = some junk ∧
      mx_vector_resize al v volume =
        ({ al with calls := al.calls + 1, moved := al.moved + 1 },
          Ret.some (resized v volume junk))) := by
  by_cases h : SIZE_MAX < volume * v.element_size + HEADER_SIZE
  · exact Or.inl ⟨h, mx_vector_resize_overflow al v volume h⟩
  · have h1 : volume * v.element_size + HEADER_SIZE ≤ SIZE_MAX := Nat.le_of_not_lt h
    rcases ho : al.outcome al.calls with _ | junk
    · exact Or.inr (Or.inl ⟨h1, rfl, mx_vector_resize_fail al v volume h1 ho⟩)
    · exact Or.inr (Or.inr ⟨junk, h1, rfl, mx_vector_resize_ok al v volume junk h1 ho⟩)

/-! ## The outcomes of `mx_vector_ensure` -/

/-- Every call of `mx_vector_ensure` either finds room, or fails leaving the block as it was,
or returns the block resized to the preallocation target or to the requested length. -/
theorem mx_vector_ensure_cases (al : Allocator) (v : header_t) (n : Nat) :
    (n ≤ v.volume ∧ mx_vector_ensure al v n = (al, Ret.some v)) ∨
    (v.volume < n ∧ ∃ al1, mx_vector_ensure al v n = (al1, Ret.null v) ∧
      al1.moved = al.moved) ∨
    (v.volume < n ∧ ∃ al1 volume junk, n ≤ volume ∧
      (volume = n ∨ volume = prealloc_volume n) ∧
      volume * v.element_size + HEADER_SIZE ≤ SIZE_MAX ∧
      al1.moved = al.moved + 1 ∧ al1.calls ≤ al.calls + 2 ∧
      mx_vector_ensure al v n = (al1, Ret.some (resized v volume junk))) := by
  by_cases hv : v.volume < n
  · right
    have exact_cases : ∀ al0 : Allocator, al0.moved = al.moved → al0.calls ≤ al.calls + 1 →
        (∃ al1, mx_vector_resize al0 v n = (al1, Ret.null v) ∧ al1.moved = al.moved) ∨
        (∃ al1 volume junk, n ≤ volume ∧ (volume = n ∨ volume = prealloc_volume n) ∧
          volume * v.element_size + HEADER_SIZE ≤ SIZE_MAX ∧
          al1.moved = al.moved + 1 ∧ al1.calls ≤ al.calls + 2 ∧
          mx_vector_resize al0 v n = (al1, Ret.some (resized v volume junk))) := by
      intro al0 hm hc
      rcases mx_vector_resize_cases al0 v n with ⟨_, h⟩ | ⟨_, _, h⟩ | ⟨junk, hb, _, h⟩
      · exact Or.inl ⟨_, h, hm⟩
      · exact Or.inl ⟨_, h, hm⟩
      · refine Or.inr ⟨_, n, junk, Nat.le_refl n, Or.inl rfl, hb, ?_, ?_, h⟩
        · simp [hm]
        · simp; omega
    unfold mx_vector_ensure
    rw [if_pos hv]
    dsimp only
    by_cases hp : n < prealloc_volume n
    · rw [if_pos hp]
      rcases mx_vector_resize_cases al v (prealloc_volume n) with
        ⟨_, h⟩ | ⟨_, _, h⟩ | ⟨junk, hb, _, h⟩
      · rw [h]
        rcases exact_cases al rfl (by omega) with h1 | h1
        · exact Or.inl ⟨hv, h1⟩
        · exact Or.inr ⟨hv, h1⟩
      · rw [h]
        rcases exact_cases { al with calls := al.calls + 1 } rfl (Nat.le_refl _) with h1 | h1
        · exact Or.inl ⟨hv, h1⟩
        · exact Or.inr ⟨hv, h1⟩
      · rw [h]
        refine Or.inr ⟨hv, _, prealloc_volume n, junk, Nat.le_of_lt hp, Or.inr rfl, hb, ?_, ?_, rfl⟩
        · rfl
        · simp
    · rw [if_neg hp]
      rcases exact_cases al rfl (by omega) with h1 | h1
      · exact Or.inl ⟨hv, h1⟩
      · exact Or.inr ⟨hv, h1⟩
  · left
    unfold mx_vector_ensure
    simp [hv]
    omega

/-! ## The outcomes of `mx_vector_excise` -/

theorem MX_MINIMUM_eq_min (a b : Nat) : MX_MINIMUM a b = min a b := by
  unfold MX_MINIMUM
  split <;> omega

/-- Every call of `mx_vector_excise` on a vector with `n <= length <= volume` returns the moved
block with its length decreased, either in place or reallocated to `(6 * length + 4) / 5`. -/
theorem mx_vector_excise_cases (al : Allocator) (v : header_t) (i n : Nat)
    (hn : n ≤ v.length) (hl : v.length ≤ v.volume) (hv : v.volume ≤ SIZE_MAX) :
    (∃ al1, al1.moved = al.moved ∧ (al.outcome al.calls = none ∨ al1 = al) ∧
      mx_vector_excise al v i n =
        (al1, Ret.some { excise_moved v i n with length := v.length - n })) ∨
    (∃ junk, al.outcome al.calls = some junk ∧
      v.length - n ≤ (6 * (v.length - n) + 4) / 5 ∧
      (6 * (v.length - n) + 4) / 5 ≤ v.volume ∧
      ((6 * (v.length - n) + 4) / 5) * v.element_size + HEADER_SIZE ≤ SIZE_MAX ∧
      mx_vector_excise al v i n =
        ({ al with calls := al.calls + 1, moved := al.moved + 1 },
          Ret.some { resized (excise_moved v i n) ((6 * (v.length - n) + 4) / 5) junk with
            length := v.length - n })) := by
  have hL : size_sub v.length n = v.length - n := size_sub_eq hn (by omega)
  have hunf : mx_vector_excise al v i n =
      if v.length - n ≤ size_sub v.volume 1 / 2 then
        match mx_vector_resize al (excise_moved v i n) (shrink_volume (v.length - n)) with
        | (al1, Ret.some resize) => (al1, Ret.some { resize with length := v.length - n })
        | (al1, Ret.null orig) => (al1, Ret.some { orig with length := v.length - n })
      else (al, Ret.some { excise_moved v i n with length := v.length - n }) := by
    unfold mx_vector_excise excise_moved
    simp only [hL]
  rw [hunf]
  by_cases ht : v.length - n ≤ size_sub v.volume 1 / 2
  · rw [if_pos ht]
    have hs1 : size_sub v.volume 1 ≤ SIZE_MAX := by
      unfold size_sub SIZE_MAX SIZE_MOD; omega
    have hsv : shrink_volume (v.length - n) = (6 * (v.length - n) + 4) / 5 :=
      shrink_volume_eq (by unfold SIZE_MAX at *; omega)
    rw [hsv]
    rcases mx_vector_resize_cases al (excise_moved v i n) ((6 * (v.length - n) + 4) / 5) with
      ⟨_, h⟩ | ⟨_, ho, h⟩ | ⟨junk, hb, ho, h⟩
    · rw [h]
      exact Or.inl ⟨al, rfl, Or.inr rfl, rfl⟩
    · rw [h]
      exact Or.inl ⟨{ al with calls := al.calls + 1 }, rfl, Or.inl ho, rfl⟩
    · rw [h]
      refine Or.inr ⟨junk, ho, by omega, ?_, hb, rfl⟩
      by_cases h0 : v.volume = 0
      · omega
      · have : size_sub v.volume 1 = v.volume - 1 := size_sub_eq (by omega) hv
        omega
  · rw [if_neg ht]
    exact Or.inl ⟨al, rfl, Or.inr rfl, rfl⟩

/-! ## The invariant `length <= volume` -/

theorem resized_length_le_volume (v : header_t) (volume : Nat) (junk : Nat → Byte) :
    length_le_volume (resized v volume junk) := by
  unfold length_le_volume resized
  simp only [MX_MINIMUM_eq_min]
  omega

theorem resize_length_le_volume (al : Allocator) (v : header_t) (volume : Nat)
    (hl : length_le_volume v) : length_le_volume (mx_vector_resize al v volume).2.block := by
  rcases mx_vector_resize_cases al v volume with ⟨_, h⟩ | ⟨_, _, h⟩ | ⟨junk, _, _, h⟩
  · rw [h]; exact hl
  · rw [h]; exact hl
  · rw [h]; exact resized_length_le_volume v volume junk

theorem shrink_length_le_volume (al : Allocator) (v : header_t)
    (hl : length_le_volume v) : length_le_volume (mx_vector_shrink al v).2.block := by
  unfold mx_vector_shrink
  rcases mx_vector_resize_cases al v v.length with ⟨_, h⟩ | ⟨_, _, h⟩ | ⟨junk, _, _, h⟩
  · rw [h]; exact hl
  · rw [h]; exact hl
  · rw [h]; exact resized_length_le_volume v v.length junk

theorem ensure_length_le_volume (al : Allocator) (v : header_t) (n : Nat)
    (hl : length_le_volume v) : length_le_volume (mx_vector_ensure al v n).2.block := by
  rcases mx_vector_ensure_cases al v n with ⟨_, h⟩ | ⟨_, al1, h, _⟩ |
    ⟨_, al1, volume, junk, _, _, _, _, _, h⟩
  · rw [h]; exact hl
  · rw [h]; exact hl
  · rw [h]; exact resized_length_le_volume v volume junk

theorem inject_length_le_volume (al : Allocator) (v : header_t) (i : Nat)
    (elmt : Option (List Byte)) (n : Nat) (hl : length_le_volume v) :
    length_le_volume (mx_vector_inject al v i elmt n).2.block := by
  unfold mx_vector_inject mx_addz_overflow
  by_cases ho : SIZE_MAX < v.length + n
  · simp only [ho, decide_True, if_true]
    exact hl
  · have hs : size_add v.length n = v.length + n := size_add_eq (Nat.le_of_not_lt ho)
    simp only [ho, decide_False, hs]
    rcases mx_vector_ensure_cases al v (v.length + n) with ⟨hr, h⟩ | ⟨_, al1, h, _⟩ |
      ⟨_, al1, volume, junk, hr, _, _, _, _, h⟩
    · rw [h]
      exact hr
    · rw [h]
      exact hl
    · rw [h]
      exact hr

theorem excise_length_le_volume (al : Allocator) (v : header_t) (i n : Nat)
    (hn : n ≤ v.length) (hl : length_le_volume v) (hv : v.volume ≤ SIZE_MAX) :
    length_le_volume (mx_vector_excise al v i n).2.block := by
  have hl1 : v.length ≤ v.volume := hl
  rcases mx_vector_excise_cases al v i n hn hl hv with ⟨al1, _, _, h⟩ | ⟨junk, _, h1, _, _, h⟩
  · rw [h]
    show v.length - n ≤ v.volume
    omega
  · rw [h]
    exact h1

/-! ## C1: every operation preserves `length <= volume` -/

/-- C1: for every vector with `length <= volume` (its fields being `size_t` values), each of
`mx_vector_resize`, `mx_vector_shrink`, `mx_vector_ensure`, `mx_vector_inject`,
`mx_vector_insert`, `mx_vector_append`, `mx_vector_extend`, `mx_vector_excise`,
`mx_vector_remove`, `mx_vector_truncate`, `mx_vector_pull` and `mx_vector_shift`, called within
its index preconditions and under every allocator, leaves a block (the returned vector on
success, the original one on failure) that again satisfies `length <= volume`. -/
theorem C1_length_le_volume (al : Allocator) (v : header_t)
    (hl : length_le_volume v) (hv : v.volume ≤ SIZE_MAX) :
    (∀ volume, length_le_volume (mx_vector_resize al v volume).2.block) ∧
    length_le_volume (mx_vector_shrink al v).2.block ∧
    (∀ n, length_le_volume (mx_vector_ensure al v n).2.block) ∧
    (∀ i elmt n, i ≤ v.length → length_le_volume (mx_vector_inject al v i elmt n).2.block) ∧
    (∀ i elmt, i ≤ v.length → length_le_volume (mx_vector_insert al v i elmt).2.block) ∧
    (∀ elmt, length_le_volume (mx_vector_append al v elmt).2.block) ∧
    (∀ elmt n, length_le_volume (mx_vector_extend al v elmt n).2.block) ∧
    (∀ i n, i + n ≤ v.length → length_le_volume (mx_vector_excise al v i n).2.block) ∧
    (∀ i, i < v.length → length_le_volume (mx_vector_remove al v i).2.block) ∧
    (∀ length, length ≤ v.length →
      length_le_volume (mx_vector_truncate al v length).2.block) ∧
    (∀ out, 1 ≤ v.length → length_le_volume (mx_vector_pull al v out).1.2.block) ∧
    (∀ out, 1 ≤ v.length → length_le_volume (mx_vector_shift al v out).1.2.block) := by
  have hlen : v.length ≤ SIZE_MAX := Nat.le_trans hl hv
  refine ⟨fun volume => resize_length_le_volume al v volume hl,
    shrink_length_le_volume al v hl,
    fun n => ensure_length_le_volume al v n hl,
    fun i elmt n _ => inject_length_le_volume al v i elmt n hl,
    fun i elmt _ => inject_length_le_volume al v i elmt 1 hl,
    fun elmt => inject_length_le_volume al v v.length elmt 1 hl,
    fun elmt n => inject_length_le_volume al v v.length elmt n hl,
    fun i n h => excise_length_le_volume al v i n (by omega) hl hv,
    fun i h => excise_length_le_volume al v i 1 (by omega) hl hv,
    fun length h => ?_, fun out h => ?_, fun out h => ?_⟩
  · unfold mx_vector_truncate
    have h1 : size_sub v.length length = v.length - length := size_sub_eq h hlen
    exact excise_length_le_volume al v _ _ (by rw [h1]; omega) hl hv
  · show length_le_volume (mx_vector_excise al v (size_sub v.length 1) 1).2.block
    exact excise_length_le_volume al v (size_sub v.length 1) 1 h hl hv
  · show length_le_volume (mx_vector_excise al v 0 1).2.block
    exact excise_length_le_volume al v 0 1 h hl hv

/-- C1 at a concrete vector: three one-byte elements in a block of volume four. -/
theorem C1_length_le_volume_witness :
    length_le_volume
      (mx_vector_excise { outcome := fun _ => none, calls := 0, moved := 0 }
        { element_size := 1, volume := 4, length := 3, data := [7, 8, 9, 0] } 1 2).2.block :=
  (C1_length_le_volume { outcome := fun _ => none, calls := 0, moved := 0 }
    { element_size := 1, volume := 4, length := 3, data := [7, 8, 9, 0] }
    (by decide) (by decide)).2.2.2.2.2.2.2.1 1 2 (by decide)

/-! ## Elements as chunks of bytes -/

theorem length_chunks (es n : Nat) (bytes : List Byte) : (chunks es n bytes).length = n := by
  simp [chunks]

theorem chunks_add (es a b : Nat) (bytes : List Byte) :
    chunks es (a + b) bytes = chunks es a bytes ++ chunks es b (bytes.drop (a * es)) := by
  unfold chunks
  rw [List.range_add, List.map_append, List.map_map]
  congr 1
  apply List.map_congr_left
  intro k _
  simp only [Function.comp, List.drop_drop]
  congr 2
  ring

theorem chunks_take (es a m : Nat) (bytes : List Byte) (h : a * es ≤ m) :
    chunks es a (bytes.take m) = chunks es a bytes := by
  unfold chunks
  apply List.map_congr_left
  intro k hk
  have hk1 : k < a := List.mem_range.mp hk
  have hk2 : (k + 1) * es ≤ a * es := Nat.mul_le_mul_right es hk1
  have hk3 : es ≤ m - k * es := by
    have : (k + 1) * es = k * es + es := by ring
    omega
  rw [List.drop_take, List.take_take, Nat.min_eq_left hk3]

theorem chunks_congr (es a : Nat) (xs ys : List Byte)
    (h : xs.take (a * es) = ys.take (a * es)) : chunks es a xs = chunks es a ys := by
  rw [← chunks_take es a (a * es) xs (Nat.le_refl _), h, chunks_take es a (a * es) ys (Nat.le_refl _)]

theorem take_chunks (es i n : Nat) (bytes : List Byte) (h : i ≤ n) :
    (chunks es n bytes).take i = chunks es i bytes := by
  obtain ⟨b, rfl⟩ := Nat.exists_eq_add_of_le h
  rw [chunks_add, List.take_left' (length_chunks es i bytes)]

theorem drop_chunks (es i n : Nat) (bytes : List Byte) (h : i ≤ n) :
    (chunks es n bytes).drop i = chunks es (n - i) (bytes.drop (i * es)) := by
  obtain ⟨b, rfl⟩ := Nat.exists_eq_add_of_le h
  rw [chunks_add, List.drop_left' (length_chunks es i bytes), Nat.add_sub_cancel_left]

theorem chunks_append_left (es a : Nat) (xs ys : List Byte) (h : a * es ≤ xs.length) :
    chunks es a (xs ++ ys) = chunks es a xs := by
  apply chunks_congr
  rw [List.take_append_of_le_length h]

theorem chunks_append (es a b : Nat) (xs ys : List Byte) (h : xs.length = a * es) :
    chunks es (a + b) (xs ++ ys) = chunks es a xs ++ chunks es b ys := by
  rw [chunks_add, chunks_append_left es a xs ys (Nat.le_of_eq h.symm), ← h, List.drop_left]

/-! ## The bytes written by `mx_vector_inject` -/

/-- The storage written by `mx_vector_inject` is the old prefix, a gap of `n` elements (the
source when there is one), the shifted tail, and the untouched rest. -/
theorem injected_data_shape (d : List Byte) (es len i n : Nat) (elmt : Option (List Byte))
    (hi : i ≤ len) (hd : (len + n) * es ≤ d.length)
    (he : ∀ e, elmt = some e → n * es ≤ e.length) :
    ∃ gap : List Byte, gap.length = n * es ∧ (∀ e, elmt = some e → gap = e.take (n * es)) ∧
      injected_data d es len i n elmt =
        d.take (i * es) ++ gap ++ (d.drop (i * es)).take ((len - i) * es) ++
          d.drop ((len + n) * es) := by
  have h1 : (i + n) * es = i * es + n * es := by ring
  have h2 : (len + n) * es = len * es + n * es := by ring
  have h3 : i * es ≤ len * es := Nat.mul_le_mul_right es hi
  have h4 : (len - i) * es = len * es - i * es := Nat.sub_mul len i es
  have h5 : (i + n) * es + (len - i) * es = (len + n) * es := by omega
  have hA : (d.take (i * es)).length = i * es := by
    rw [List.length_take]; omega
  have hsplit : d.take ((i + n) * es) = d.take (i * es) ++ (d.drop (i * es)).take (n * es) := by
    rw [h1, List.take_add]
  have hG : ((d.drop (i * es)).take (n * es)).length = n * es := by
    rw [List.length_take, List.length_drop]; omega
  have hB : (d.take (i * es) ++ (d.drop (i * es)).take (n * es)).length
      = i * es + n * es := by
    rw [List.length_append, hA, hG]
  have htake : ∀ zs : List Byte, (d.take (i * es) ++ zs).take (i * es) = d.take (i * es) :=
    fun zs => List.take_left' hA
  have hdrop : ∀ zs : List Byte,
      (d.take (i * es) ++ ((d.drop (i * es)).take (n * es) ++ zs)).drop (i * es + n * es)
        = zs := by
    intro zs
    rw [← List.append_assoc, List.drop_left' hB]
  cases elmt with
  | none =>
    refine ⟨(d.drop (i * es)).take (n * es), hG, (fun e h => by cases h), ?_⟩
    simp only [injected_data, memmove]
    rw [h5, hsplit]
  | some e =>
    refine ⟨e.take (n * es), ?_, (fun e1 h => by cases h; rfl), ?_⟩
    · rw [List.length_take]
      exact Nat.min_eq_left (he e rfl)
    · simp only [injected_data, memcpy, memmove]
      rw [h5, hsplit]
      simp only [List.append_assoc]
      rw [htake, hdrop]

theorem mx_vector_inject_unfold (al : Allocator) (v : header_t) (i : Nat)
    (elmt : Option (List Byte)) (n : Nat) (h : v.length + n ≤ SIZE_MAX) :
    mx_vector_inject al v i elmt n =
      match mx_vector_ensure al v (v.length + n) with
      | (al1, Ret.null orig) => (al1, Ret.null orig)
      | (al1, Ret.some w) => (al1, Ret.some (inject_write w i elmt n (v.length + n))) := by
  have ho : ¬ SIZE_MAX < v.length + n := by omega
  unfold mx_vector_inject mx_addz_overflow inject_write
  simp only [ho, decide_False, size_add_eq h]
  rcases mx_vector_ensure al v (v.length + n) with ⟨al1, r⟩
  cases r with
  | null orig => rfl
  | some w => cases elmt <;> rfl

theorem inject_write_eq (w : header_t) (i : Nat) (elmt : Option (List Byte)) (n length : Nat)
    (hw : w.wf) (hi : i ≤ w.length) (hn : w.length + n ≤ w.volume) :
    inject_write w i elmt n length =
      { w with
        data := injected_data w.data w.element_size w.length i n elmt
        length := length } := by
  have hvol := hw.vol_le
  have hsz := hw.size_le
  have bound : ∀ k, k ≤ w.volume → k * w.element_size ≤ SIZE_MAX := by
    intro k hk
    have : k * w.element_size ≤ w.volume * w.element_size := Nat.mul_le_mul_right _ hk
    omega
  have e1 : size_add i n = i + n := size_add_eq (by omega)
  have e2 : size_add i 0 = i := size_add_eq (by omega)
  have e3 : size_sub w.length i = w.length - i := size_sub_eq hi (by omega)
  have e4 : size_mul (i + n) w.element_size = (i + n) * w.element_size :=
    size_mul_eq (bound _ (by omega))
  have e5 : size_mul i w.element_size = i * w.element_size := size_mul_eq (bound _ (by omega))
  have e6 : size_mul (w.length - i) w.element_size = (w.length - i) * w.element_size :=
    size_mul_eq (bound _ (by omega))
  have e7 : size_mul n w.element_size = n * w.element_size := size_mul_eq (bound _ (by omega))
  unfold inject_write injected_data mx_vector_at
  rw [e1, e2, e3, e4, e5, e6, e7]

/-! ## Well-formed blocks -/

theorem length_realloc_data (d : List Byte) (m : Nat) (junk : Nat → Byte) :
    (realloc_data d m junk).length = m := by
  unfold realloc_data
  simp only [List.length_append, List.length_take, List.length_map, List.length_range]
  omega

theorem realloc_data_take (d : List Byte) (m k : Nat) (junk : Nat → Byte)
    (hk : k ≤ m) (hd : k ≤ d.length) : (realloc_data d m junk).take k = d.take k := by
  unfold realloc_data
  rw [List.take_append_of_le_length (by rw [List.length_take]; omega), List.take_take,
    Nat.min_eq_left hk]

theorem resized_wf (v : header_t) (volume : Nat) (junk : Nat → Byte)
    (hes : v.element_size ≤ SIZE_MAX) (hvol : volume ≤ SIZE_MAX)
    (hsz : volume * v.element_size + HEADER_SIZE ≤ SIZE_MAX) : (resized v volume junk).wf :=
  { es_le := hes
    vol_le := hvol
    size_le := hsz
    data_len := length_realloc_data _ _ _
    len_le := resized_length_le_volume v volume junk }

theorem prealloc_volume_le (n : Nat) : prealloc_volume n ≤ SIZE_MAX := by
  rw [prealloc_volume_mod]
  unfold SIZE_MAX SIZE_MOD
  omega

theorem length_injected_data (d : List Byte) (es len i n : Nat) (elmt : Option (List Byte))
    (hi : i ≤ len) (hd : (len + n) * es ≤ d.length)
    (he : ∀ e, elmt = some e → n * es ≤ e.length) :
    (injected_data d es len i n elmt).length = d.length := by
  obtain ⟨gap, hg, _, hx⟩ := injected_data_shape d es len i n elmt hi hd he
  have h2 : (len + n) * es = len * es + n * es := by ring
  have h3 : i * es ≤ len * es := Nat.mul_le_mul_right es hi
  have h4 : (len - i) * es = len * es - i * es := Nat.sub_mul len i es
  rw [hx]
  simp only [List.length_append, List.length_take, List.length_drop, hg]
  omega

/-- The element sequence written by `mx_vector_inject`: the old elements before `i`, a gap of
`n` elements (the source's when there is one), and the old elements from `i` on. -/
theorem chunks_injected_data (d : List Byte) (es len i n : Nat) (elmt : Option (List Byte))
    (hi : i ≤ len) (hd : (len + n) * es ≤ d.length)
    (he : ∀ e, elmt = some e → n * es ≤ e.length) :
    ∃ gap : List (List Byte), gap.length = n ∧ (∀ e, elmt = some e → gap = chunks es n e) ∧
      chunks es (len + n) (injected_data d es len i n elmt) =
        (chunks es len d).take i ++ gap ++ (chunks es len d).drop i := by
  obtain ⟨g, hg, hge, hx⟩ := injected_data_shape d es len i n elmt hi hd he
  have h2 : (len + n) * es = len * es + n * es := by ring
  have h3 : i * es ≤ len * es := Nat.mul_le_mul_right es hi
  have h4 : (len - i) * es = len * es - i * es := Nat.sub_mul len i es
  have hA : (d.take (i * es)).length = i * es := by
    rw [List.length_take]; omega
  have hQ : ((d.drop (i * es)).take ((len - i) * es)).length = (len - i) * es := by
    rw [List.length_take, List.length_drop]; omega
  refine ⟨chunks es n g, length_chunks es n g, ?_, ?_⟩
  · intro e hee
    rw [hge e hee]
    exact chunks_take es n (n * es) e (Nat.le_refl _)
  · have hsum : len + n = i + (n + (len - i)) := by omega
    rw [hx, hsum]
    simp only [List.append_assoc]
    rw [chunks_append es i _ _ _ hA, chunks_append es n _ _ _ hg,
      chunks_append_left es (len - i) _ _ (Nat.le_of_eq hQ.symm),
      chunks_take es i (i * es) d (Nat.le_refl _),
      chunks_take es (len - i) ((len - i) * es) _ (Nat.le_refl _),
      take_chunks es i len d hi, drop_chunks es i len d hi]

/-- A successful `mx_vector_ensure` on a well-formed block returns a well-formed block with the
same element size, length and stored bytes, and room for `n` elements. -/
theorem mx_vector_ensure_ok (al al1 : Allocator) (v w : header_t) (n : Nat)
    (hw : v.wf) (hn : n ≤ SIZE_MAX) (h : mx_vector_ensure al v n = (al1, Ret.some w)) :
    w.wf ∧ w.element_size = v.element_size ∧ w.length = v.length ∧ n ≤ w.volume ∧
      v.volume ≤ w.volume ∧
      ∀ k, k ≤ v.data.length → w.data.take k = v.data.take k := by
  rcases mx_vector_ensure_cases al v n with ⟨hr, h1⟩ | ⟨_, al2, h1, _⟩ |
    ⟨hlt, al2, volume, junk, hr, hvol, hsz, _, _, h1⟩
  · rw [h1] at h
    have hv : v = w := by injection h with _ h2; injection h2
    subst hv
    exact ⟨hw, rfl, rfl, hr, Nat.le_refl _, fun _ _ => rfl⟩
  · rw [h1] at h
    injection h with _ h2
    cases h2
  · rw [h1] at h
    have hv : resized v volume junk = w := by injection h with _ h2; injection h2
    subst hv
    have hvol1 : volume ≤ SIZE_MAX := by
      rcases hvol with hvol | hvol
      · omega
      · rw [hvol]; exact prealloc_volume_le n
    have hlen := hw.len_le
    refine ⟨resized_wf v volume junk hw.es_le hvol1 hsz, rfl, ?_, hr, by
      show v.volume ≤ volume
      omega, ?_⟩
    · show MX_MINIMUM v.length volume = v.length
      rw [MX_MINIMUM_eq_min]
      omega
    · intro k hk
      show (realloc_data v.data (volume * v.element_size) junk).take k = v.data.take k
      have hdl := hw.data_len
      have : v.volume * v.element_size ≤ volume * v.element_size :=
        Nat.mul_le_mul_right _ (by omega)
      exact realloc_data_take _ _ _ _ (by omega) hk

/-! ## `mx_vector_inject` on well-formed blocks -/

theorem inject_null_or_overflow (al : Allocator) (v : header_t) (i : Nat)
    (elmt : Option (List Byte)) (n : Nat) (h : SIZE_MAX < v.length + n) :
    mx_vector_inject al v i elmt n = (al, Ret.null v) := by
  unfold mx_vector_inject mx_addz_overflow
  simp [h]

/-- A successful `mx_vector_inject` on a well-formed block: the result is well formed, keeps
the element size, has the volume its `mx_vector_ensure` produced and length `length + n`, and
holds the old elements with a gap of `n` elements opened at `i`. -/
theorem mx_vector_inject_ok (al al1 : Allocator) (v r : header_t) (i n : Nat)
    (elmt : Option (List Byte)) (hw : v.wf) (hi : i ≤ v.length)
    (he : ∀ e, elmt = some e → n * v.element_size ≤ e.length)
    (h : mx_vector_inject al v i elmt n = (al1, Ret.some r)) :
    r.wf ∧ r.element_size = v.element_size ∧ r.length = v.length + n ∧
      v.length + n ≤ SIZE_MAX ∧ v.volume ≤ r.volume ∧
      (∃ w, mx_vector_ensure al v (v.length + n) = (al1, Ret.some w) ∧ r.volume = w.volume) ∧
      ∃ gap : List (List Byte), gap.length = n ∧
        (∀ e, elmt = some e → gap = chunks v.element_size n e) ∧
        elements r = (elements v).take i ++ gap ++ (elements v).drop i := by
  by_cases hov : SIZE_MAX < v.length + n
  · rw [inject_null_or_overflow al v i elmt n hov] at h
    injection h with _ h2
    cases h2
  have hov1 : v.length + n ≤ SIZE_MAX := Nat.le_of_not_lt hov
  rw [mx_vector_inject_unfold al v i elmt n hov1] at h
  rcases hen : mx_vector_ensure al v (v.length + n) with ⟨al2, r2⟩
  rw [hen] at h
  cases r2 with
  | null orig =>
    injection h with _ h2
    cases h2
  | some w =>
    have hal : al2 = al1 := by injection h
    have hr : inject_write w i elmt n (v.length + n) = r := by
      injection h with _ h2; injection h2
    subst hal
    obtain ⟨hww, hes, hlen, hroom, hgrow, hpre⟩ := mx_vector_ensure_ok al al2 v w _ hw hov1 hen
    have hi1 : i ≤ w.length := by omega
    rw [inject_write_eq w i elmt n _ hww hi1 (by omega)] at hr
    subst hr
    have hdl : (w.length + n) * w.element_size ≤ w.data.length := by
      rw [hww.data_len]
      exact Nat.mul_le_mul_right _ (by omega)
    have he1 : ∀ e, elmt = some e → n * w.element_size ≤ e.length := by
      rw [hes]; exact he
    have hvl : v.length * v.element_size ≤ v.data.length := by
      rw [hw.data_len]
      exact Nat.mul_le_mul_right _ hw.len_le
    refine ⟨?_, hes, rfl, hov1, hgrow, ⟨w, rfl, rfl⟩, ?_⟩
    · exact
        { es_le := hww.es_le
          vol_le := hww.vol_le
          size_le := hww.size_le
          data_len := by
            show (injected_data w.data w.element_size w.length i n elmt).length = _
            rw [length_injected_data _ _ _ _ _ _ hi1 hdl he1]
            exact hww.data_len
          len_le := hroom }
    · obtain ⟨gap, hg, hge, hx⟩ :=
        chunks_injected_data w.data w.element_size w.length i n elmt hi1 hdl he1
      refine ⟨gap, hg, ?_, ?_⟩
      · rw [← hes]; exact hge
      · have hold : chunks w.element_size w.length w.data = elements v := by
          unfold elements
          rw [hes, hlen]
          apply chunks_congr
          exact hpre _ hvl
        show chunks w.element_size (v.length + n)
          (injected_data w.data w.element_size w.length i n elmt) = _
        rw [← hlen, hx, hold]

theorem vec_full_wf : vec_full.wf :=
  { es_le := by decide, vol_le := by decide, size_le := by decide, data_len := by decide,
    len_le := by decide }

theorem vec_slack_wf : vec_slack.wf :=
  { es_le := by decide, vol_le := by decide, size_le := by decide, data_len := by decide,
    len_le := by decide }

/-! ## C2: the result of a successful `mx_vector_inject` -/

/-- C3: `mx_vector_inject` returns `NULL` exactly when `length + n` overflows `size_t` or
`mx_vector_ensure(length + n)` returns `NULL`, and whenever it returns `NULL` the original
block is unmodified: element size, volume, length and every stored byte are as before. -/
theorem C3_inject_null (al : Allocator) (v : header_t) (i : Nat) (elmt : Option (List Byte))
    (n : Nat) :
    ((mx_vector_inject al v i elmt n).2.isNull = true ↔
      (SIZE_MAX < v.length + n ∨ (mx_vector_ensure al v (v.length + n)).2.isNull = true)) ∧
    ((mx_vector_inject al v i elmt n).2.isNull = true →
      (mx_vector_inject al v i elmt n).2 = Ret.null v) := by
  by_cases hov : SIZE_MAX < v.length + n
  · rw [inject_null_or_overflow al v i elmt n hov]
    exact ⟨⟨fun _ => Or.inl hov, fun _ => rfl⟩, fun _ => rfl⟩
  · rw [mx_vector_inject_unfold al v i elmt n (Nat.le_of_not_lt hov)]
    rcases mx_vector_ensure_cases al v (v.length + n) with ⟨_, h1⟩ | ⟨_, al2, h1, _⟩ |
      ⟨_, al2, volume, junk, _, _, _, _, _, h1⟩
    · rw [h1]
      refine ⟨⟨fun h => ?_, fun h => ?_⟩, fun h => ?_⟩
      · cases h
      · rcases h with h | h
        · exact absurd h hov
        · cases h
      · cases h
    · rw [h1]
      exact ⟨⟨fun _ => Or.inr rfl, fun _ => rfl⟩, fun _ => rfl⟩
    · rw [h1]
      refine ⟨⟨fun h => ?_, fun h => ?_⟩, fun h => ?_⟩
      · cases h
      · rcases h with h | h
        · exact absurd h hov
        · cases h
      · cases h

/-! ## `mx_vector_excise` on well-formed blocks -/

theorem excise_moved_eq (v : header_t) (i n : Nat) (hw : v.wf) (hin : i + n ≤ v.length) :
    excise_moved v i n =
      { v with
        data :=
          memmove v.data (i * v.element_size) ((i + n) * v.element_size)
            ((v.length - n - i) * v.element_size) } := by
  have hvol := hw.vol_le
  have hsz := hw.size_le
  have hlen := hw.len_le
  have bound : ∀ k, k ≤ v.volume → k * v.element_size ≤ SIZE_MAX := by
    intro k hk
    have : k * v.element_size ≤ v.volume * v.element_size := Nat.mul_le_mul_right _ hk
    omega
  have e1 : size_add i n = i + n := size_add_eq (by omega)
  have e2 : size_add i 0 = i := size_add_eq (by omega)
  have e3 : size_sub v.length n = v.length - n := size_sub_eq (by omega) (by omega)
  have e4 : size_sub (v.length - n) i = v.length - n - i := size_sub_eq (by omega) (by omega)
  have e5 : size_mul (i + n) v.element_size = (i + n) * v.element_size :=
    size_mul_eq (bound _ (by omega))
  have e6 : size_mul i v.element_size = i * v.element_size := size_mul_eq (bound _ (by omega))
  have e7 : size_mul (v.length - n - i) v.element_size = (v.length - n - i) * v.element_size :=
    size_mul_eq (bound _ (by omega))
  unfold excise_moved mx_vector_at
  rw [e1, e2, e3, e4, e5, e6, e7]

/-- The storage after the `memmove` of `mx_vector_excise` keeps its size and holds the old
elements without those at `i .. i + n`. -/
theorem chunks_excised (d : List Byte) (es len i n : Nat) (hin : i + n ≤ len)
    (hd : len * es ≤ d.length) :
    (memmove d (i * es) ((i + n) * es) ((len - n - i) * es)).length = d.length ∧
    chunks es (len - n) (memmove d (i * es) ((i + n) * es) ((len - n - i) * es)) =
      (chunks es len d).take i ++ (chunks es len d).drop (i + n) := by
  have h1 : (i + n) * es + (len - n - i) * es = len * es := by
    rw [← Nat.add_mul]
    congr 1
    omega
  have h2 : i * es + (len - n - i) * es = (len - n) * es := by
    rw [← Nat.add_mul]
    congr 1
    omega
  have h3 : (len - n) * es ≤ len * es := Nat.mul_le_mul_right es (by omega)
  have hA : (d.take (i * es)).length = i * es := by
    rw [List.length_take]; omega
  have hQ : ((d.drop ((i + n) * es)).take ((len - n - i) * es)).length
      = (len - n - i) * es := by
    rw [List.length_take, List.length_drop]; omega
  unfold memmove
  constructor
  · simp only [List.length_append, hA, hQ, List.length_drop]
    omega
  · have hsum : len - n = i + (len - n - i) := by omega
    have hsum2 : len - (i + n) = len - n - i := by omega
    have hsplit := chunks_append es i (len - n - i) (d.take (i * es))
      ((d.drop ((i + n) * es)).take ((len - n - i) * es) ++
        d.drop (i * es + (len - n - i) * es)) hA
    rw [← hsum] at hsplit
    rw [List.append_assoc, hsplit,
      chunks_append_left es (len - n - i) _ _ (Nat.le_of_eq hQ.symm),
      chunks_take es i (i * es) d (Nat.le_refl _),
      chunks_take es (len - n - i) ((len - n - i) * es) _ (Nat.le_refl _),
      take_chunks es i len d (by omega), drop_chunks es (i + n) len d hin, hsum2]

/-- The function `mx_vector_excise` on a well-formed block never returns `NULL`: it returns a
well-formed block of length `length - n` holding the old elements without those at
`i .. i + n`, never larger than before and as large as before when the reallocation fails. -/
theorem mx_vector_excise_ok (al : Allocator) (v : header_t) (i n : Nat) (hw : v.wf)
    (hin : i + n ≤ v.length) :
    ∃ al1 r, mx_vector_excise al v i n = (al1, Ret.some r) ∧ r.wf ∧
      r.element_size = v.element_size ∧ r.length = v.length - n ∧ r.volume ≤ v.volume ∧
      (al.outcome al.calls = none → r.volume = v.volume) ∧
      elements r = (elements v).take i ++ (elements v).drop (i + n) := by
  have hlen := hw.len_le
  have hdl := hw.data_len
  have hvl : v.length * v.element_size ≤ v.data.length := by
    rw [hdl]; exact Nat.mul_le_mul_right _ hlen
  obtain ⟨hmlen, hmch⟩ := chunks_excised v.data v.element_size v.length i n hin hvl
  rcases mx_vector_excise_cases al v i n (by omega) hlen hw.vol_le with
    ⟨al1, _, _, h⟩ | ⟨junk, ho, h1, h2, hb, h⟩
  · refine ⟨al1, _, h, ?_, rfl, rfl, Nat.le_refl _, fun _ => rfl, ?_⟩
    · rw [excise_moved_eq v i n hw hin]
      exact
        { es_le := hw.es_le, vol_le := hw.vol_le, size_le := hw.size_le
          data_len := by
            show (memmove v.data _ _ _).length = _
            rw [hmlen]; exact hdl
          len_le := by
            show v.length - n ≤ v.volume
            omega }
    · rw [excise_moved_eq v i n hw hin]
      exact hmch
  · have hvol1 : (6 * (v.length - n) + 4) / 5 ≤ SIZE_MAX := Nat.le_trans h2 hw.vol_le
    have hrw := resized_wf (excise_moved v i n) _ junk hw.es_le hvol1 hb
    refine ⟨_, _, h, ?_, rfl, rfl, h2, fun hnone => ?_, ?_⟩
    · exact
        { es_le := hrw.es_le, vol_le := hrw.vol_le, size_le := hrw.size_le
          data_len := hrw.data_len, len_le := h1 }
    · rw [hnone] at ho
      cases ho
    · have h3 : (v.length - n) * v.element_size ≤ v.length * v.element_size :=
        Nat.mul_le_mul_right _ (by omega)
      have h4 : (v.length - n) * v.element_size ≤
          (6 * (v.length - n) + 4) / 5 * v.element_size := Nat.mul_le_mul_right _ h1
      rw [excise_moved_eq v i n hw hin]
      show chunks v.element_size (v.length - n)
        (realloc_data (memmove v.data _ _ _) (_ * v.element_size) junk) =
          (chunks v.element_size v.length v.data).take i ++
            (chunks v.element_size v.length v.data).drop (i + n)
      rw [← hmch]
      apply chunks_congr
      exact realloc_data_take _ _ _ _ h4 (by rw [hmlen]; omega)

/-! ## C4: the result of `mx_vector_excise` -/

/-- C4: for every well-formed vector holding `xs` and every `i`, `n` with `i + n <= length`,
`mx_vector_excise(v, i, n)` never returns `NULL`; under every allocator it returns a vector of
length `length - n` whose element sequence is `xs[0..i) ++ xs[i+n..length)`, and if the
reallocation fails the volume is unchanged. -/
theorem C4_excise_elements (al : Allocator) (v : header_t) (i n : Nat) (hw : v.wf)
    (hin : i + n ≤ v.length) :
    ∃ al1 r, mx_vector_excise al v i n = (al1, Ret.some r) ∧ r.length = v.length - n ∧
      elements r = (elements v).take i ++ (elements v).drop (i + n) ∧
      (al.outcome al.calls = none → r.volume = v.volume) := by
  obtain ⟨al1, r, h, _, _, hlen, _, hvol, hx⟩ := mx_vector_excise_ok al v i n hw hin
  exact ⟨al1, r, h, hlen, hx, hvol⟩

/-- C4 at a concrete input: removing the middle element of `7, 8, 9` while the allocator fails. -/
theorem C4_excise_elements_witness :
    ∃ al1 r, mx_vector_excise alloc_fail vec_slack 1 1 = (al1, Ret.some r) ∧
      r.length = vec_slack.length - 1 ∧
      elements r = (elements vec_slack).take 1 ++ (elements vec_slack).drop (1 + 1) ∧
      (alloc_fail.outcome alloc_fail.calls = none → r.volume = vec_slack.volume) :=
  C4_excise_elements alloc_fail vec_slack 1 1 vec_slack_wf (by decide)

/-! ## C5: inject then excise -/

/-- C5: for every well-formed vector holding `xs`, every `i <= length` and every source of `n`
elements (or the `NULL` source), a successful `mx_vector_inject(v, i, ys, n)` followed by
`mx_vector_excise(., i, n)` under any allocator yields a vector whose length and element
sequence are those of `v` again. -/
theorem C5_inject_excise_roundtrip (al al1 al2 : Allocator) (v r : header_t) (i n : Nat)
    (elmt : Option (List Byte)) (hw : v.wf) (hi : i ≤ v.length)
    (he : ∀ e, elmt = some e → n * v.element_size ≤ e.length)
    (h : mx_vector_inject al v i elmt n = (al1, Ret.some r)) :
    ∃ al3 r2, mx_vector_excise al2 r i n = (al3, Ret.some r2) ∧ r2.length = v.length ∧
      r2.element_size = v.element_size ∧ elements r2 = elements v := by
  obtain ⟨hrw, hes, hlen, _, _, _, gap, hg, _, hx⟩ :=
    mx_vector_inject_ok al al1 v r i n elmt hw hi he h
  obtain ⟨al3, r2, h2, _, hes2, hlen2, _, _, hx2⟩ :=
    mx_vector_excise_ok al2 r i n hrw (by omega)
  refine ⟨al3, r2, h2, by omega, by rw [hes2, hes], ?_⟩
  have hlx : (elements v).length = v.length := length_chunks _ _ _
  have ht : ((elements v).take i).length = i := by
    rw [List.length_take]; omega
  have htg : ((elements v).take i ++ gap).length = i + n := by
    rw [List.length_append, ht, hg]
  rw [hx2, hx, List.append_assoc, List.take_left' ht, ← List.append_assoc,
    List.drop_left' htg, List.take_append_drop]

/-- C5 at a concrete input: `[9, 9]` injected at index 1 of `[1, 2], [3, 4]` and excised again. -/
theorem C5_inject_excise_roundtrip_witness :
    ∃ al3 r2,
      mx_vector_excise alloc_fail
        (mx_vector_inject alloc_ok vec_full 1 (some [9, 9]) 1).2.block 1 1 =
        (al3, Ret.some r2) ∧
      r2.length = vec_full.length ∧ r2.element_size = vec_full.element_size ∧
      elements r2 = elements vec_full :=
  C5_inject_excise_roundtrip alloc_ok (mx_vector_inject alloc_ok vec_full 1 (some [9, 9]) 1).1
    alloc_fail vec_full (mx_vector_inject alloc_ok vec_full 1 (some [9, 9]) 1).2.block 1 1
    (some [9, 9]) vec_full_wf (by decide) (fun e he => by cases he; decide) rfl

theorem mx_vector_resize_some_volume (al al1 : Allocator) (v r : header_t) (volume : Nat)
    (h : mx_vector_resize al v volume = (al1, Ret.some r)) : r.volume = volume := by
  rcases mx_vector_resize_cases al v volume with ⟨_, h1⟩ | ⟨_, _, h1⟩ | ⟨junk, _, _, h1⟩
  · rw [h1] at h
    injection h with _ h2
    cases h2
  · rw [h1] at h
    injection h with _ h2
    cases h2
  · rw [h1] at h
    have hr : resized v volume junk = r := by injection h with _ h2; injection h2
    rw [← hr]
    rfl

theorem mx_vector_resize_null_of_none (al : Allocator) (v : header_t) (volume : Nat)
    (ho : al.outcome al.calls = none) : (mx_vector_resize al v volume).2 = Ret.null v := by
  rcases mx_vector_resize_cases al v volume with ⟨_, h1⟩ | ⟨_, _, h1⟩ | ⟨junk, _, ho1, _⟩
  · rw [h1]
  · rw [h1]
  · rw [ho] at ho1
    cases ho1

/-! ## C6 and C7: `mx_vector_resize` -/

/-- C6: for every well-formed vector and every requested volume, a successful
`mx_vector_resize(v, volume)` returns a vector whose volume is the request, whose length is
`min(old length, volume)`, whose element size is unchanged and whose elements are the first
`min(old length, volume)` old ones. -/
theorem C6_resize_ok (al al1 : Allocator) (v r : header_t) (volume : Nat) (hw : v.wf)
    (h : mx_vector_resize al v volume = (al1, Ret.some r)) :
    r.volume = volume ∧ r.length = min v.length volume ∧ r.element_size = v.element_size ∧
      elements r = (elements v).take (min v.length volume) := by
  rcases mx_vector_resize_cases al v volume with ⟨_, h1⟩ | ⟨_, _, h1⟩ | ⟨junk, _, _, h1⟩
  · rw [h1] at h
    injection h with _ h2
    cases h2
  · rw [h1] at h
    injection h with _ h2
    cases h2
  · rw [h1] at h
    have hr : resized v volume junk = r := by injection h with _ h2; injection h2
    subst hr
    refine ⟨rfl, MX_MINIMUM_eq_min _ _, rfl, ?_⟩
    have hlen := hw.len_le
    have hdl := hw.data_len
    have hm1 : min v.length volume * v.element_size ≤ volume * v.element_size :=
      Nat.mul_le_mul_right _ (Nat.min_le_right _ _)
    have hm2 : min v.length volume * v.element_size ≤ v.volume * v.element_size :=
      Nat.mul_le_mul_right _ (Nat.le_trans (Nat.min_le_left _ _) hlen)
    show chunks v.element_size (MX_MINIMUM v.length volume)
      (realloc_data v.data (volume * v.element_size) junk) =
        (chunks v.element_size v.length v.data).take (min v.length volume)
    rw [MX_MINIMUM_eq_min, take_chunks _ _ _ _ (Nat.min_le_left _ _)]
    apply chunks_congr
    exact realloc_data_take _ _ _ _ hm1 (by omega)

/-- C6 at a concrete input: truncating `7, 8, 9` to volume 2. -/
theorem C6_resize_ok_witness :
    (mx_vector_resize alloc_ok vec_slack 2).2.block.volume = 2 ∧
    (mx_vector_resize alloc_ok vec_slack 2).2.block.length = min vec_slack.length 2 ∧
    (mx_vector_resize alloc_ok vec_slack 2).2.block.element_size = vec_slack.element_size ∧
    elements (mx_vector_resize alloc_ok vec_slack 2).2.block = [[7], [8]] :=
  C6_resize_ok alloc_ok (mx_vector_resize alloc_ok vec_slack 2).1 vec_slack
    (mx_vector_resize alloc_ok vec_slack 2).2.block 2 vec_slack_wf rfl

/-- C7: `mx_vector_resize(v, volume)` returns `NULL` whenever
`volume * element_size + sizeof(header_t)` exceeds `SIZE_MAX`, in which case the allocator is
not called, and whenever the reallocation fails; in both cases the original block is
unmodified (element size, volume, length and every stored byte). -/
theorem C7_resize_null (al : Allocator) (v : header_t) (volume : Nat) :
    (SIZE_MAX < volume * v.element_size + HEADER_SIZE →
      mx_vector_resize al v volume = (al, Ret.null v)) ∧
    (al.outcome al.calls = none → (mx_vector_resize al v volume).2 = Ret.null v) := by
  refine ⟨mx_vector_resize_overflow al v volume, fun ho => ?_⟩
  rcases mx_vector_resize_cases al v volume with ⟨_, h1⟩ | ⟨_, _, h1⟩ | ⟨junk, _, ho1, _⟩
  · rw [h1]
  · rw [h1]
  · rw [ho] at ho1
    cases ho1

/-- C7 at concrete inputs: a request of `SIZE_MAX` two-byte elements, and a failing allocator. -/
theorem C7_resize_null_witness :
    mx_vector_resize alloc_ok vec_full SIZE_MAX = (alloc_ok, Ret.null vec_full) ∧
    (mx_vector_resize alloc_fail vec_full 3).2 = Ret.null vec_full :=
  ⟨(C7_resize_null alloc_ok vec_full SIZE_MAX).1 (by decide),
    (C7_resize_null alloc_fail vec_full 3).2 rfl⟩

/-- C3 at a concrete input: injecting into a full vector while the allocator fails. -/
theorem C3_inject_null_witness :
    (mx_vector_inject alloc_fail vec_full 1 (some [9, 9]) 1).2 = Ret.null vec_full :=
  (C3_inject_null alloc_fail vec_full 1 (some [9, 9]) 1).2 rfl

/-! ## C8: `mx_vector_ensure` -/

/-- C8: `mx_vector_ensure(v, n)` on a well-formed vector. If `volume >= n` the vector is
returned unchanged and the allocator is not called. Otherwise every successful call returns a
vector with the same length, element size and elements, whose volume is `(8n+3)/5` when that
value does not overflow and the preallocating `mx_vector_resize` succeeds, and exactly `n`
otherwise, so that `volume >= n`; every `NULL` return leaves the block unmodified, and when
both reallocations fail the call returns `NULL`. -/
theorem C8_ensure (al : Allocator) (v : header_t) (n : Nat) (hw : v.wf) (hn : n ≤ SIZE_MAX) :
    (n ≤ v.volume → mx_vector_ensure al v n = (al, Ret.some v)) ∧
    (v.volume < n →
      (∀ al1 r, mx_vector_ensure al v n = (al1, Ret.some r) →
        r.length = v.length ∧ r.element_size = v.element_size ∧ elements r = elements v ∧
        n ≤ r.volume ∧
        r.volume =
          if (8 * n + 3) / 5 ≤ SIZE_MAX ∧
              (mx_vector_resize al v ((8 * n + 3) / 5)).2.isNull = false
          then (8 * n + 3) / 5 else n) ∧
      (∀ al1 orig, mx_vector_ensure al v n = (al1, Ret.null orig) → orig = v) ∧
      (al.outcome al.calls = none → al.outcome (al.calls + 1) = none →
        (mx_vector_ensure al v n).2 = Ret.null v)) := by
  refine ⟨fun hr => ?_, fun hlt => ⟨fun al1 r h => ?_, fun al1 orig h => ?_, fun h0 h1 => ?_⟩⟩
  · unfold mx_vector_ensure
    rw [if_neg (by omega)]
  · obtain ⟨_, hes, hlen, hroom, _, hpre⟩ := mx_vector_ensure_ok al al1 v r n hw hn h
    have hvl : v.length * v.element_size ≤ v.data.length := by
      rw [hw.data_len]
      exact Nat.mul_le_mul_right _ hw.len_le
    refine ⟨hlen, hes, ?_, hroom, ?_⟩
    · unfold elements
      rw [hes, hlen]
      exact chunks_congr _ _ _ _ (hpre _ hvl)
    · unfold mx_vector_ensure at h
      rw [if_pos hlt] at h
      dsimp only at h
      by_cases hfit : (8 * n + 3) / 5 ≤ SIZE_MAX
      · have hp : prealloc_volume n = (8 * n + 3) / 5 := prealloc_volume_eq hfit
        have hgt : n < prealloc_volume n := by rw [hp]; omega
        rw [if_pos hgt, hp] at h
        rcases mx_vector_resize_cases al v ((8 * n + 3) / 5) with
          ⟨_, h1⟩ | ⟨_, _, h1⟩ | ⟨junk, _, _, h1⟩
        · rw [h1] at h ⊢
          have hc : ¬ ((8 * n + 3) / 5 ≤ SIZE_MAX ∧ (Ret.null v).isNull = false) := by
            intro hc; cases hc.2
          rw [if_neg hc]
          exact mx_vector_resize_some_volume al al1 v r n h
        · rw [h1] at h ⊢
          have hc : ¬ ((8 * n + 3) / 5 ≤ SIZE_MAX ∧ (Ret.null v).isNull = false) := by
            intro hc; cases hc.2
          rw [if_neg hc]
          exact mx_vector_resize_some_volume _ al1 v r n h
        · rw [h1] at h ⊢
          have hc : (8 * n + 3) / 5 ≤ SIZE_MAX ∧
              (Ret.some (resized v ((8 * n + 3) / 5) junk)).isNull = false := ⟨hfit, rfl⟩
          rw [if_pos hc]
          have hr : resized v ((8 * n + 3) / 5) junk = r := by
            injection h with _ h2; injection h2
          rw [← hr]
          rfl
      · have hc : ¬ ((8 * n + 3) / 5 ≤ SIZE_MAX ∧
            (mx_vector_resize al v ((8 * n + 3) / 5)).2.isNull = false) := fun hc => hfit hc.1
        rw [if_neg hc]
        have hle : ¬ n < prealloc_volume n := by
          have hfit1 : SIZE_MAX < (8 * n + 3) / 5 := Nat.lt_of_not_le hfit
          unfold SIZE_MAX at hfit1 hn
          have hge : (8 * n + 3) / 5 ≥ SIZE_MOD := by unfold SIZE_MOD; omega
          have hlt2 : (8 * n + 3) / 5 - SIZE_MOD < SIZE_MOD := by unfold SIZE_MOD; omega
          rw [prealloc_volume_mod, Nat.mod_eq_sub_mod hge, Nat.mod_eq_of_lt hlt2]
          unfold SIZE_MOD
          omega
        rw [if_neg hle] at h
        exact mx_vector_resize_some_volume al al1 v r n h
  · rcases mx_vector_ensure_cases al v n with ⟨_, h1⟩ | ⟨_, al2, h1, _⟩ |
      ⟨_, al2, volume, junk, _, _, _, _, _, h1⟩
    · rw [h1] at h
      injection h with _ h2
      cases h2
    · rw [h1] at h
      injection h with _ h2
      injection h2 with h3
      exact h3.symm
    · rw [h1] at h
      injection h with _ h2
      cases h2
  · have hfail : ∀ al0 : Allocator, al0.outcome al0.calls = none → ∀ m,
        (mx_vector_resize al0 v m).2 = Ret.null v := fun al0 h m => mx_vector_resize_null_of_none al0 v m h
    unfold mx_vector_ensure
    rw [if_pos hlt]
    dsimp only
    by_cases hgt : n < prealloc_volume n
    · rw [if_pos hgt]
      rcases mx_vector_resize_cases al v (prealloc_volume n) with
        ⟨_, h2⟩ | ⟨_, _, h2⟩ | ⟨junk, _, ho, _⟩
      · rw [h2]
        exact hfail al h0 n
      · rw [h2]
        exact hfail { al with calls := al.calls + 1 } h1 n
      · rw [h0] at ho
        cases ho
    · rw [if_neg hgt]
      exact hfail al h0 n

/-- C8 at concrete inputs: room already there, and growth of a full vector to hold 3 elements. -/
theorem C8_ensure_witness :
    mx_vector_ensure alloc_ok vec_slack 3 = (alloc_ok, Ret.some vec_slack) ∧
    (mx_vector_ensure alloc_ok vec_full 3).2.block.volume = 5 ∧
    (mx_vector_ensure alloc_fail vec_full 3).2 = Ret.null vec_full :=
  ⟨(C8_ensure alloc_ok vec_slack 3 vec_slack_wf (by decide)).1 (by decide),
    (((C8_ensure alloc_ok vec_full 3 vec_full_wf (by decide)).2 (by decide)).1
      (mx_vector_ensure alloc_ok vec_full 3).1 (mx_vector_ensure alloc_ok vec_full 3).2.block
      rfl).2.2.2.2,
    ((C8_ensure alloc_fail vec_full 3 vec_full_wf (by decide)).2 (by decide)).2.2 rfl rfl⟩

/-! ## C9: insertions after `mx_vector_ensure` -/

/-- An inserting call on a vector with room for the added elements succeeds without calling the
allocator and without changing the volume. -/
theorem InsertCall.run_of_room (al : Allocator) (v : header_t) (c : InsertCall)
    (hroom : v.length + c.count ≤ v.volume) (hvol : v.volume ≤ SIZE_MAX) :
    ∃ r, c.run al v = (al, Ret.some r) ∧ r.volume = v.volume ∧
      r.length = v.length + c.count := by
  have key : ∀ i elmt n, v.length + n ≤ v.volume →
      ∃ r, mx_vector_inject al v i elmt n = (al, Ret.some r) ∧ r.volume = v.volume ∧
        r.length = v.length + n := by
    intro i elmt n hr
    rw [mx_vector_inject_unfold al v i elmt n (by omega)]
    have he : mx_vector_ensure al v (v.length + n) = (al, Ret.some v) := by
      unfold mx_vector_ensure
      rw [if_neg (by omega)]
    rw [he]
    exact ⟨_, rfl, rfl, rfl⟩
  cases c with
  | insert i elmt => exact key i elmt 1 hroom
  | append elmt => exact key v.length elmt 1 hroom
  | inject i elmt n => exact key i elmt n hroom

theorem run_calls_of_room (cs : List InsertCall) (al : Allocator) (v : header_t)
    (hroom : v.length + total_count cs ≤ v.volume) (hvol : v.volume ≤ SIZE_MAX) :
    ∃ r, run_calls al v cs = (al, Ret.some r) ∧ r.volume = v.volume ∧
      r.length = v.length + total_count cs := by
  induction cs generalizing v with
  | nil => exact ⟨v, rfl, rfl, rfl⟩
  | cons c cs ih =>
    have hroom1 : v.length + (c.count + total_count cs) ≤ v.volume := hroom
    obtain ⟨w, hw, hwv, hwl⟩ := InsertCall.run_of_room al v c (by omega) hvol
    obtain ⟨r, hr, hrv, hrl⟩ := ih w (by omega) (by omega)
    refine ⟨r, ?_, by omega, ?_⟩
    · show (match c.run al v with
        | (al1, Ret.null orig) => (al1, Ret.null orig)
        | (al1, Ret.some w) => run_calls al1 w cs) = _
      rw [hw]
      exact hr
    · show r.length = v.length + (c.count + total_count cs)
      omega

/-- C9: after a successful `mx_vector_ensure(v, n)` returning `w`, every sequence of
`mx_vector_insert`, `mx_vector_append` and `mx_vector_inject` calls whose resulting length does
not exceed `n` succeeds under every allocator, calls the allocator not at all and leaves the
volume unchanged; together with the at most one successful reallocation of
`mx_vector_ensure` itself, the whole run reallocates at most once. -/
theorem C9_ensure_then_insert (al al1 : Allocator) (v w : header_t) (n : Nat)
    (hvol : v.volume ≤ SIZE_MAX) (hn : n ≤ SIZE_MAX)
    (h : mx_vector_ensure al v n = (al1, Ret.some w)) (al2 : Allocator)
    (cs : List InsertCall) (hlen : w.length + total_count cs ≤ n) :
    (∃ r, run_calls al2 w cs = (al2, Ret.some r) ∧ r.volume = w.volume ∧
      r.length = w.length + total_count cs) ∧
    al1.moved ≤ al.moved + 1 ∧ (run_calls al1 w cs).1.moved ≤ al.moved + 1 := by
  have hw : n ≤ w.volume ∧ w.volume ≤ SIZE_MAX ∧ al1.moved ≤ al.moved + 1 := by
    rcases mx_vector_ensure_cases al v n with ⟨hr, h1⟩ | ⟨_, al3, h1, _⟩ |
      ⟨_, al3, volume, junk, hr, hv, _, hm, _, h1⟩
    · rw [h1] at h
      have ha : al = al1 := by injection h
      have hv : v = w := by injection h with _ h2; injection h2
      subst ha hv
      exact ⟨hr, hvol, by omega⟩
    · rw [h1] at h
      injection h with _ h2
      cases h2
    · rw [h1] at h
      have ha : al3 = al1 := by injection h
      have hr1 : resized v volume junk = w := by injection h with _ h2; injection h2
      subst ha hr1
      refine ⟨hr, ?_, by omega⟩
      show volume ≤ SIZE_MAX
      rcases hv with hv | hv
      · omega
      · rw [hv]; exact prealloc_volume_le n
  refine ⟨run_calls_of_room cs al2 w (by omega) hw.2.1, hw.2.2, ?_⟩
  obtain ⟨r, hr, _, _⟩ := run_calls_of_room cs al1 w (by omega) hw.2.1
  rw [hr]
  exact hw.2.2

/-- C9 at a concrete input: after `mx_vector_ensure(v, 4)` on a full vector of two elements,
an append and an insert succeed although every later allocation would fail. -/
theorem C9_ensure_then_insert_witness :
    (∃ r,
      run_calls alloc_fail (mx_vector_ensure alloc_ok vec_full 4).2.block
          [InsertCall.append (some [5, 6]), InsertCall.insert 0 (some [0, 0])] =
        (alloc_fail, Ret.some r) ∧
      r.volume = (mx_vector_ensure alloc_ok vec_full 4).2.block.volume ∧
      r.length = (mx_vector_ensure alloc_ok vec_full 4).2.block.length +
        total_count [InsertCall.append (some [5, 6]), InsertCall.insert 0 (some [0, 0])]) ∧
    (mx_vector_ensure alloc_ok vec_full 4).1.moved ≤ alloc_ok.moved + 1 ∧
    (run_calls (mx_vector_ensure alloc_ok vec_full 4).1
      (mx_vector_ensure alloc_ok vec_full 4).2.block
      [InsertCall.append (some [5, 6]), InsertCall.insert 0 (some [0, 0])]).1.moved ≤
        alloc_ok.moved + 1 :=
  C9_ensure_then_insert alloc_ok (mx_vector_ensure alloc_ok vec_full 4).1 vec_full
    (mx_vector_ensure alloc_ok vec_full 4).2.block 4 (by decide) (by decide) rfl alloc_fail
    [InsertCall.append (some [5, 6]), InsertCall.insert 0 (some [0, 0])] (by decide)

/-! ## C10: the preallocation target does not overflow before its value does -/

/-- C10: for every `n` for which `(8n+3)/5` fits in `size_t` (so that `n` does too), no step of
`n / 5 * 8 + ((n % 5) * 8 + 3) / 5` overflows in `size_t` arithmetic and the expression
evaluates to `(8n+3)/5`. -/
theorem C10_prealloc_volume_exact (n : Nat) (hfit : (8 * n + 3) / 5 ≤ SIZE_MAX) :
    n / 5 * 8 ≤ SIZE_MAX ∧ n % 5 * 8 ≤ SIZE_MAX ∧ n % 5 * 8 + 3 ≤ SIZE_MAX ∧
      n / 5 * 8 + (n % 5 * 8 + 3) / 5 ≤ SIZE_MAX ∧
      prealloc_volume n = (8 * n + 3) / 5 := by
  refine ⟨?_, ?_, ?_, ?_, prealloc_volume_eq hfit⟩ <;>
    (unfold SIZE_MAX at *; omega)

/-- C10 at a concrete input: `n = 1000` gives the volume 1600. -/
theorem C10_prealloc_volume_exact_witness :
    1000 / 5 * 8 ≤ SIZE_MAX ∧ 1000 % 5 * 8 ≤ SIZE_MAX ∧ 1000 % 5 * 8 + 3 ≤ SIZE_MAX ∧
      1000 / 5 * 8 + (1000 % 5 * 8 + 3) / 5 ≤ SIZE_MAX ∧
      prealloc_volume 1000 = (8 * 1000 + 3) / 5 :=
  C10_prealloc_volume_exact 1000 (by decide)

/-! ## C11: the overflow test of the preallocation target -/

/-- When `(8n+3)/5` exceeds `SIZE_MAX` for a `size_t` value `n`, its wrapped value is at most `n`. -/
theorem prealloc_volume_wrapped_le (n : Nat) (hn : n ≤ SIZE_MAX)
    (hover : SIZE_MAX < (8 * n + 3) / 5) : prealloc_volume n ≤ n := by
  unfold SIZE_MAX at hover hn
  have hge : (8 * n + 3) / 5 ≥ SIZE_MOD := by unfold SIZE_MOD; omega
  have hlt2 : (8 * n + 3) / 5 - SIZE_MOD < SIZE_MOD := by unfold SIZE_MOD; omega
  rw [prealloc_volume_mod, Nat.mod_eq_sub_mod hge, Nat.mod_eq_of_lt hlt2]
  unfold SIZE_MOD
  omega

/-- C11: for every `n` with `1 <= n <= SIZE_MAX`, the wrapped `size_t` value of
`n / 5 * 8 + ((n % 5) * 8 + 3) / 5` is strictly greater than `n` if and only if the exact value
`(8n+3)/5` does not exceed `SIZE_MAX`. -/
theorem C11_overflow_test_exact (n : Nat) (h1 : 1 ≤ n) (hn : n ≤ SIZE_MAX) :
    n < prealloc_volume n ↔ (8 * n + 3) / 5 ≤ SIZE_MAX := by
  constructor
  · intro hlt
    by_cases hfit : (8 * n + 3) / 5 ≤ SIZE_MAX
    · exact hfit
    · have := prealloc_volume_wrapped_le n hn (Nat.lt_of_not_le hfit)
      omega
  · intro hfit
    rw [prealloc_volume_eq hfit]
    omega

/-- C11 at concrete inputs: `n = 1` passes the test, `n = SIZE_MAX` does not. -/
theorem C11_overflow_test_exact_witness :
    (1 < prealloc_volume 1 ↔ (8 * 1 + 3) / 5 ≤ SIZE_MAX) ∧
    (SIZE_MAX < prealloc_volume SIZE_MAX ↔ (8 * SIZE_MAX + 3) / 5 ≤ SIZE_MAX) :=
  ⟨C11_overflow_test_exact 1 (by decide) (by decide),
    C11_overflow_test_exact SIZE_MAX (by decide) (by decide)⟩

/-! ## C12: when `mx_vector_excise` reallocates -/

/-- On a well-formed vector of volume at least 1, `mx_vector_excise` calls the allocator exactly
when `2 * new_length < volume`, and then requests the volume `(6 * new_length + 4) / 5`;
otherwise the allocator is not called and the volume is unchanged. -/
theorem mx_vector_excise_realloc_iff (al : Allocator) (v : header_t) (i n : Nat) (hw : v.wf)
    (hin : i + n ≤ v.length) (hpos : 1 ≤ v.volume) :
    (2 * (v.length - n) < v.volume →
      (mx_vector_excise al v i n).1.calls = al.calls + 1 ∧
      ∀ junk, al.outcome al.calls = some junk →
        (mx_vector_excise al v i n).2.block.volume = (6 * (v.length - n) + 4) / 5) ∧
    (¬ 2 * (v.length - n) < v.volume →
      (mx_vector_excise al v i n).1 = al ∧
      (mx_vector_excise al v i n).2.block.volume = v.volume) := by
  have hlen := hw.len_le
  have hvol := hw.vol_le
  have hL : size_sub v.length n = v.length - n := size_sub_eq (by omega) (by omega)
  have hV : size_sub v.volume 1 = v.volume - 1 := size_sub_eq hpos hvol
  have hunf : mx_vector_excise al v i n =
      if v.length - n ≤ size_sub v.volume 1 / 2 then
        match mx_vector_resize al (excise_moved v i n) (shrink_volume (v.length - n)) with
        | (al1, Ret.some resize) => (al1, Ret.some { resize with length := v.length - n })
        | (al1, Ret.null orig) => (al1, Ret.some { orig with length := v.length - n })
      else (al, Ret.some { excise_moved v i n with length := v.length - n }) := by
    unfold mx_vector_excise excise_moved
    simp only [hL]
  rw [hunf, hV]
  constructor
  · intro hhalf
    have hsv : shrink_volume (v.length - n) = (6 * (v.length - n) + 4) / 5 :=
      shrink_volume_eq (by unfold SIZE_MAX at *; omega)
    rw [if_pos (by omega), hsv]
    have hle : (6 * (v.length - n) + 4) / 5 ≤ v.volume := by omega
    have hb : (6 * (v.length - n) + 4) / 5 * (excise_moved v i n).element_size + HEADER_SIZE
        ≤ SIZE_MAX := by
      have h1 : (6 * (v.length - n) + 4) / 5 * v.element_size ≤ v.volume * v.element_size :=
        Nat.mul_le_mul_right _ hle
      have h2 := hw.size_le
      show (6 * (v.length - n) + 4) / 5 * v.element_size + HEADER_SIZE ≤ SIZE_MAX
      omega
    rcases ho : al.outcome al.calls with _ | junk
    · rw [mx_vector_resize_fail al _ _ hb ho]
      exact ⟨rfl, fun junk h => by cases h⟩
    · rw [mx_vector_resize_ok al _ _ junk hb ho]
      exact ⟨rfl, fun junk1 _ => rfl⟩
  · intro hhalf
    rw [if_neg (by omega)]
    exact ⟨rfl, rfl⟩

/-- C12 at the failing input: on the empty vector of volume 0, `mx_vector_excise(v, 0, 0)` calls
the allocator although `2 * 0 < 0` is false, because `volume - 1` wraps to `SIZE_MAX`. -/
theorem C12_excise_volume_zero :
    vec_empty.wf ∧ ¬ 2 * (vec_empty.length - 0) < vec_empty.volume ∧
    (mx_vector_excise alloc_ok vec_empty 0 0).1.calls = alloc_ok.calls + 1 ∧
    (mx_vector_excise alloc_ok vec_empty 0 0).1.moved = alloc_ok.moved + 1 := by
  refine ⟨?_, by decide, by decide, by decide⟩
  exact
    { es_le := by decide, vol_le := by decide, size_le := by decide, data_len := by decide,
      len_le := by decide }

/-! ## C15: `mx_vector_shrink` -/

/-- C15: `mx_vector_shrink` on a well-formed vector never returns `NULL`. When its
`mx_vector_resize` succeeds the returned vector has volume equal to its length and the same
length, element size and elements; when it fails the returned block is the original one,
unchanged. -/
theorem C15_shrink (al : Allocator) (v : header_t) (hw : v.wf) :
    ∃ r, (mx_vector_shrink al v).2 = Ret.some r ∧
      ((mx_vector_resize al v v.length).2.isNull = false →
        r.volume = v.length ∧ r.length = v.length ∧ r.element_size = v.element_size ∧
        elements r = elements v) ∧
      ((mx_vector_resize al v v.length).2.isNull = true → r = v) := by
  unfold mx_vector_shrink
  rcases mx_vector_resize_cases al v v.length with ⟨_, h1⟩ | ⟨_, _, h1⟩ | ⟨junk, _, _, h1⟩
  · rw [h1]
    exact ⟨v, rfl, (fun h => by cases h), fun _ => rfl⟩
  · rw [h1]
    exact ⟨v, rfl, (fun h => by cases h), fun _ => rfl⟩
  · rw [h1]
    refine ⟨resized v v.length junk, rfl, fun _ => ⟨rfl, ?_, rfl, ?_⟩, (fun h => by cases h)⟩
    · show MX_MINIMUM v.length v.length = v.length
      rw [MX_MINIMUM_eq_min, Nat.min_self]
    · have hlen := hw.len_le
      have hdl := hw.data_len
      have hm : v.length * v.element_size ≤ v.volume * v.element_size :=
        Nat.mul_le_mul_right _ hlen
      show chunks v.element_size (MX_MINIMUM v.length v.length)
        (realloc_data v.data (v.length * v.element_size) junk) =
          chunks v.element_size v.length v.data
      rw [MX_MINIMUM_eq_min, Nat.min_self]
      apply chunks_congr
      exact realloc_data_take _ _ _ _ (Nat.le_refl _) (by omega)

/-- C15 at concrete inputs: shrinking `7, 8, 9` in a block of volume eight, with a succeeding
and with a failing allocator. -/
theorem C15_shrink_witness :
    (∃ r, (mx_vector_shrink alloc_ok vec_slack).2 = Ret.some r ∧
      ((mx_vector_resize alloc_ok vec_slack vec_slack.length).2.isNull = false →
        r.volume = vec_slack.length ∧ r.length = vec_slack.length ∧
        r.element_size = vec_slack.element_size ∧ elements r = elements vec_slack) ∧
      ((mx_vector_resize alloc_ok vec_slack vec_slack.length).2.isNull = true →
        r = vec_slack)) ∧
    (mx_vector_shrink alloc_ok vec_slack).2.block.volume = 3 ∧
    (mx_vector_shrink alloc_fail vec_slack).2 = Ret.some vec_slack :=
  ⟨C15_shrink alloc_ok vec_slack vec_slack_wf, by decide, by decide⟩

/-! ## C16: `mx_vector_duplicate` -/

theorem malloc_none (al : Allocator) (size : Nat) (ho : al.outcome al.calls = none) :
    malloc al size = ({ al with calls := al.calls + 1 }, none) := by
  unfold malloc
  rw [ho]

theorem malloc_some (al : Allocator) (size : Nat) (junk : Nat → Byte)
    (ho : al.outcome al.calls = some junk) :
    malloc al size =
      ({ al with calls := al.calls + 1, moved := al.moved + 1 },
        some ((List.range (size - HEADER_SIZE)).map junk)) := by
  unfold malloc
  rw [ho]

/-- The elements of a block whose first `len` elements were copied from `src` by `memcpy`. -/
theorem chunks_memcpy_zero (d src : List Byte) (es len : Nat) (h : len * es ≤ src.length) :
    chunks es len (memcpy d 0 src (len * es)) = chunks es len src := by
  unfold memcpy
  rw [List.take_zero, List.nil_append, Nat.zero_add]
  have hl : len * es ≤ (src.take (len * es)).length := by
    rw [List.length_take]; omega
  rw [chunks_append_left es len _ _ hl, chunks_take es len (len * es) src (Nat.le_refl _)]

/-- C16: `mx_vector_duplicate` on a well-formed `source` leaves `source` unchanged; every vector
it returns has the element size, the length and the elements of `source`, with the volume of
`source` when the first allocation succeeds and the length of `source` when only the retry
succeeds; and it returns `NULL` exactly when the first allocation fails and either
`length == volume` or the retry fails too. -/
theorem C16_duplicate (al : Allocator) (source : header_t) (hw : source.wf) :
    (mx_vector_duplicate al source).2 = source ∧
    (∀ copy, (mx_vector_duplicate al source).1.2 = some copy →
      copy.element_size = source.element_size ∧ copy.length = source.length ∧
      elements copy = elements source ∧
      copy.volume = if (al.outcome al.calls).isSome then source.volume else source.length) ∧
    ((mx_vector_duplicate al source).1.2 = none ↔
      (al.outcome al.calls = none ∧
        (source.length = source.volume ∨ al.outcome (al.calls + 1) = none))) := by
  have hlen := hw.len_le
  have hsz := hw.size_le
  have hm : source.length * source.element_size ≤ source.volume * source.element_size :=
    Nat.mul_le_mul_right _ hlen
  have hdl : source.length * source.element_size ≤ source.data.length := by
    rw [hw.data_len]; exact hm
  have e1 : size_mul source.length source.element_size
      = source.length * source.element_size := size_mul_eq (by omega)
  have hel : ∀ d : List Byte,
      chunks source.element_size source.length
        (memcpy d 0 source.data (source.length * source.element_size)) = elements source :=
    fun d => chunks_memcpy_zero d source.data _ _ hdl
  unfold mx_vector_duplicate
  dsimp only
  rw [e1]
  rcases ho : al.outcome al.calls with _ | junk
  · rw [malloc_none al _ ho]
    dsimp only
    by_cases heq : source.length = source.volume
    · rw [if_pos heq]
      refine ⟨rfl, (fun copy h => by cases h), ?_⟩
      exact ⟨fun _ => ⟨rfl, Or.inl heq⟩, fun _ => rfl⟩
    · rw [if_neg heq]
      rcases ho1 : al.outcome (al.calls + 1) with _ | junk1
      · rw [malloc_none _ _ ho1]
        refine ⟨rfl, (fun copy h => by cases h), ?_⟩
        exact ⟨fun _ => ⟨rfl, Or.inr rfl⟩, fun _ => rfl⟩
      · rw [malloc_some _ _ junk1 ho1]
        refine ⟨rfl, fun copy h => ?_, ?_⟩
        · cases h
          exact ⟨rfl, rfl, hel _, rfl⟩
        · constructor
          · intro h
            cases h
          · intro h
            rcases h.2 with h2 | h2
            · exact absurd h2 heq
            · cases h2
  · rw [malloc_some al _ junk ho]
    refine ⟨rfl, fun copy h => ?_, ?_⟩
    · cases h
      exact ⟨rfl, rfl, hel _, rfl⟩
    · constructor
      · intro h
        cases h
      · intro h
        cases h.1

/-- C16 at concrete inputs: duplicating `7, 8, 9` (volume eight) when both allocations succeed
and when both fail. -/
theorem C16_duplicate_witness :
    (mx_vector_duplicate alloc_ok vec_slack).2 = vec_slack ∧
    (mx_vector_duplicate alloc_ok vec_slack).1.2 =
      some { element_size := 1, volume := 8, length := 3, data := [7, 8, 9, 0, 0, 0, 0, 0] } ∧
    (mx_vector_duplicate alloc_fail vec_slack).1.2 = none :=
  ⟨(C16_duplicate alloc_ok vec_slack vec_slack_wf).1, by decide,
    (C16_duplicate alloc_fail vec_slack vec_slack_wf).2.2.mpr ⟨rfl, Or.inr rfl⟩⟩

/-! ## C17 and C18: `mx_vector_create_with` -/

/-- C17 at the failing input `element_size = 1`, `length = 1` with every allocation succeeding:
`mx_vector_create_with` returns a vector of length 1, while `mx_vector_create` followed by
`mx_vector_ensure` returns a vector of length 0 (element size and volume agree). -/
theorem C17_create_with_length :
    (mx_vector_create_with alloc_ok 1 1).2 =
      some { element_size := 1, volume := 2, length := 1, data := [0, 0] } ∧
    (create_then_ensure alloc_ok 1 1).2 =
      some { element_size := 1, volume := 2, length := 0, data := [0, 0] } := by
  constructor <;> decide

theorem create_exact_eq (al : Allocator) (element_size length : Nat) :
    (let m2 := mx_mulz_overflow length element_size
     if m2.1 then (al, none)
     else
       let a2 := mx_addz_overflow m2.2 HEADER_SIZE
       if a2.1 then (al, none)
       else
         match malloc al a2.2 with
         | (al2, none) => (al2, none)
         | (al2, some d) =>
           (al2,
             some
               { element_size := element_size, volume := length, length := length
                 data := d })) = create_exact al element_size length := by
  unfold create_exact mx_mulz_overflow mx_addz_overflow
  by_cases hm : SIZE_MAX < length * element_size
  · have h : SIZE_MAX < length * element_size + HEADER_SIZE := by omega
    simp [hm, h]
  · have hs : size_mul length element_size = length * element_size :=
      size_mul_eq (Nat.le_of_not_lt hm)
    by_cases h : SIZE_MAX < length * element_size + HEADER_SIZE
    · simp [hm, hs, h]
    · have hs2 : size_add (length * element_size) HEADER_SIZE
          = length * element_size + HEADER_SIZE := size_add_eq (Nat.le_of_not_lt h)
      simp [hm, hs, h, hs2]

/-- The function `mx_vector_create_with` attempts the preallocation exactly when `length >= 1`
and neither `(8 * length + 3) / 5` nor its byte size overflows; otherwise, and when that
allocation fails, it allocates exactly `length` elements. -/
theorem mx_vector_create_with_eq (al : Allocator) (element_size length : Nat)
    (hlen : length ≤ SIZE_MAX) :
    mx_vector_create_with al element_size length =
      if 1 ≤ length ∧ (8 * length + 3) / 5 ≤ SIZE_MAX ∧
          (8 * length + 3) / 5 * element_size + HEADER_SIZE ≤ SIZE_MAX then
        match malloc al ((8 * length + 3) / 5 * element_size + HEADER_SIZE) with
        | (al1, some d) =>
          (al1,
            some
              { element_size := element_size, volume := (8 * length + 3) / 5, length := length
                data := d })
        | (al1, none) => create_exact al1 element_size length
      else create_exact al element_size length := by
  unfold mx_vector_create_with
  simp only [create_exact_eq]
  by_cases hc : 1 ≤ length ∧ (8 * length + 3) / 5 ≤ SIZE_MAX ∧
      (8 * length + 3) / 5 * element_size + HEADER_SIZE ≤ SIZE_MAX
  · obtain ⟨h1, hfit, hb⟩ := hc
    have hp : prealloc_volume length = (8 * length + 3) / 5 := prealloc_volume_eq hfit
    have hm : ¬ SIZE_MAX < (8 * length + 3) / 5 * element_size := by omega
    have hs : size_mul ((8 * length + 3) / 5) element_size
        = (8 * length + 3) / 5 * element_size := size_mul_eq (by omega)
    have hs2 : size_add ((8 * length + 3) / 5 * element_size) HEADER_SIZE
        = (8 * length + 3) / 5 * element_size + HEADER_SIZE := size_add_eq hb
    have ha : ¬ SIZE_MAX < (8 * length + 3) / 5 * element_size + HEADER_SIZE := by omega
    have hgt : length < (8 * length + 3) / 5 := by omega
    rw [hp]
    simp only [mx_mulz_overflow, mx_addz_overflow, hs, hs2, hm, ha, hgt, decide_False,
      and_self, if_true]
    rw [if_pos ⟨h1, hfit, hb⟩]
  · rw [if_neg hc]
    have hfirst : (if length < prealloc_volume length ∧
        (mx_mulz_overflow (prealloc_volume length) element_size).1 = false ∧
        (mx_addz_overflow (mx_mulz_overflow (prealloc_volume length) element_size).2
          HEADER_SIZE).1 = false
        then malloc al (mx_addz_overflow (mx_mulz_overflow (prealloc_volume length)
          element_size).2 HEADER_SIZE).2
        else (al, none)) = (al, none) := by
      apply if_neg
      rintro ⟨hgt, hm, ha⟩
      apply hc
      by_cases hfit : (8 * length + 3) / 5 ≤ SIZE_MAX
      · have hp : prealloc_volume length = (8 * length + 3) / 5 := prealloc_volume_eq hfit
        rw [hp] at hgt hm ha
        simp only [mx_mulz_overflow, decide_eq_false_iff_not] at hm
        have hs : size_mul ((8 * length + 3) / 5) element_size
            = (8 * length + 3) / 5 * element_size := size_mul_eq (Nat.le_of_not_lt hm)
        simp only [mx_mulz_overflow, mx_addz_overflow, hs, decide_eq_false_iff_not] at ha
        exact ⟨by omega, hfit, Nat.le_of_not_lt ha⟩
      · have := prealloc_volume_wrapped_le length hlen (Nat.lt_of_not_le hfit)
        omega
    simp only [hfirst]

theorem create_exact_cases (al : Allocator) (element_size length : Nat) :
    (SIZE_MAX < length * element_size + HEADER_SIZE ∧
      create_exact al element_size length = (al, none)) ∨
    (length * element_size + HEADER_SIZE ≤ SIZE_MAX ∧ al.outcome al.calls = none ∧
      create_exact al element_size length = ({ al with calls := al.calls + 1 }, none)) ∨
    (∃ junk, length * element_size + HEADER_SIZE ≤ SIZE_MAX ∧
      al.outcome al.calls = some junk ∧
      create_exact al element_size length =
        ({ al with calls := al.calls + 1, moved := al.moved + 1 },
          some
            { element_size := element_size, volume := length, length := length
              data := (List.range (length * element_size + HEADER_SIZE - HEADER_SIZE)).map
                junk })) := by
  unfold create_exact
  by_cases h : SIZE_MAX < length * element_size + HEADER_SIZE
  · exact Or.inl ⟨h, if_pos h⟩
  · rw [if_neg h]
    rcases ho : al.outcome al.calls with _ | junk
    · rw [malloc_none al _ ho]
      exact Or.inr (Or.inl ⟨Nat.le_of_not_lt h, rfl, rfl⟩)
    · rw [malloc_some al _ junk ho]
      exact Or.inr (Or.inr ⟨junk, Nat.le_of_not_lt h, rfl, rfl⟩)

/-- C18: `mx_vector_create_with(element_size, length)` yields volume `(8 * length + 3) / 5` when
that target and its byte size do not overflow and the first allocation succeeds; every other
vector it returns has volume exactly `length`; and it returns `NULL` only if
`length * element_size + sizeof(header_t)` overflows or every allocation it attempts fails. -/
theorem C18_create_with (al : Allocator) (element_size length : Nat) (hlen : length ≤ SIZE_MAX) :
    (∀ junk, (8 * length + 3) / 5 ≤ SIZE_MAX →
      (8 * length + 3) / 5 * element_size + HEADER_SIZE ≤ SIZE_MAX →
      al.outcome al.calls = some junk →
      ∃ v, (mx_vector_create_with al element_size length).2 = some v ∧
        v.volume = (8 * length + 3) / 5 ∧ v.length = length ∧
        v.element_size = element_size) ∧
    (∀ v, (mx_vector_create_with al element_size length).2 = some v →
      ¬ ((8 * length + 3) / 5 ≤ SIZE_MAX ∧
        (8 * length + 3) / 5 * element_size + HEADER_SIZE ≤ SIZE_MAX ∧
        (al.outcome al.calls).isSome = true) →
      v.volume = length ∧ v.length = length ∧ v.element_size = element_size) ∧
    ((mx_vector_create_with al element_size length).2 = none →
      SIZE_MAX < length * element_size + HEADER_SIZE ∨
      (al.outcome al.calls = none ∧
        ((1 ≤ length ∧ (8 * length + 3) / 5 ≤ SIZE_MAX ∧
          (8 * length + 3) / 5 * element_size + HEADER_SIZE ≤ SIZE_MAX) →
          al.outcome (al.calls + 1) = none))) := by
  rw [mx_vector_create_with_eq al element_size length hlen]
  by_cases hc : 1 ≤ length ∧ (8 * length + 3) / 5 ≤ SIZE_MAX ∧
      (8 * length + 3) / 5 * element_size + HEADER_SIZE ≤ SIZE_MAX
  · rw [if_pos hc]
    rcases ho : al.outcome al.calls with _ | junk
    · rw [malloc_none al _ ho]
      dsimp only
      refine ⟨(fun junk _ _ h => by cases h), fun v h _ => ?_, fun h => ?_⟩
      · rcases create_exact_cases { al with calls := al.calls + 1 } element_size length with
          ⟨_, h1⟩ | ⟨_, _, h1⟩ | ⟨junk, _, _, h1⟩
        · rw [h1] at h; cases h
        · rw [h1] at h; cases h
        · rw [h1] at h
          cases h
          exact ⟨rfl, rfl, rfl⟩
      · rcases create_exact_cases { al with calls := al.calls + 1 } element_size length with
          ⟨hov, _⟩ | ⟨_, ho1, _⟩ | ⟨junk, _, _, h1⟩
        · exact Or.inl hov
        · exact Or.inr ⟨rfl, fun _ => ho1⟩
        · rw [h1] at h; cases h
    · rw [malloc_some al _ junk ho]
      dsimp only
      refine ⟨fun junk1 _ _ _ => ⟨_, rfl, rfl, rfl, rfl⟩, fun v _ hn => ?_, (fun h => by cases h)⟩
      exact absurd ⟨hc.2.1, hc.2.2, rfl⟩ hn
  · rw [if_neg hc]
    rcases create_exact_cases al element_size length with
      ⟨hov, h1⟩ | ⟨_, ho1, h1⟩ | ⟨junk, hb, ho1, h1⟩
    · rw [h1]
      refine ⟨fun junk hfit hb _ => ?_, (fun v h _ => by cases h), fun _ => Or.inl hov⟩
      have : length * element_size ≤ (8 * length + 3) / 5 * element_size :=
        Nat.mul_le_mul_right _ (by omega)
      omega
    · rw [h1]
      refine ⟨fun junk _ _ h => ?_, (fun v h _ => by cases h),
        fun _ => Or.inr ⟨ho1, fun h => absurd h hc⟩⟩
      rw [ho1] at h
      cases h
    · rw [h1]
      refine ⟨fun junk1 hfit hb1 _ => ⟨_, rfl, ?_, rfl, rfl⟩,
        (fun v h _ => by cases h; exact ⟨rfl, rfl, rfl⟩), (fun h => by cases h)⟩
      show length = (8 * length + 3) / 5
      by_cases h0 : 1 ≤ length
      · exact absurd ⟨h0, hfit, hb1⟩ hc
      · omega

/-- C18 at concrete inputs: three two-byte elements with a succeeding and a failing allocator. -/
theorem C18_create_with_witness :
    (∃ v, (mx_vector_create_with alloc_ok 2 3).2 = some v ∧ v.volume = (8 * 3 + 3) / 5 ∧
      v.length = 3 ∧ v.element_size = 2) ∧
    (SIZE_MAX < 3 * 2 + HEADER_SIZE ∨
      (alloc_fail.outcome alloc_fail.calls = none ∧
        ((1 ≤ 3 ∧ (8 * 3 + 3) / 5 ≤ SIZE_MAX ∧ (8 * 3 + 3) / 5 * 2 + HEADER_SIZE ≤ SIZE_MAX) →
          alloc_fail.outcome (alloc_fail.calls + 1) = none))) :=
  ⟨(C18_create_with alloc_ok 2 3 (by decide)).1 (fun _ => 0) (by decide) (by decide) rfl,
    (C18_create_with alloc_fail 2 3 (by decide)).2.2 (by decide)⟩

/-! ## `string.c`: resize, ensure and the bytes written by `mx_string_inject` -/

theorem mx_string_resize_cases (al : Allocator) (s : string_header_t) (volume : Nat) :
    (SIZE_MAX < volume + (STRING_HEADER_SIZE + 1) ∧
      mx_string_resize al s volume = (al, StrRet.null s)) ∨
    (volume + (STRING_HEADER_SIZE + 1) ≤ SIZE_MAX ∧ al.outcome al.calls = none ∧
      mx_string_resize al s volume = ({ al with calls := al.calls + 1 }, StrRet.null s)) ∨
    (∃ junk, volume + (STRING_HEADER_SIZE + 1) ≤ SIZE_MAX ∧
      al.outcome al.calls = some junk ∧
      mx_string_resize al s volume =
        ({ al with calls := al.calls + 1, moved := al.moved + 1 },
          StrRet.some
            (if volume < s.length then
              { volume := volume, length := volume
                data := (realloc_data s.data (volume + 1) junk).set volume 0 }
            else
              { volume := volume, length := s.length
                data := realloc_data s.data (volume + 1) junk }))) := by
  unfold mx_string_resize mx_addz_overflow string_realloc
  by_cases h : SIZE_MAX < volume + (STRING_HEADER_SIZE + 1)
  · left
    simp [h]
  · right
    have h1 : volume + (STRING_HEADER_SIZE + 1) ≤ SIZE_MAX := Nat.le_of_not_lt h
    have hs : size_add volume (STRING_HEADER_SIZE + 1) - STRING_HEADER_SIZE = volume + 1 := by
      rw [size_add_eq h1]; unfold STRING_HEADER_SIZE; omega
    rcases ho : al.outcome al.calls with _ | junk
    · left
      simp [h, h1]
    · right
      refine ⟨junk, h1, rfl, ?_⟩
      simp only [h, decide_False, hs]
      by_cases ht : volume < s.length
      · simp [ht]
      · simp [ht]

theorem str_abc_wf : str_abc.wf :=
  { size_le := by decide, data_len := by decide, len_le := by decide, terminated := by decide }

/-- C20 at the failing input: removing the first byte of `"abc"` (volume 3, terminated) leaves
a string of length 2 with bytes `"bc"` whose byte at offset 2 is still `'c'`, not `0`, because
the `memmove` of `mx_string_excise` moves `length - i` bytes and leaves the terminator behind;
the allocator is not even called. -/
theorem C20_string_excise_terminator :
    str_abc.wf ∧ 0 + 1 ≤ str_abc.length ∧
    (mx_string_excise alloc_fail str_abc 0 1).2 =
      StrRet.some { volume := 3, length := 2, data := [98, 99, 99, 0] } ∧
    (mx_string_excise alloc_fail str_abc 0 1).1.calls = alloc_fail.calls ∧
    string_bytes (mx_string_excise alloc_fail str_abc 0 1).2.block = [98, 99] ∧
    (mx_string_excise alloc_fail str_abc 0 1).2.block.data[2]? = some 99 ∧
    (mx_string_remove alloc_ok str_abc 0).2.block.data[2]? = some 99 :=
  ⟨str_abc_wf, by decide, by decide, by decide, by decide, by decide, by decide⟩

/-! ## Volumes along runs of appends -/

theorem volume_after_appends_add (a b : Nat) :
    ∀ len vol, volume_after_appends len vol (a + b) =
      volume_after_appends (len + a) (volume_after_appends len vol a) b := by
  induction a with
  | zero => intro len vol; simp [volume_after_appends]
  | succ a ih =>
    intro len vol
    have h : a + 1 + b = (a + b) + 1 := by omega
    rw [h]
    show volume_after_appends (len + 1) (append_volume len vol) (a + b) = _
    rw [ih]
    have h2 : len + 1 + a = len + (a + 1) := by omega
    rw [h2]
    rfl

theorem reallocs_after_appends_add (a b : Nat) :
    ∀ len vol, reallocs_after_appends len vol (a + b) =
      reallocs_after_appends len vol a +
        reallocs_after_appends (len + a) (volume_after_appends len vol a) b := by
  induction a with
  | zero => intro len vol; simp [reallocs_after_appends, volume_after_appends]
  | succ a ih =>
    intro len vol
    have h : a + 1 + b = (a + b) + 1 := by omega
    rw [h]
    show (if vol < len + 1 then 1 else 0) +
      reallocs_after_appends (len + 1) (append_volume len vol) (a + b) = _
    rw [ih]
    have h2 : len + 1 + a = len + (a + 1) := by omega
    rw [h2]
    show _ = (if vol < len + 1 then 1 else 0) +
      reallocs_after_appends (len + 1) (append_volume len vol) a + _
    rw [Nat.add_assoc]
    rfl

theorem volume_after_appends_room (k : Nat) :
    ∀ len vol, len + k ≤ vol →
      volume_after_appends len vol k = vol ∧ reallocs_after_appends len vol k = 0 := by
  induction k with
  | zero => intro len vol _; exact ⟨rfl, rfl⟩
  | succ k ih =>
    intro len vol h
    have hv : append_volume len vol = vol := by
      unfold append_volume
      rw [if_neg (by omega)]
    have := ih (len + 1) vol (by omega)
    constructor
    · show volume_after_appends (len + 1) (append_volume len vol) k = vol
      rw [hv]; exact this.1
    · show (if vol < len + 1 then 1 else 0) +
        reallocs_after_appends (len + 1) (append_volume len vol) k = 0
      rw [hv, this.2, if_neg (by omega)]

theorem volume_le_volume_after_appends (k : Nat) :
    ∀ len vol, vol ≤ volume_after_appends len vol k := by
  induction k with
  | zero => intro len vol; exact Nat.le_refl _
  | succ k ih =>
    intro len vol
    have h1 : vol ≤ append_volume len vol := by
      unfold append_volume
      split <;> omega
    exact Nat.le_trans h1 (ih (len + 1) (append_volume len vol))

/-- Starting from a full vector of length `a`, one reallocation to `(8 * (a + 1) + 3) / 5`
serves every run of `j` appends that fits in the new volume. -/
theorem volume_after_appends_segment (a j : Nat) (hj : 1 ≤ j)
    (hfit : a + j ≤ (8 * (a + 1) + 3) / 5) :
    volume_after_appends a a j = (8 * (a + 1) + 3) / 5 ∧ reallocs_after_appends a a j = 1 := by
  obtain ⟨m, rfl⟩ : ∃ m, j = m + 1 := ⟨j - 1, by omega⟩
  have hv : append_volume a a = (8 * (a + 1) + 3) / 5 := by
    unfold append_volume
    rw [if_pos (by omega)]
  have := volume_after_appends_room m (a + 1) ((8 * (a + 1) + 3) / 5) (by omega)
  constructor
  · show volume_after_appends (a + 1) (append_volume a a) m = _
    rw [hv]; exact this.1
  · show (if a < a + 1 then 1 else 0) +
      reallocs_after_appends (a + 1) (append_volume a a) m = 1
    rw [hv, this.2, if_pos (by omega)]

/-- Extending a run of appends from empty that ended on a full vector of volume `a`. -/
theorem appends_extend (a r j p : Nat) (hvol : volume_after_appends 0 0 a = a)
    (hre : reallocs_after_appends 0 0 a = r) (hp : p = (8 * (a + 1) + 3) / 5) (hj : 1 ≤ j)
    (hfit : a + j ≤ p) :
    volume_after_appends 0 0 (a + j) = p ∧ reallocs_after_appends 0 0 (a + j) = r + 1 := by
  subst hp
  have hseg := volume_after_appends_segment a j hj hfit
  rw [volume_after_appends_add, reallocs_after_appends_add, hvol, hre, Nat.zero_add]
  exact ⟨hseg.1, by rw [hseg.2]⟩

/-- A thousand appends from the empty vector end with volume 1447 after 13 reallocations. -/
theorem appends_1000 :
    volume_after_appends 0 0 1000 = 1447 ∧ reallocs_after_appends 0 0 1000 = 13 := by
  have h0 : volume_after_appends 0 0 0 = 0 ∧ reallocs_after_appends 0 0 0 = 0 := ⟨rfl, rfl⟩
  have h1 := appends_extend 0 0 2 2 h0.1 h0.2 (by decide) (by decide) (by decide)
  have h2 := appends_extend 2 1 3 5 h1.1 h1.2 (by decide) (by decide) (by decide)
  have h3 := appends_extend 5 2 5 10 h2.1 h2.2 (by decide) (by decide) (by decide)
  have h4 := appends_extend 10 3 8 18 h3.1 h3.2 (by decide) (by decide) (by decide)
  have h5 := appends_extend 18 4 13 31 h4.1 h4.2 (by decide) (by decide) (by decide)
  have h6 := appends_extend 31 5 20 51 h5.1 h5.2 (by decide) (by decide) (by decide)
  have h7 := appends_extend 51 6 32 83 h6.1 h6.2 (by decide) (by decide) (by decide)
  have h8 := appends_extend 83 7 52 135 h7.1 h7.2 (by decide) (by decide) (by decide)
  have h9 := appends_extend 135 8 83 218 h8.1 h8.2 (by decide) (by decide) (by decide)
  have h10 := appends_extend 218 9 133 351 h9.1 h9.2 (by decide) (by decide) (by decide)
  have h11 := appends_extend 351 10 212 563 h10.1 h10.2 (by decide) (by decide) (by decide)
  have h12 := appends_extend 563 11 340 903 h11.1 h11.2 (by decide) (by decide) (by decide)
  exact appends_extend 903 12 97 1447 h12.1 h12.2 (by decide) (by decide) (by decide)

/-! ## Volumes along runs of pulls -/

/-- Pulling from a vector of volume 868 down to any length of at least 434 never shrinks. -/
theorem pulls_at_868 (k : Nat) :
    ∀ len, len ≤ 723 → 434 + k ≤ len →
      volume_after_pulls len 868 k = 868 ∧ reallocs_after_pulls len 868 k = 0 := by
  induction k with
  | zero => intro len _ _; exact ⟨rfl, rfl⟩
  | succ k ih =>
    intro len h1 h2
    have hv : pull_volume len 868 = 868 := by
      unfold pull_volume
      rw [if_neg (by omega)]
    have := ih (len - 1) (by omega) (by omega)
    constructor
    · show volume_after_pulls (len - 1) (pull_volume len 868) k = 868
      rw [hv]; exact this.1
    · show (if 2 * (len - 1) < 868 then 1 else 0) +
        reallocs_after_pulls (len - 1) (pull_volume len 868) k = 0
      rw [hv, this.2, if_neg (by omega)]

/-- Pulling from a vector of volume 1447 and length at most 1000 down to any length of at least
434 reallocates once, to volume 868, when the length reaches 723. -/
theorem pulls_at_1447 (k : Nat) :
    ∀ len, 724 ≤ len → len ≤ 1000 → 434 + k ≤ len →
      volume_after_pulls len 1447 k = (if len - k ≤ 723 then 868 else 1447) ∧
      reallocs_after_pulls len 1447 k = (if len - k ≤ 723 then 1 else 0) := by
  induction k with
  | zero =>
    intro len h1 _ _
    rw [if_neg (by omega), if_neg (by omega)]
    exact ⟨rfl, rfl⟩
  | succ k ih =>
    intro len h1 h2 h3
    by_cases h724 : len = 724
    · subst h724
      have hv : pull_volume 724 1447 = 868 := by decide
      have := pulls_at_868 k 723 (by omega) (by omega)
      constructor
      · show volume_after_pulls (724 - 1) (pull_volume 724 1447) k = _
        rw [hv, if_pos (by omega)]; exact this.1
      · show (if 2 * (724 - 1) < 1447 then 1 else 0) +
          reallocs_after_pulls (724 - 1) (pull_volume 724 1447) k = _
        rw [hv, if_pos (by omega), if_pos (by omega)]
        show 1 + reallocs_after_pulls 723 868 k = 1
        rw [this.2]
    · have hv : pull_volume len 1447 = 1447 := by
        unfold pull_volume
        rw [if_neg (by omega)]
      have := ih (len - 1) (by omega) (by omega) (by omega)
      have hsub : len - 1 - k = len - (k + 1) := by omega
      rw [hsub] at this
      constructor
      · show volume_after_pulls (len - 1) (pull_volume len 1447) k = _
        rw [hv]; exact this.1
      · show (if 2 * (len - 1) < 1447 then 1 else 0) +
          reallocs_after_pulls (len - 1) (pull_volume len 1447) k = _
        rw [hv, this.2, if_neg (by omega), Nat.zero_add]

/-! ## Exact outcomes of `mx_vector_ensure`, `mx_vector_inject` and `mx_vector_excise` -/

theorem mx_vector_ensure_room (al : Allocator) (v : header_t) (n : Nat) (h : n ≤ v.volume) :
    mx_vector_ensure al v n = (al, Ret.some v) := by
  unfold mx_vector_ensure
  rw [if_neg (by omega)]

theorem mx_vector_ensure_grow (al : Allocator) (v : header_t) (n : Nat) (junk : Nat → Byte)
    (hv : v.volume < n) (hfit : (8 * n + 3) / 5 ≤ SIZE_MAX)
    (hb : (8 * n + 3) / 5 * v.element_size + HEADER_SIZE ≤ SIZE_MAX)
    (ho : al.outcome al.calls = some junk) :
    mx_vector_ensure al v n =
      ({ al with calls := al.calls + 1, moved := al.moved + 1 },
        Ret.some (resized v ((8 * n + 3) / 5) junk)) := by
  have hp : prealloc_volume n = (8 * n + 3) / 5 := prealloc_volume_eq hfit
  unfold mx_vector_ensure
  rw [if_pos hv]
  dsimp only
  rw [hp, if_pos (by omega), mx_vector_resize_ok al v _ junk hb ho]

/-- With room for `n` more elements `mx_vector_inject` succeeds without calling the allocator
and without changing the volume. -/
theorem mx_vector_inject_of_room (al : Allocator) (v : header_t) (i : Nat)
    (elmt : Option (List Byte)) (n : Nat) (hroom : v.length + n ≤ v.volume)
    (hvol : v.volume ≤ SIZE_MAX) :
    ∃ r, mx_vector_inject al v i elmt n = (al, Ret.some r) ∧ r.volume = v.volume ∧
      r.length = v.length + n ∧ r.element_size = v.element_size := by
  rw [mx_vector_inject_unfold al v i elmt n (by omega),
    mx_vector_ensure_room al v _ hroom]
  exact ⟨_, rfl, rfl, rfl, rfl⟩

theorem mx_vector_excise_unfold (al : Allocator) (v : header_t) (i n : Nat)
    (hn : n ≤ v.length) (hl : v.length ≤ v.volume) (hv : v.volume ≤ SIZE_MAX)
    (hpos : 1 ≤ v.volume) :
    mx_vector_excise al v i n =
      if 2 * (v.length - n) < v.volume then
        match mx_vector_resize al (excise_moved v i n) ((6 * (v.length - n) + 4) / 5) with
        | (al1, Ret.some resize) => (al1, Ret.some { resize with length := v.length - n })
        | (al1, Ret.null orig) => (al1, Ret.some { orig with length := v.length - n })
      else (al, Ret.some { excise_moved v i n with length := v.length - n }) := by
  have hL : size_sub v.length n = v.length - n := size_sub_eq hn (by omega)
  have hV : size_sub v.volume 1 = v.volume - 1 := size_sub_eq hpos hv
  have hunf : mx_vector_excise al v i n =
      if v.length - n ≤ size_sub v.volume 1 / 2 then
        match mx_vector_resize al (excise_moved v i n) (shrink_volume (v.length - n)) with
        | (al1, Ret.some resize) => (al1, Ret.some { resize with length := v.length - n })
        | (al1, Ret.null orig) => (al1, Ret.some { orig with length := v.length - n })
      else (al, Ret.some { excise_moved v i n with length := v.length - n }) := by
    unfold mx_vector_excise excise_moved
    simp only [hL]
  rw [hunf, hV]
  by_cases hhalf : 2 * (v.length - n) < v.volume
  · have hsv : shrink_volume (v.length - n) = (6 * (v.length - n) + 4) / 5 :=
      shrink_volume_eq (by unfold SIZE_MAX at *; omega)
    rw [if_pos (by omega), if_pos hhalf, hsv]
  · rw [if_neg (by omega), if_neg hhalf]

/-- When at least half of the volume stays in use `mx_vector_excise` does not call the
allocator and keeps the volume. -/
theorem mx_vector_excise_keep (al : Allocator) (v : header_t) (i n : Nat)
    (hn : n ≤ v.length) (hl : v.length ≤ v.volume) (hv : v.volume ≤ SIZE_MAX)
    (hpos : 1 ≤ v.volume) (hhalf : ¬ 2 * (v.length - n) < v.volume) :
    mx_vector_excise al v i n =
      (al, Ret.some { excise_moved v i n with length := v.length - n }) := by
  rw [mx_vector_excise_unfold al v i n hn hl hv hpos, if_neg hhalf]

/-- When less than half of the volume stays in use and the reallocation succeeds,
`mx_vector_excise` returns the block reallocated to `(6 * new_length + 4) / 5`. -/
theorem mx_vector_excise_shrink (al : Allocator) (v : header_t) (i n : Nat)
    (junk : Nat → Byte) (hw : v.wf) (hn : n ≤ v.length) (hpos : 1 ≤ v.volume)
    (hhalf : 2 * (v.length - n) < v.volume) (ho : al.outcome al.calls = some junk) :
    mx_vector_excise al v i n =
      ({ al with calls := al.calls + 1, moved := al.moved + 1 },
        Ret.some
          { resized (excise_moved v i n) ((6 * (v.length - n) + 4) / 5) junk with
            length := v.length - n }) := by
  have hle : (6 * (v.length - n) + 4) / 5 ≤ v.volume := by omega
  have hb : (6 * (v.length - n) + 4) / 5 * (excise_moved v i n).element_size + HEADER_SIZE
      ≤ SIZE_MAX := by
    have h1 : (6 * (v.length - n) + 4) / 5 * v.element_size ≤ v.volume * v.element_size :=
      Nat.mul_le_mul_right _ hle
    have h2 := hw.size_le
    show (6 * (v.length - n) + 4) / 5 * v.element_size + HEADER_SIZE ≤ SIZE_MAX
    omega
  rw [mx_vector_excise_unfold al v i n hn hw.len_le hw.vol_le hpos, if_pos hhalf,
    mx_vector_resize_ok al _ _ junk hb ho]

/-! ## One append and one pull with every allocation succeeding -/

/-- One `mx_vector_append` of a non-`NULL` element on a well-formed vector when every
allocation succeeds. -/
theorem mx_vector_append_step (al : Allocator) (v : header_t) (e : List Byte) (hw : v.wf)
    (he : v.element_size ≤ e.length) (hok : ∀ k, al.outcome k ≠ none)
    (hfit : (8 * (v.length + 1) + 3) / 5 ≤ SIZE_MAX)
    (hb : append_volume v.length v.volume * v.element_size + HEADER_SIZE ≤ SIZE_MAX) :
    ∃ al1 r, mx_vector_append al v (some e) = (al1, Ret.some r) ∧ r.wf ∧
      r.element_size = v.element_size ∧ r.length = v.length + 1 ∧
      r.volume = append_volume v.length v.volume ∧
      elements r = elements v ++ [e.take v.element_size] ∧
      al1.outcome = al.outcome ∧
      al1.moved = al.moved + (if v.volume < v.length + 1 then 1 else 0) := by
  have hlen := hw.len_le
  have hvol := hw.vol_le
  have hsum : v.length + 1 ≤ SIZE_MAX := by omega
  -- the outcome of the call to `mx_vector_ensure`
  have hens : ∃ al1 w, mx_vector_ensure al v (v.length + 1) = (al1, Ret.some w) ∧
      w.volume = append_volume v.length v.volume ∧ al1.outcome = al.outcome ∧
      al1.moved = al.moved + (if v.volume < v.length + 1 then 1 else 0) := by
    by_cases hroom : v.volume < v.length + 1
    · rcases ho : al.outcome al.calls with _ | junk
      · exact absurd ho (hok _)
      · have hav : append_volume v.length v.volume = (8 * (v.length + 1) + 3) / 5 := by
          unfold append_volume
          rw [if_pos hroom]
        rw [hav] at hb ⊢
        refine ⟨_, _, mx_vector_ensure_grow al v _ junk hroom hfit hb ho, rfl, rfl, ?_⟩
        rw [if_pos hroom]
    · have hav : append_volume v.length v.volume = v.volume := by
        unfold append_volume
        rw [if_neg hroom]
      rw [hav]
      refine ⟨al, v, mx_vector_ensure_room al v _ (by omega), rfl, rfl, ?_⟩
      rw [if_neg hroom]
      rfl
  obtain ⟨al1, w, hen, hwv, hout, hmoved⟩ := hens
  have happ : mx_vector_append al v (some e) =
      (al1, Ret.some (inject_write w v.length (some e) 1 (v.length + 1))) := by
    show mx_vector_inject al v v.length (some e) 1 = _
    rw [mx_vector_inject_unfold al v v.length (some e) 1 hsum, hen]
  obtain ⟨hrw, hes, hrl, _, _, ⟨w1, hen1, hrv⟩, gap, _, hge, hx⟩ :=
    mx_vector_inject_ok al al1 v _ v.length 1 (some e) hw (Nat.le_refl _)
      (fun x hx => by cases hx; omega) happ
  have hww : w1 = w := by
    rw [hen] at hen1
    injection hen1 with _ h2
    injection h2 with h3
    exact h3.symm
  refine ⟨al1, _, happ, hrw, hes, hrl, by rw [hrv, hww, hwv], ?_, hout, hmoved⟩
  have hlx : (elements v).length = v.length := length_chunks _ _ _
  have hgap : gap = [e.take v.element_size] := by
    have hone : chunks v.element_size 1 e =
        [(e.drop (0 * v.element_size)).take v.element_size] := rfl
    rw [hge e rfl, hone, Nat.zero_mul, List.drop_zero]
  rw [hx, hgap, List.take_of_length_le (by omega), List.drop_of_length_le (by omega),
    List.append_nil]

/-- One `mx_vector_pull` on a well-formed vector of length at least 1 when every allocation
succeeds. -/
theorem mx_vector_pull_step (al : Allocator) (v : header_t) (out : Bool) (hw : v.wf)
    (h1 : 1 ≤ v.length) (hok : ∀ k, al.outcome k ≠ none) :
    ∃ al1 r, (mx_vector_pull al v out).1 = (al1, Ret.some r) ∧ r.wf ∧
      r.element_size = v.element_size ∧ r.length = v.length - 1 ∧
      r.volume = pull_volume v.length v.volume ∧
      elements r = (elements v).take (v.length - 1) ∧
      al1.outcome = al.outcome ∧
      al1.moved = al.moved + (if 2 * (v.length - 1) < v.volume then 1 else 0) := by
  have hlen := hw.len_le
  have hvol := hw.vol_le
  have hsub : size_sub v.length 1 = v.length - 1 := size_sub_eq h1 (by omega)
  have hpull : (mx_vector_pull al v out).1 = mx_vector_excise al v (v.length - 1) 1 := by
    unfold mx_vector_pull mx_vector_remove
    dsimp only
    rw [hsub]
  rw [hpull]
  obtain ⟨al1, r, hex, hrw, hes, hrl, _, _, hx⟩ :=
    mx_vector_excise_ok al v (v.length - 1) 1 hw (by omega)
  have hlx : (elements v).length = v.length := length_chunks _ _ _
  have hx1 : elements r = (elements v).take (v.length - 1) := by
    rw [hx, List.drop_of_length_le (by omega), List.append_nil]
  by_cases hhalf : 2 * (v.length - 1) < v.volume
  · rcases ho : al.outcome al.calls with _ | junk
    · exact absurd ho (hok _)
    · have heq := mx_vector_excise_shrink al v (v.length - 1) 1 junk hw h1 (by omega) hhalf ho
      have hex0 := hex
      rw [heq] at hex
      have hal : al1 = { al with calls := al.calls + 1, moved := al.moved + 1 } := by
        exact (Prod.mk.inj hex).1.symm
      have hr : r = { resized (excise_moved v (v.length - 1) 1)
          ((6 * (v.length - 1) + 4) / 5) junk with length := v.length - 1 } := by
        exact (Ret.some.inj (Prod.mk.inj hex).2).symm
      refine ⟨al1, r, hex0, hrw, hes, hrl, ?_, hx1, by rw [hal], ?_⟩
      · rw [hr]
        unfold pull_volume
        rw [if_pos hhalf]
        rfl
      · rw [hal, if_pos hhalf]
  · have heq := mx_vector_excise_keep al v (v.length - 1) 1 h1 hlen hvol (by omega) hhalf
    have hex0 := hex
    rw [heq] at hex
    have hal : al1 = al := by
      exact (Prod.mk.inj hex).1.symm
    have hr : r = { excise_moved v (v.length - 1) 1 with length := v.length - 1 } := by
      exact (Ret.some.inj (Prod.mk.inj hex).2).symm
    refine ⟨al1, r, hex0, hrw, hes, hrl, ?_, hx1, by rw [hal], ?_⟩
    · rw [hr]
      unfold pull_volume
      rw [if_neg hhalf]
      rfl
    · rw [hal, if_neg hhalf]
      rfl

/-! ## Runs of appends and of pulls -/

theorem run_tail_calls_cons (al al1 : Allocator) (v w : header_t) (c : TailCall)
    (cs : List TailCall) (h : c.run al v = (al1, Ret.some w)) :
    run_tail_calls al v (c :: cs) = run_tail_calls al1 w cs := by
  show (match c.run al v with
    | (al1, Ret.null orig) => (al1, Ret.null orig)
    | (al1, Ret.some w) => run_tail_calls al1 w cs) = _
  rw [h]

/-- A run of appends of non-`NULL` elements on a well-formed vector when every allocation
succeeds. -/
theorem run_appends (xs : List (List Byte)) :
    ∀ (al : Allocator) (v : header_t), v.wf → (∀ k, al.outcome k ≠ none) →
      (∀ x ∈ xs, v.element_size ≤ x.length) →
      (8 * (v.length + xs.length) + 3) / 5 ≤ SIZE_MAX →
      volume_after_appends v.length v.volume xs.length * v.element_size + HEADER_SIZE
        ≤ SIZE_MAX →
      ∃ al1 r, run_tail_calls al v (xs.map (fun x => TailCall.append (some x)))
          = (al1, Ret.some r) ∧
        r.wf ∧ r.element_size = v.element_size ∧ r.length = v.length + xs.length ∧
        r.volume = volume_after_appends v.length v.volume xs.length ∧
        elements r = elements v ++ xs.map (fun x => x.take v.element_size) ∧
        al1.outcome = al.outcome ∧
        al1.moved = al.moved + reallocs_after_appends v.length v.volume xs.length := by
  induction xs with
  | nil =>
    intro al v hw _ _ _ _
    exact ⟨al, v, rfl, hw, rfl, rfl, rfl, by simp, rfl, rfl⟩
  | cons x xs ih =>
    intro al v hw hok hx hfit hb
    have hlen1 : (x :: xs).length = xs.length + 1 := rfl
    rw [hlen1] at hfit hb
    have hmono := volume_le_volume_after_appends xs.length (v.length + 1)
      (append_volume v.length v.volume)
    have hb1 : append_volume v.length v.volume * v.element_size + HEADER_SIZE ≤ SIZE_MAX := by
      have : append_volume v.length v.volume * v.element_size ≤
          volume_after_appends (v.length + 1) (append_volume v.length v.volume) xs.length
            * v.element_size := Nat.mul_le_mul_right _ hmono
      have hb2 : volume_after_appends (v.length + 1) (append_volume v.length v.volume)
          xs.length * v.element_size + HEADER_SIZE ≤ SIZE_MAX := hb
      omega
    obtain ⟨al1, r1, happ, hr1w, hr1e, hr1l, hr1v, hr1x, hout1, hmoved1⟩ :=
      mx_vector_append_step al v x hw (hx x (List.mem_cons_self _ _)) hok (by omega) hb1
    have hok1 : ∀ k, al1.outcome k ≠ none := by rw [hout1]; exact hok
    obtain ⟨al2, r2, hrun, hr2w, hr2e, hr2l, hr2v, hr2x, hout2, hmoved2⟩ :=
      ih al1 r1 hr1w hok1
        (fun y hy => by rw [hr1e]; exact hx y (List.mem_cons_of_mem _ hy))
        (by rw [hr1l]; have : v.length + 1 + xs.length = v.length + (xs.length + 1) := by omega
            rw [this]; exact hfit)
        (by rw [hr1l, hr1v, hr1e]; exact hb)
    refine ⟨al2, r2, ?_, hr2w, by rw [hr2e, hr1e], by rw [hr2l, hr1l, hlen1]; omega, ?_, ?_,
      by rw [hout2, hout1], ?_⟩
    · rw [List.map_cons, run_tail_calls_cons al al1 v r1 (TailCall.append (some x)) _ happ]
      exact hrun
    · rw [hr2v, hr1l, hr1v]
      rfl
    · rw [hr2x, hr1x, hr1e, List.map_cons, List.append_assoc]
      rfl
    · rw [hmoved2, hmoved1, hr1l, hr1v, hlen1, Nat.add_assoc]
      rfl

/-- A run of `k` pulls on a well-formed vector of length at least `k` when every allocation
succeeds. -/
theorem run_pulls (out : Bool) (k : Nat) :
    ∀ (al : Allocator) (v : header_t), v.wf → (∀ j, al.outcome j ≠ none) → k ≤ v.length →
      ∃ al1 r, run_tail_calls al v (List.replicate k (TailCall.pull out)) = (al1, Ret.some r) ∧
        r.wf ∧ r.element_size = v.element_size ∧ r.length = v.length - k ∧
        r.volume = volume_after_pulls v.length v.volume k ∧
        elements r = (elements v).take (v.length - k) ∧
        al1.outcome = al.outcome ∧
        al1.moved = al.moved + reallocs_after_pulls v.length v.volume k := by
  induction k with
  | zero =>
    intro al v hw _ _
    have hlx : (elements v).length = v.length := length_chunks _ _ _
    refine ⟨al, v, rfl, hw, rfl, rfl, rfl, ?_, rfl, rfl⟩
    rw [Nat.sub_zero, List.take_of_length_le (by omega)]
  | succ k ih =>
    intro al v hw hok hk
    obtain ⟨al1, r1, hpull, hr1w, hr1e, hr1l, hr1v, hr1x, hout1, hmoved1⟩ :=
      mx_vector_pull_step al v out hw (by omega) hok
    have hok1 : ∀ j, al1.outcome j ≠ none := by rw [hout1]; exact hok
    obtain ⟨al2, r2, hrun, hr2w, hr2e, hr2l, hr2v, hr2x, hout2, hmoved2⟩ :=
      ih al1 r1 hr1w hok1 (by omega)
    refine ⟨al2, r2, ?_, hr2w, by rw [hr2e, hr1e], by rw [hr2l, hr1l]; omega, ?_, ?_,
      by rw [hout2, hout1], ?_⟩
    · rw [List.replicate_succ, run_tail_calls_cons al al1 v r1 (TailCall.pull out) _ hpull]
      exact hrun
    · rw [hr2v, hr1l, hr1v]
      rfl
    · have hm : min (v.length - 1 - k) (v.length - 1) = v.length - (k + 1) := by omega
      rw [hr2x, hr1x, hr1l, List.take_take, hm]
    · rw [hmoved2, hmoved1, hr1l, hr1v, Nat.add_assoc]
      rfl

/-! ## C14: a thousand appends, then pulls -/

theorem mx_vector_create_ok (al : Allocator) (element_size : Nat) (junk : Nat → Byte)
    (ho : al.outcome al.calls = some junk) :
    mx_vector_create al element_size =
      ({ al with calls := al.calls + 1, moved := al.moved + 1 },
        some { element_size := element_size, volume := 0, length := 0, data := [] }) := by
  unfold mx_vector_create
  rw [malloc_some al _ junk ho]
  rfl

theorem created_wf (element_size : Nat) (h : element_size ≤ SIZE_MAX) :
    ({ element_size := element_size, volume := 0, length := 0, data := [] } : header_t).wf :=
  { es_le := h
    vol_le := Nat.zero_le _
    size_le := by
      show 0 * element_size + HEADER_SIZE ≤ SIZE_MAX
      rw [Nat.zero_mul]
      decide
    data_len := by
      show (0 : Nat) = 0 * element_size
      rw [Nat.zero_mul]
    len_le := Nat.le_refl _ }

/-- C14: with every allocation succeeding, the vector built by `mx_vector_create` and 1000
appends of the elements `xs` has volume 1447, length 1000 and elements `xs`; pulling `k` of them
off the tail, for any `k` that leaves at least 434 elements (for instance down to length 500),
reallocates at most once, namely to volume 868 when the length reaches 723, and leaves the
first `1000 - k` appended elements in place. -/
theorem C14_build_then_pull (al0 : Allocator) (hok : ∀ j, al0.outcome j ≠ none)
    (es : Nat) (hsz : 1447 * es + HEADER_SIZE ≤ SIZE_MAX) (xs : List (List Byte))
    (hxs : xs.length = 1000) (hx : ∀ x ∈ xs, x.length = es) (k : Nat) (hk : k ≤ 566)
    (out : Bool) :
    ∃ al v0 al1 v al2 r,
      mx_vector_create al0 es = (al, some v0) ∧
      run_tail_calls al v0 (xs.map (fun x => TailCall.append (some x))) = (al1, Ret.some v) ∧
      v.volume = 1447 ∧ v.length = 1000 ∧ elements v = xs ∧
      run_tail_calls al1 v (List.replicate k (TailCall.pull out)) = (al2, Ret.some r) ∧
      r.length = 1000 - k ∧ elements r = xs.take (1000 - k) ∧
      r.volume = (if 1000 - k ≤ 723 then 868 else 1447) ∧
      al2.moved = al1.moved + (if 1000 - k ≤ 723 then 1 else 0) := by
  have hes : es ≤ SIZE_MAX := by omega
  rcases ho : al0.outcome al0.calls with _ | junk
  · exact absurd ho (hok _)
  have hcreate := mx_vector_create_ok al0 es junk ho
  have hw0 := created_wf es hes
  have h1000 := appends_1000
  obtain ⟨al1, v, hrun, hvw, hve, hvl, hvv, hvx, hout1, _⟩ :=
    run_appends xs { al0 with calls := al0.calls + 1, moved := al0.moved + 1 }
      { element_size := es, volume := 0, length := 0, data := [] } hw0 hok
      (fun x hxm => by
        show es ≤ x.length
        rw [hx x hxm])
      (by
        show (8 * (0 + xs.length) + 3) / 5 ≤ SIZE_MAX
        rw [hxs]
        decide)
      (by
        show volume_after_appends 0 0 xs.length * es + HEADER_SIZE ≤ SIZE_MAX
        rw [hxs, h1000.1]
        exact hsz)
  have hvl1 : v.length = 1000 := by
    rw [hvl, hxs]
  have hvv1 : v.volume = 1447 := by
    rw [hvv]
    show volume_after_appends 0 0 xs.length = 1447
    rw [hxs, h1000.1]
  have hvx1 : elements v = xs := by
    rw [hvx]
    show chunks es 0 [] ++ xs.map (fun x => x.take es) = xs
    have hmap : xs.map (fun x => x.take es) = xs.map id :=
      List.map_congr_left (fun x hxm => by
        show x.take es = x
        rw [List.take_of_length_le (by rw [hx x hxm])])
    rw [hmap, List.map_id]
    rfl
  have hok1 : ∀ j, al1.outcome j ≠ none := by rw [hout1]; exact hok
  obtain ⟨al2, r, hrun2, _, _, hrl, hrv, hrx, _, hmoved⟩ :=
    run_pulls out k al1 v hvw hok1 (by omega)
  have hp := pulls_at_1447 k 1000 (by omega) (by omega) (by omega)
  rw [hvl1, hvv1] at hrv hmoved
  refine ⟨_, _, al1, v, al2, r, hcreate, hrun, hvv1, hvl1, hvx1, hrun2, by rw [hrl, hvl1],
    by rw [hrx, hvx1, hvl1], by rw [hrv, hp.1], by rw [hmoved, hp.2]⟩

/-- C14 at a concrete input: a thousand appends of the byte `7`, then 500 pulls. -/
theorem C14_build_then_pull_witness :
    ∃ al v0 al1 v al2 r,
      mx_vector_create alloc_ok 1 = (al, some v0) ∧
      run_tail_calls al v0
        ((List.replicate 1000 [7]).map (fun x => TailCall.append (some x))) =
          (al1, Ret.some v) ∧
      v.volume = 1447 ∧ v.length = 1000 ∧ elements v = List.replicate 1000 [7] ∧
      run_tail_calls al1 v (List.replicate 500 (TailCall.pull false)) = (al2, Ret.some r) ∧
      r.length = 1000 - 500 ∧ elements r = (List.replicate 1000 [7]).take (1000 - 500) ∧
      r.volume = (if 1000 - 500 ≤ 723 then 868 else 1447) ∧
      al2.moved = al1.moved + (if 1000 - 500 ≤ 723 then 1 else 0) :=
  C14_build_then_pull alloc_ok (fun _ h => by cases h) 1 (by decide) (List.replicate 1000 [7])
    (List.length_replicate 1000 [7])
    (fun x hxm => by rw [List.eq_of_mem_replicate hxm]; rfl) 500 (by decide) false

/-! ## C13: alternating appends and pulls -/

theorem mx_vector_resize_outcome (al : Allocator) (v : header_t) (volume : Nat) :
    (mx_vector_resize al v volume).1.outcome = al.outcome := by
  rcases mx_vector_resize_cases al v volume with ⟨_, h⟩ | ⟨_, _, h⟩ | ⟨junk, _, _, h⟩ <;>
    rw [h]

theorem mx_vector_ensure_outcome (al : Allocator) (v : header_t) (n : Nat) :
    (mx_vector_ensure al v n).1.outcome = al.outcome := by
  unfold mx_vector_ensure
  by_cases hv : v.volume < n
  · rw [if_pos hv]
    dsimp only
    by_cases hp : n < prealloc_volume n
    · rw [if_pos hp]
      rcases mx_vector_resize_cases al v (prealloc_volume n) with
        ⟨_, h⟩ | ⟨_, _, h⟩ | ⟨junk, _, _, h⟩
      · rw [h]
        exact mx_vector_resize_outcome al v n
      · rw [h]
        exact mx_vector_resize_outcome _ v n
      · rw [h]
    · rw [if_neg hp]
      exact mx_vector_resize_outcome al v n
  · rw [if_neg hv]

theorem mx_vector_inject_outcome (al : Allocator) (v : header_t) (i : Nat)
    (elmt : Option (List Byte)) (n : Nat) :
    (mx_vector_inject al v i elmt n).1.outcome = al.outcome := by
  by_cases hov : SIZE_MAX < v.length + n
  · rw [inject_null_or_overflow al v i elmt n hov]
  · rw [mx_vector_inject_unfold al v i elmt n (Nat.le_of_not_lt hov)]
    have := mx_vector_ensure_outcome al v (v.length + n)
    rcases hen : mx_vector_ensure al v (v.length + n) with ⟨al1, r⟩
    rw [hen] at this
    cases r <;> exact this

/-- On a steady vector every alternating sequence of appends and pulls runs to the end without
calling the allocator and without changing the volume. -/
theorem steady_run (m : Nat) :
    ∀ (cs : List TailCall) (al : Allocator) (v : header_t), cs.length ≤ m →
      alternating cs = true → steady v →
      ∃ r, run_tail_calls al v cs = (al, Ret.some r) ∧ r.volume = v.volume := by
  induction m with
  | zero =>
    intro cs al v hlen _ _
    have : cs = [] := List.length_eq_zero.mp (by omega)
    subst this
    exact ⟨v, rfl, rfl⟩
  | succ m ih =>
    intro cs al v hlen halt hst
    obtain ⟨hroom, hhalf, hvol⟩ := hst
    match cs, hlen, halt with
    | [], _, _ => exact ⟨v, rfl, rfl⟩
    | [TailCall.append e], _, _ =>
      obtain ⟨r, hr, hrv, _, _⟩ := mx_vector_inject_of_room al v v.length e 1 hroom hvol
      refine ⟨r, ?_, hrv⟩
      rw [run_tail_calls_cons al al v r (TailCall.append e) [] hr]
      rfl
    | TailCall.append e :: TailCall.pull out :: rest, hlen, halt =>
      obtain ⟨w, hw, hwv, hwl, _⟩ := mx_vector_inject_of_room al v v.length e 1 hroom hvol
      have hkeep := mx_vector_excise_keep al w (size_sub w.length 1) 1 (by omega) (by omega)
        (by omega) (by omega) (by omega)
      have hpull : (TailCall.pull out).run al w =
          (al, Ret.some { excise_moved w (size_sub w.length 1) 1 with
            length := w.length - 1 }) := by
        unfold TailCall.run mx_vector_pull mx_vector_remove
        dsimp only
        exact hkeep
      have hst2 : steady { excise_moved w (size_sub w.length 1) 1 with
          length := w.length - 1 } := by
        refine ⟨?_, ?_, ?_⟩
        · show w.length - 1 + 1 ≤ w.volume
          omega
        · show w.volume ≤ 2 * (w.length - 1)
          omega
        · show w.volume ≤ SIZE_MAX
          omega
      have hlen2 : rest.length ≤ m := by
        have : (TailCall.append e :: TailCall.pull out :: rest).length = rest.length + 2 := rfl
        omega
      obtain ⟨r, hr, hrv⟩ := ih rest al _ hlen2 halt hst2
      refine ⟨r, ?_, ?_⟩
      · rw [run_tail_calls_cons al al v w (TailCall.append e) _ hw,
          run_tail_calls_cons al al w _ (TailCall.pull out) _ hpull]
        exact hr
      · rw [hrv]
        show w.volume = v.volume
        exact hwv
    | TailCall.pull _ :: _, _, halt => cases halt
    | TailCall.append _ :: TailCall.append _ :: _, _, halt => cases halt

theorem run_tail_calls_cons_null (al al1 : Allocator) (v orig : header_t) (c : TailCall)
    (cs : List TailCall) (h : c.run al v = (al1, Ret.null orig)) :
    run_tail_calls al v (c :: cs) = (al1, Ret.null orig) := by
  show (match c.run al v with
    | (al1, Ret.null orig) => (al1, Ret.null orig)
    | (al1, Ret.some w) => run_tail_calls al1 w cs) = _
  rw [h]

/-- After one append and one pull on a well-formed vector holding at least one element, with
every allocation succeeding, the vector is steady. -/
theorem steady_after_append_pull (al al2 : Allocator) (v w2 : header_t) (hw : v.wf)
    (h1 : 1 ≤ v.length) (hok : ∀ k, al.outcome k ≠ none) (e : Option (List Byte))
    (he : ∀ x, e = some x → v.element_size ≤ x.length) (out : Bool)
    (h : run_tail_calls al v [TailCall.append e, TailCall.pull out] = (al2, Ret.some w2)) :
    steady w2 ∧ w2.length = v.length := by
  rcases happ : mx_vector_append al v e with ⟨al1, r1⟩
  cases r1 with
  | null orig =>
    have hrun : run_tail_calls al v [TailCall.append e, TailCall.pull out] =
        (al1, Ret.null orig) :=
      run_tail_calls_cons_null al al1 v orig (TailCall.append e) _ happ
    rw [hrun] at h
    cases (Prod.mk.inj h).2
  | some w1 =>
    have hout : al1.outcome = al.outcome := by
      have := mx_vector_inject_outcome al v v.length e 1
      have happ1 : mx_vector_inject al v v.length e 1 = (al1, Ret.some w1) := happ
      rw [happ1] at this
      exact this
    obtain ⟨hw1, _, hw1l, _, _, _, _⟩ :=
      mx_vector_inject_ok al al1 v w1 v.length 1 e hw (Nat.le_refl _)
        (fun x hx => by rw [Nat.one_mul]; exact he x hx) happ
    have hok1 : ∀ k, al1.outcome k ≠ none := by rw [hout]; exact hok
    obtain ⟨al3, r, hpull, hrw, _, hrl, hrv, _, _, _⟩ :=
      mx_vector_pull_step al1 w1 out hw1 (by omega) hok1
    have hrun : run_tail_calls al v [TailCall.append e, TailCall.pull out] =
        (al3, Ret.some r) := by
      rw [run_tail_calls_cons al al1 v w1 (TailCall.append e) _ happ,
        run_tail_calls_cons al1 al3 w1 r (TailCall.pull out) _ hpull]
      rfl
    rw [hrun] at h
    have hr : r = w2 := Ret.some.inj (Prod.mk.inj h).2
    subst hr
    have hw1len := hw1.len_le
    have hrvol := hrw.vol_le
    rw [hw1l] at hrl hrv hw1len
    have hL : v.length + 1 - 1 = v.length := by omega
    rw [hL] at hrl
    refine ⟨⟨?_, ?_, hrvol⟩, hrl⟩
    · rw [hrl, hrv]
      unfold pull_volume
      split <;> omega
    · rw [hrl, hrv]
      unfold pull_volume
      split <;> omega

/-- After one pull on a well-formed vector holding at least two elements, with every
allocation succeeding, the vector is steady. -/
theorem steady_after_pull (al : Allocator) (v : header_t) (hw : v.wf) (h2 : 2 ≤ v.length)
    (hok : ∀ k, al.outcome k ≠ none) (out : Bool) :
    ∃ al2 w2, run_tail_calls al v [TailCall.pull out] = (al2, Ret.some w2) ∧ steady w2 ∧
      w2.length = v.length - 1 := by
  have hlen := hw.len_le
  obtain ⟨al1, r, hpull, hrw, _, hrl, hrv, _, _, _⟩ :=
    mx_vector_pull_step al v out hw (by omega) hok
  have hrvol := hrw.vol_le
  refine ⟨al1, r, ?_, ⟨?_, ?_, hrvol⟩, hrl⟩
  · rw [run_tail_calls_cons al al1 v r (TailCall.pull out) [] hpull]
    rfl
  · rw [hrl, hrv]
    unfold pull_volume
    split <;> omega
  · rw [hrl, hrv]
    unfold pull_volume
    split <;> omega

/-- C13, amended: for every well-formed vector and with every allocation succeeding, in an
alternating sequence of `mx_vector_append` and `mx_vector_pull` calls that starts with an append
on a vector holding at least one element, or starts with a pull on a vector holding at least
two elements, only the first append and the first pull may reallocate. After the first append
and pull of an append-first sequence, and already after the first pull of a pull-first
sequence, every continuation of the alternating sequence, under any allocator, runs without
calling the allocator and leaves the volume unchanged. -/
theorem C13_alternating_steady (al : Allocator) (v : header_t) (hw : v.wf)
    (hok : ∀ k, al.outcome k ≠ none) :
    (1 ≤ v.length →
      ∀ (e : Option (List Byte)) (out : Bool) (al2 : Allocator) (w2 : header_t),
        (∀ x, e = some x → v.element_size ≤ x.length) →
        run_tail_calls al v [TailCall.append e, TailCall.pull out] = (al2, Ret.some w2) →
        ∀ (al3 : Allocator) (cs : List TailCall), alternating cs = true →
          ∃ r, run_tail_calls al3 w2 cs = (al3, Ret.some r) ∧ r.volume = w2.volume) ∧
    (2 ≤ v.length →
      ∀ out : Bool,
        ∃ al2 w2, run_tail_calls al v [TailCall.pull out] = (al2, Ret.some w2) ∧
          ∀ (al3 : Allocator) (cs : List TailCall), alternating cs = true →
            ∃ r, run_tail_calls al3 w2 cs = (al3, Ret.some r) ∧ r.volume = w2.volume) := by
  refine ⟨fun h1 e out al2 w2 he h al3 cs hcs => ?_, fun h2 out => ?_⟩
  · exact steady_run cs.length cs al3 w2 (Nat.le_refl _) hcs
      (steady_after_append_pull al al2 v w2 hw h1 hok e he out h).1
  · obtain ⟨al2, w2, hrun, hst, _⟩ := steady_after_pull al v hw h2 hok out
    exact ⟨al2, w2, hrun, fun al3 cs hcs =>
      steady_run cs.length cs al3 w2 (Nat.le_refl _) hcs hst⟩

/-- C13, amended, at concrete inputs: after an append and a pull on the full vector
`[1, 2], [3, 4]`, three more calls run with a failing allocator and keep the volume; and after
a first pull on the same vector the rest of a pull-first sequence does so too. -/
theorem C13_alternating_steady_witness :
    (∃ r,
      run_tail_calls alloc_fail
        (run_tail_calls alloc_ok vec_full
          [TailCall.append (some [5, 6]), TailCall.pull false]).2.block
        [TailCall.append (some [7, 8]), TailCall.pull true, TailCall.append none] =
          (alloc_fail, Ret.some r) ∧
      r.volume =
        (run_tail_calls alloc_ok vec_full
          [TailCall.append (some [5, 6]), TailCall.pull false]).2.block.volume) ∧
    ∃ al2 w2, run_tail_calls alloc_ok vec_full [TailCall.pull true] = (al2, Ret.some w2) ∧
      ∀ (al3 : Allocator) (cs : List TailCall), alternating cs = true →
        ∃ r, run_tail_calls al3 w2 cs = (al3, Ret.some r) ∧ r.volume = w2.volume :=
  ⟨(C13_alternating_steady alloc_ok vec_full vec_full_wf (fun _ h => by cases h)).1
      (by decide) (some [5, 6]) false
      (run_tail_calls alloc_ok vec_full
        [TailCall.append (some [5, 6]), TailCall.pull false]).1
      (run_tail_calls alloc_ok vec_full
        [TailCall.append (some [5, 6]), TailCall.pull false]).2.block
      (fun x hx => by cases hx; decide) rfl alloc_fail
      [TailCall.append (some [7, 8]), TailCall.pull true, TailCall.append none] rfl,
    (C13_alternating_steady alloc_ok vec_full vec_full_wf (fun _ h => by cases h)).2
      (by decide) true⟩

theorem vec_one_wf : vec_one.wf :=
  { es_le := by decide, vol_le := by decide, size_le := by decide, data_len := by decide,
    len_le := by decide }

/-- C13 as stated fails on the empty vector: with every allocation succeeding, an append and a
pull leave volume 0, the second append reallocates to volume 2 and the second pull back to
volume 0, so the third and the fourth operation both change the capacity. It also fails for a
sequence that starts with a pull on a full vector of one element: the volumes run
1, 0, 2, 0, 2 and each of the four calls reallocates. -/
theorem C13_counterexample :
    vec_empty.wf ∧ (∀ k, alloc_ok.outcome k ≠ none) ∧
    (run_tail_calls alloc_ok vec_empty
      [TailCall.append (some [1]), TailCall.pull false]).2.block.volume = 0 ∧
    (run_tail_calls alloc_ok vec_empty
      [TailCall.append (some [1]), TailCall.pull false,
        TailCall.append (some [2])]).2.block.volume = 2 ∧
    (run_tail_calls alloc_ok vec_empty
      [TailCall.append (some [1]), TailCall.pull false,
        TailCall.append (some [2]), TailCall.pull false]).2.block.volume = 0 ∧
    (run_tail_calls alloc_ok vec_empty
      [TailCall.append (some [1]), TailCall.pull false,
        TailCall.append (some [2]), TailCall.pull false]).1.moved = 4 ∧
    vec_one.wf ∧
    (run_tail_calls alloc_ok vec_one [TailCall.pull false]).2.block.volume = 0 ∧
    (run_tail_calls alloc_ok vec_one
      [TailCall.pull false, TailCall.append (some [2])]).2.block.volume = 2 ∧
    (run_tail_calls alloc_ok vec_one
      [TailCall.pull false, TailCall.append (some [2]),
        TailCall.pull false]).2.block.volume = 0 ∧
    (run_tail_calls alloc_ok vec_one
      [TailCall.pull false, TailCall.append (some [2]), TailCall.pull false,
        TailCall.append (some [3])]).2.block.volume = 2 ∧
    (run_tail_calls alloc_ok vec_one
      [TailCall.pull false, TailCall.append (some [2]), TailCall.pull false,
        TailCall.append (some [3])]).1.moved = 4 := by
  refine ⟨?_, (fun _ h => by cases h), by decide, by decide, by decide, by decide,
    vec_one_wf, by decide, by decide, by decide, by decide, by decide⟩
  exact
    { es_le := by decide, vol_le := by decide, size_le := by decide, data_len := by decide,
      len_le := by decide }

/-! ## `string.c`: `mx_string_ensure` on a block whose terminator has been overwritten -/

/-- A successful `mx_string_ensure` needs only the sizes of the block to be right, not its
terminator: it keeps the length and the stored bytes and makes room for `n` bytes. -/
theorem mx_string_ensure_sized (al al1 : Allocator) (s w : string_header_t) (n : Nat)
    (hsz : s.volume + (STRING_HEADER_SIZE + 1) ≤ SIZE_MAX) (hdl : s.data.length = s.volume + 1)
    (hlen : s.length ≤ s.volume) (h : mx_string_ensure al s n = (al1, StrRet.some w)) :
    w.length = s.length ∧ n ≤ w.volume ∧ s.volume ≤ w.volume ∧
      w.data.length = w.volume + 1 ∧ w.volume + (STRING_HEADER_SIZE + 1) ≤ SIZE_MAX ∧
      ∀ k, k ≤ s.data.length → w.data.take k = s.data.take k := by
  have grow : ∀ (al0 al2 : Allocator) (volume : Nat), n ≤ volume → s.volume < volume →
      mx_string_resize al0 s volume = (al2, StrRet.some w) →
      w.length = s.length ∧ n ≤ w.volume ∧ s.volume ≤ w.volume ∧
        w.data.length = w.volume + 1 ∧ w.volume + (STRING_HEADER_SIZE + 1) ≤ SIZE_MAX ∧
        ∀ k, k ≤ s.data.length → w.data.take k = s.data.take k := by
    intro al0 al2 volume hn hv hr
    rcases mx_string_resize_cases al0 s volume with ⟨_, h1⟩ | ⟨_, _, h1⟩ | ⟨junk, hb, _, h1⟩
    · rw [h1] at hr; injection hr with _ h2; cases h2
    · rw [h1] at hr; injection hr with _ h2; cases h2
    · rw [h1, if_neg (by omega)] at hr
      have hr1 :
          ({ volume := volume, length := s.length,
             data := realloc_data s.data (volume + 1) junk } : string_header_t) = w := by
        injection hr with _ h2; injection h2
      subst hr1
      refine ⟨rfl, hn, Nat.le_of_lt hv, length_realloc_data _ _ _, hb, fun k hk => ?_⟩
      exact realloc_data_take _ _ _ _ (by omega) hk
  unfold mx_string_ensure at h
  by_cases hv : s.volume < n
  · rw [if_pos hv] at h
    dsimp only at h
    by_cases hp : n < prealloc_volume n
    · rw [if_pos hp] at h
      rcases mx_string_resize_cases al s (prealloc_volume n) with
        ⟨_, h1⟩ | ⟨_, _, h1⟩ | ⟨junk, hb, ho, h1⟩
      · rw [h1] at h
        exact grow _ _ n (Nat.le_refl _) hv h
      · rw [h1] at h
        exact grow _ _ n (Nat.le_refl _) hv h
      · have h2 := h1
        rw [h1] at h
        have hwe : (mx_string_resize al s (prealloc_volume n)).2 = StrRet.some w := by
          rw [h2]
          injection h with _ h3
        exact grow al (mx_string_resize al s (prealloc_volume n)).1 (prealloc_volume n)
          (Nat.le_of_lt hp) (by omega) (Prod.ext rfl hwe)
    · rw [if_neg hp] at h
      exact grow _ _ n (Nat.le_refl _) hv h
  · rw [if_neg hv] at h
    have hsw : s = w := by injection h with _ h2; injection h2
    subst hsw
    exact ⟨rfl, by omega, Nat.le_refl _, hdl, hsz, fun _ _ => rfl⟩

theorem take_set_ge (l : List Byte) (k v a : Nat) (h : k ≤ v) :
    (l.set v a).take k = l.take k := by
  induction l generalizing k v with
  | nil => simp
  | cons x xs ih =>
    cases v with
    | zero => simp [Nat.le_zero.mp h]
    | succ v =>
      cases k with
      | zero => simp
      | succ k => simp [ih k v (by omega)]

/-! ## C21: `mx_string_resize` -/

/-- C21: for every well-formed byte string (with `data[length] == 0`) and every requested
volume, a successful `mx_string_resize` returns a string with that volume, length
`min(old length, volume)`, the first `min(old length, volume)` bytes preserved and
`data[length] == 0`; it returns `NULL`, leaving the string unmodified, when
`volume + sizeof(header_t) + 1` overflows (without calling the allocator) or the reallocation
fails. -/
theorem C21_string_resize (al : Allocator) (s : string_header_t) (volume : Nat) (hw : s.wf) :
    (∀ al1 r, mx_string_resize al s volume = (al1, StrRet.some r) →
      r.volume = volume ∧ r.length = min s.length volume ∧
      string_bytes r = (string_bytes s).take (min s.length volume) ∧
      r.data[r.length]? = some 0) ∧
    (SIZE_MAX < volume + (STRING_HEADER_SIZE + 1) →
      mx_string_resize al s volume = (al, StrRet.null s)) ∧
    (al.outcome al.calls = none → (mx_string_resize al s volume).2 = StrRet.null s) := by
  have hlen := hw.len_le
  have hdl := hw.data_len
  refine ⟨fun al1 r h => ?_, fun hov => ?_, fun ho => ?_⟩
  · rcases mx_string_resize_cases al s volume with ⟨_, h1⟩ | ⟨_, _, h1⟩ | ⟨junk, hb, _, h1⟩
    · rw [h1] at h; cases (Prod.mk.inj h).2
    · rw [h1] at h; cases (Prod.mk.inj h).2
    · rw [h1] at h
      have hr := StrRet.some.inj (Prod.mk.inj h).2
      by_cases ht : volume < s.length
      · rw [if_pos ht] at hr
        subst hr
        have hmin : min s.length volume = volume := by omega
        have hrl : (realloc_data s.data (volume + 1) junk).length = volume + 1 :=
          length_realloc_data _ _ _
        refine ⟨rfl, hmin.symm, ?_, ?_⟩
        · show ((realloc_data s.data (volume + 1) junk).set volume 0).take volume = _
          rw [take_set_ge _ _ _ _ (Nat.le_refl volume),
            realloc_data_take _ _ _ _ (by omega) (by omega), hmin]
          unfold string_bytes
          rw [List.take_take, Nat.min_eq_left (by omega)]
        · show ((realloc_data s.data (volume + 1) junk).set volume 0)[volume]? = some 0
          rw [List.getElem?_set_self (by omega)]
      · rw [if_neg ht] at hr
        subst hr
        have hmin : min s.length volume = s.length := by omega
        refine ⟨rfl, hmin.symm, ?_, ?_⟩
        · show (realloc_data s.data (volume + 1) junk).take s.length = _
          rw [realloc_data_take _ _ _ _ (by omega) (by omega), hmin]
          unfold string_bytes
          rw [List.take_take, Nat.min_self]
        · show (realloc_data s.data (volume + 1) junk)[s.length]? = some 0
          have h2 : (realloc_data s.data (volume + 1) junk).take (s.length + 1)
              = s.data.take (s.length + 1) :=
            realloc_data_take _ _ _ _ (by omega) (by omega)
          rw [← List.getElem?_take_of_succ, h2, List.getElem?_take_of_succ]
          exact hw.terminated
  · rcases mx_string_resize_cases al s volume with ⟨_, h1⟩ | ⟨hb, _, _⟩ | ⟨junk, hb, _, _⟩
    · exact h1
    · omega
    · omega
  · rcases mx_string_resize_cases al s volume with ⟨_, h1⟩ | ⟨_, _, h1⟩ | ⟨junk, _, ho1, _⟩
    · rw [h1]
    · rw [h1]
    · rw [ho] at ho1
      cases ho1

/-- C21 at concrete inputs: truncating `"abc"` to volume 2, and a failing reallocation. -/
theorem C21_string_resize_witness :
    ((mx_string_resize alloc_ok str_abc 2).2.block.volume = 2 ∧
      (mx_string_resize alloc_ok str_abc 2).2.block.length = min str_abc.length 2 ∧
      string_bytes (mx_string_resize alloc_ok str_abc 2).2.block = [97, 98] ∧
      (mx_string_resize alloc_ok str_abc 2).2.block.data[
        (mx_string_resize alloc_ok str_abc 2).2.block.length]? = some 0) ∧
    (mx_string_resize alloc_fail str_abc 7).2 = StrRet.null str_abc :=
  ⟨(C21_string_resize alloc_ok str_abc 2 str_abc_wf).1 (mx_string_resize alloc_ok str_abc 2).1
      (mx_string_resize alloc_ok str_abc 2).2.block rfl,
    (C21_string_resize alloc_fail str_abc 7 str_abc_wf).2.2 rfl⟩

/-! ## C22: `mx_string_create` -/

theorem strlen_le (src : List Byte) : strlen src ≤ src.length := by
  unfold strlen
  exact (List.takeWhile_sublist _).length_le

theorem take_strlen (src : List Byte) :
    src.take (strlen src) = src.takeWhile (fun c => c != 0) := by
  unfold strlen
  induction src with
  | nil => rfl
  | cons x xs ih =>
    by_cases hx : (x != 0) = true
    · simp only [List.takeWhile_cons, hx, if_true, List.length_cons, List.take_succ_cons, ih]
    · simp only [List.takeWhile_cons, hx, List.length_nil, List.take_zero]
      rfl

theorem mx_string_create_cases (al : Allocator) (source : Option (List Byte)) (length : Nat) :
    (SIZE_MAX < create_length source length + (STRING_HEADER_SIZE + 1) ∧
      mx_string_create al source length = (al, none)) ∨
    (create_length source length + (STRING_HEADER_SIZE + 1) ≤ SIZE_MAX ∧
      al.outcome al.calls = none ∧
      mx_string_create al source length = ({ al with calls := al.calls + 1 }, none)) ∨
    (∃ junk, create_length source length + (STRING_HEADER_SIZE + 1) ≤ SIZE_MAX ∧
      al.outcome al.calls = some junk ∧
      mx_string_create al source length =
        ({ al with calls := al.calls + 1, moved := al.moved + 1 },
          some
            { volume := create_length source length
              length := create_length source length
              data :=
                (match source with
                  | some src =>
                    memcpy ((List.range (create_length source length + 1)).map junk) 0 src
                      (create_length source length)
                  | none =>
                    memset ((List.range (create_length source length + 1)).map junk) 0
                      (create_length source length)).set (create_length source length) 0 })) := by
  have hL : (match source with
      | some src => if length = 0 then strlen src else length
      | none => length) = create_length source length := rfl
  unfold mx_string_create mx_addz_overflow string_malloc
  simp only [hL]
  by_cases h : SIZE_MAX < create_length source length + (STRING_HEADER_SIZE + 1)
  · left
    simp [h]
  · right
    have h1 : create_length source length + (STRING_HEADER_SIZE + 1) ≤ SIZE_MAX :=
      Nat.le_of_not_lt h
    have hs : size_add (create_length source length) (STRING_HEADER_SIZE + 1)
        - STRING_HEADER_SIZE = create_length source length + 1 := by
      rw [size_add_eq h1]; unfold STRING_HEADER_SIZE; omega
    rcases ho : al.outcome al.calls with _ | junk
    · left
      simp [h, h1]
    · right
      refine ⟨junk, h1, rfl, ?_⟩
      simp only [h, decide_False, Bool.false_eq_true, if_false, hs]

theorem created_string (al al1 : Allocator) (source : Option (List Byte)) (length : Nat)
    (r : string_header_t) (filled : List Byte → List Byte) (bytes : List Byte)
    (hfill : ∀ d : List Byte, d.length = create_length source length + 1 →
      (match source with
        | some src => memcpy d 0 src (create_length source length)
        | none => memset d 0 (create_length source length)) = bytes ++ filled d ∧
      (filled d).length = 1)
    (hlen : bytes.length = create_length source length)
    (h : mx_string_create al source length = (al1, some r)) :
    r.volume = create_length source length ∧ r.length = create_length source length ∧
    string_bytes r = bytes ∧ r.data[create_length source length]? = some 0 := by
  rcases mx_string_create_cases al source length with ⟨_, h1⟩ | ⟨_, _, h1⟩ | ⟨junk, _, _, h1⟩
  · rw [h1] at h; cases (Prod.mk.inj h).2
  · rw [h1] at h; cases (Prod.mk.inj h).2
  · rw [h1] at h
    have hr := Option.some.inj (Prod.mk.inj h).2
    subst hr
    have hd : ((List.range (create_length source length + 1)).map junk).length
        = create_length source length + 1 := by
      rw [List.length_map, List.length_range]
    obtain ⟨he, hf⟩ := hfill _ hd
    refine ⟨rfl, rfl, ?_, ?_⟩
    · show (List.set _ (create_length source length) 0).take (create_length source length) = _
      rw [take_set_ge _ _ _ _ (Nat.le_refl _), he, List.take_left' hlen]
    · show (List.set _ (create_length source length) 0)[create_length source length]? = some 0
      rw [List.getElem?_set_self]
      rw [he, List.length_append, hlen, hf]
      omega

/-- C22: a successful `mx_string_create(source, length)` returns a string with
`volume == length'` and `data[length'] == 0`, where: for a source and `length != 0`,
`length' = length` and the bytes are the first `length` bytes of the source; for a source and
`length == 0`, `length' = strlen(source)` and the bytes are the source's characters; for the
`NULL` source, `length' = length` and all bytes are 0. It succeeds whenever the size does not
overflow and the allocation succeeds. -/
theorem C22_string_create (al : Allocator) (source : Option (List Byte)) (length : Nat)
    (hsrc : ∀ src, source = some src → length ≤ src.length) :
    (∀ al1 r, mx_string_create al source length = (al1, some r) →
      (∀ src, source = some src → length ≠ 0 →
        r.volume = length ∧ r.length = length ∧ string_bytes r = src.take length ∧
        r.data[length]? = some 0) ∧
      (∀ src, source = some src → length = 0 →
        r.volume = strlen src ∧ r.length = strlen src ∧
        string_bytes r = src.takeWhile (fun c => c != 0) ∧ r.data[strlen src]? = some 0) ∧
      (source = none →
        r.volume = length ∧ r.length = length ∧ string_bytes r = List.replicate length 0 ∧
        r.data[length]? = some 0)) ∧
    (create_length source length + (STRING_HEADER_SIZE + 1) ≤ SIZE_MAX →
      al.outcome al.calls ≠ none → ∃ r, (mx_string_create al source length).2 = some r) := by
  refine ⟨fun al1 r h => ⟨fun src hs hn => ?_, fun src hs hz => ?_, fun hs => ?_⟩,
    fun hfit ho => ?_⟩
  · subst hs
    have hc : create_length (some src) length = length := by
      unfold create_length; exact if_neg hn
    have hle := hsrc src rfl
    have := created_string al al1 (some src) length r (fun d => d.drop length)
      (src.take length)
      (fun d hd => by
        rw [hc] at hd ⊢
        refine ⟨?_, ?_⟩
        · show memcpy d 0 src length = _
          unfold memcpy
          rw [List.take_zero, List.nil_append, Nat.zero_add]
        · show (d.drop length).length = 1
          rw [List.length_drop, hd]; omega)
      (by rw [List.length_take, hc]; omega) h
    rw [hc] at this
    exact this
  · subst hs
    have hc : create_length (some src) length = strlen src := by
      unfold create_length; exact if_pos hz
    have hle := strlen_le src
    have := created_string al al1 (some src) length r (fun d => d.drop (strlen src))
      (src.takeWhile (fun c => c != 0))
      (fun d hd => by
        rw [hc] at hd ⊢
        refine ⟨?_, ?_⟩
        · show memcpy d 0 src (strlen src) = _
          unfold memcpy
          rw [List.take_zero, List.nil_append, Nat.zero_add, take_strlen]
        · show (d.drop (strlen src)).length = 1
          rw [List.length_drop, hd]; omega)
      (by rw [hc]; rfl) h
    rw [hc] at this
    exact this
  · subst hs
    have hc : create_length none length = length := rfl
    have := created_string al al1 none length r (fun d => d.drop length)
      (List.replicate length 0)
      (fun d hd => by
        rw [hc] at hd ⊢
        refine ⟨rfl, ?_⟩
        show (d.drop length).length = 1
        rw [List.length_drop, hd]; omega)
      (by rw [List.length_replicate, hc]) h
    rw [hc] at this
    exact this
  · rcases mx_string_create_cases al source length with ⟨hb, _⟩ | ⟨_, hn, _⟩ | ⟨junk, _, _, h1⟩
    · omega
    · exact absurd hn ho
    · rw [h1]
      exact ⟨_, rfl⟩

/-- C22 at concrete inputs: `"hi"` by `strlen`, two bytes of `"hi!"`, and three `0` bytes. -/
theorem C22_string_create_witness :
    (mx_string_create alloc_ok (some [104, 105, 0, 7]) 0).2
      = some { volume := 2, length := 2, data := [104, 105, 0] } ∧
    (string_bytes { volume := 2, length := 2, data := [104, 105, 0] }
      = [104, 105, 0, 7].takeWhile (fun c => c != 0)) ∧
    (mx_string_create alloc_ok none 0).2 = some { volume := 0, length := 0, data := [0] } ∧
    ∃ r, (mx_string_create alloc_ok (some [104, 105, 33, 0]) 2).2 = some r :=
  ⟨rfl,
    (((C22_string_create alloc_ok (some [104, 105, 0, 7]) 0
      (fun _ _ => Nat.zero_le _)).1 _ _ rfl).2.1 _ rfl rfl).2.2.1,
    rfl,
    (C22_string_create alloc_ok (some [104, 105, 33, 0]) 2
      (fun src hs => by cases hs; decide)).2 (by decide) (by simp [alloc_ok])⟩

/-! ## C23: `mx_string_inject` and `mx_string_extend` with `n == 0` -/

/-- C23 at the failing input: with `n == 0` and the source `"xy"` (whose `strlen` is 2),
`mx_string_inject` at offset 1 of `"abc"` and `mx_string_extend` of `"abc"` both return the
string unchanged, of length 3 and not 5, without calling the allocator: string.c:135-154 has no
branch that replaces `n == 0` by `strlen(c)`, unlike `mx_string_create`, which does so for
its `length == 0`. With `n == 2` the same calls insert the two characters. -/
theorem C23_inject_zero_is_noop :
    str_abc.wf ∧ strlen [120, 121, 0] = 2 ∧
    mx_string_inject alloc_ok str_abc 1 [120, 121, 0] 0 = (alloc_ok, StrRet.some str_abc) ∧
    mx_string_extend alloc_ok str_abc [120, 121, 0] 0 = (alloc_ok, StrRet.some str_abc) ∧
    (mx_string_inject alloc_ok str_abc 1 [120, 121, 0] 0).2.block.length ≠
      str_abc.length + strlen [120, 121, 0] ∧
    string_bytes (mx_string_inject alloc_ok str_abc 1 [120, 121, 0] 2).2.block
      = [97, 120, 121, 98, 99] ∧
    string_bytes (mx_string_extend alloc_ok str_abc [120, 121, 0] 2).2.block
      = [97, 98, 99, 120, 121] ∧
    (mx_string_create alloc_ok (some [120, 121, 0]) 0).2
      = some { volume := 2, length := 2, data := [120, 121, 0] } :=
  ⟨str_abc_wf, by decide, rfl, rfl, by decide, by decide, by decide, by decide⟩

/-! ## C25: `mx_string_catf` when `mx_string_ensure` fails -/

theorem str_ab_spare_wf : str_ab_spare.wf :=
  ⟨by decide, by decide, by decide, by decide⟩

/-- C25 at the failing input: formatting `"hello"` onto `"ab"` held in a block of volume 3
while every reallocation fails. The first pass has a buffer of 2 bytes and writes `'h'` over
the terminator at offset 2 and a `0` at offset 3; `mx_string_ensure` then fails and `NULL` is
returned through string.c:207-211, which does not restore `data[length]` (only the last
failure path, string.c:222, does). The caller's string keeps its volume, length and first two
bytes but is no longer terminated. When the block has no spare byte (`"abc"` at volume 3) the
first pass only rewrites the terminator and the string is left as it was. -/
theorem C25_catf_failure_clobbers_terminator :
    str_ab_spare.wf ∧ str_ab_spare.data[str_ab_spare.length]? = some 0 ∧
    (mx_string_catf alloc_fail str_ab_spare [104, 101, 108, 108, 111]).2
      = StrRet.null { volume := 3, length := 2, data := [97, 98, 104, 0] } ∧
    (mx_string_ensure alloc_fail str_ab_spare (2 + 5)).2.isNull = true ∧
    string_bytes (mx_string_catf alloc_fail str_ab_spare [104, 101, 108, 108, 111]).2.block
      = string_bytes str_ab_spare ∧
    (mx_string_catf alloc_fail str_ab_spare [104, 101, 108, 108, 111]).2.block.data[2]?
      = some 104 ∧
    (mx_string_catf alloc_fail str_abc [104, 101, 108, 108, 111]).2 = StrRet.null str_abc :=
  ⟨str_ab_spare_wf, by decide, by decide, by decide, by decide, by decide, by decide⟩

/-! ## C24: `mx_string_catf` -/

theorem vsnprintf_fits (data : List Byte) (pos size : Nat) (output : List Byte)
    (h : output.length < size) :
    vsnprintf data pos size output =
      (data.take pos ++ (output ++ [0]) ++ data.drop (pos + (output.length + 1)),
        output.length) := by
  unfold vsnprintf memcpy
  have e1 : output.take (size - 1) = output := List.take_of_length_le (by omega)
  have e2 : (output ++ [0]).take (output.length + 1) = output ++ [0] :=
    List.take_of_length_le (by rw [List.length_append, List.length_singleton])
  rw [if_neg (by omega), e1, Nat.min_eq_left (by omega : output.length ≤ size - 1), e2]

theorem vsnprintf_take (data : List Byte) (pos size : Nat) (output : List Byte)
    (k : Nat) (hk : k ≤ pos) (hp : pos ≤ data.length) :
    (vsnprintf data pos size output).1.take k = data.take k := by
  unfold vsnprintf memcpy
  by_cases hs : size = 0
  · rw [if_pos hs]
  · rw [if_neg hs]
    show (data.take pos ++ _ ++ _).take k = _
    rw [List.append_assoc,
      List.take_append_of_le_length (by rw [List.length_take]; omega), List.take_take,
      Nat.min_eq_left hk]

theorem vsnprintf_length (data : List Byte) (pos size : Nat) (output : List Byte)
    (hp : pos + size ≤ data.length) :
    (vsnprintf data pos size output).1.length = data.length := by
  unfold vsnprintf memcpy
  by_cases hs : size = 0
  · rw [if_pos hs]
  · rw [if_neg hs]
    show (data.take pos ++ _ ++ _).length = _
    simp only [List.length_append, List.length_take, List.length_drop, List.length_singleton]
    omega

theorem vsnprintf_demand (data : List Byte) (pos size : Nat) (output : List Byte) :
    (vsnprintf data pos size output).2 = output.length := by
  unfold vsnprintf
  by_cases hs : size = 0
  · rw [if_pos hs]
  · rw [if_neg hs]

/-- The bytes a string holds after a pass of the formatter that fits: the old bytes, the
output, and a terminator. -/
theorem formatted_bytes (data output : List Byte) (len : Nat) (hl : len ≤ data.length) :
    (data.take len ++ (output ++ [0]) ++ data.drop (len + (output.length + 1))).take
        (len + output.length) = data.take len ++ output ∧
    (data.take len ++ (output ++ [0]) ++ data.drop (len + (output.length + 1)))[
        len + output.length]? = some 0 := by
  have h1 : (data.take len ++ output).length = len + output.length := by
    rw [List.length_append, List.length_take, Nat.min_eq_left hl]
  have h2 : data.take len ++ (output ++ [0]) ++ data.drop (len + (output.length + 1))
      = (data.take len ++ output) ++ (0 :: data.drop (len + (output.length + 1))) := by
    simp only [List.append_assoc, List.singleton_append]
  rw [h2]
  refine ⟨List.take_left' h1, ?_⟩
  rw [List.getElem?_append_right (by omega), h1, Nat.sub_self]
  simp

theorem catf_buffer (volume length : Nat) (hl : length ≤ volume)
    (hv : volume + (STRING_HEADER_SIZE + 1) ≤ SIZE_MAX) :
    size_add (size_sub volume length) 1 = volume - length + 1 := by
  unfold STRING_HEADER_SIZE at hv
  rw [size_sub_eq hl (by omega), size_add_eq (by omega)]

theorem mx_string_catf_eq (al : Allocator) (s : string_header_t) (output : List Byte)
    (hl : s.length ≤ s.volume) (hv : s.volume + (STRING_HEADER_SIZE + 1) ≤ SIZE_MAX)
    (hsum : s.length + output.length ≤ SIZE_MAX) :
    mx_string_catf al s output =
      if output.length < s.volume - s.length + 1 then
        (al, StrRet.some
          { volume := s.volume, length := s.length + output.length
            data := (vsnprintf s.data s.length (s.volume - s.length + 1) output).1 })
      else
        match mx_string_ensure al
            { s with data := (vsnprintf s.data s.length (s.volume - s.length + 1) output).1 }
            (s.length + output.length) with
        | (al1, StrRet.null orig) => (al1, StrRet.null orig)
        | (al1, StrRet.some w) =>
          if output.length < size_add (size_sub w.volume w.length) 1 then
            (al1, StrRet.some
              { volume := w.volume, length := size_add w.length output.length
                data := (vsnprintf w.data w.length
                  (size_add (size_sub w.volume w.length) 1) output).1 })
          else
            (al1, StrRet.null
              { volume := w.volume, length := w.length
                data := (vsnprintf w.data w.length
                  (size_add (size_sub w.volume w.length) 1) output).1.set w.length 0 }) := by
  unfold mx_string_catf
  simp only [vsnprintf_demand, catf_buffer s.volume s.length hl hv, size_add_eq hsum]

/-- A pass of the formatter that fits into a block leaves a well-formed string holding the
old bytes followed by the output. -/
theorem catf_pass_fits (data output : List Byte) (vol len : Nat)
    (hd : data.length = vol + 1) (hfit : len + output.length ≤ vol)
    (hv : vol + (STRING_HEADER_SIZE + 1) ≤ SIZE_MAX) :
    string_bytes
        { volume := vol, length := len + output.length
          data := (vsnprintf data len (vol - len + 1) output).1 }
      = data.take len ++ output ∧
    (vsnprintf data len (vol - len + 1) output).1[len + output.length]? = some 0 ∧
    string_header_t.wf
        { volume := vol, length := len + output.length
          data := (vsnprintf data len (vol - len + 1) output).1 } := by
  have hf := vsnprintf_fits data len (vol - len + 1) output (by omega)
  have hb := formatted_bytes data output len (by omega)
  have hlen := vsnprintf_length data len (vol - len + 1) output (by omega)
  refine ⟨?_, ?_, ⟨hv, ?_, hfit, ?_⟩⟩
  · show (vsnprintf data len (vol - len + 1) output).1.take (len + output.length) = _
    rw [hf]
    exact hb.1
  · rw [hf]
    exact hb.2
  · show (vsnprintf data len (vol - len + 1) output).1.length = vol + 1
    rw [hlen, hd]
  · show (vsnprintf data len (vol - len + 1) output).1[len + output.length]? = some 0
    rw [hf]
    exact hb.2

/-- The outcomes of `mx_string_catf` on a well-formed string: the output fits and the block
is returned as it is, or `mx_string_ensure` fails and so does the call, or `mx_string_ensure`
succeeds and the second pass fits. -/
theorem mx_string_catf_cases (al : Allocator) (s : string_header_t) (output : List Byte)
    (hw : s.wf) (hsum : s.length + output.length ≤ SIZE_MAX) :
    (output.length ≤ s.volume - s.length ∧
      mx_string_catf al s output =
        (al, StrRet.some
          { volume := s.volume, length := s.length + output.length
            data := (vsnprintf s.data s.length (s.volume - s.length + 1) output).1 })) ∨
    (s.volume - s.length < output.length ∧
      ∃ al1 orig,
        mx_string_ensure al
            { s with data := (vsnprintf s.data s.length (s.volume - s.length + 1) output).1 }
            (s.length + output.length) = (al1, StrRet.null orig) ∧
        mx_string_catf al s output = (al1, StrRet.null orig)) ∨
    (s.volume - s.length < output.length ∧
      ∃ al1 w,
        mx_string_ensure al
            { s with data := (vsnprintf s.data s.length (s.volume - s.length + 1) output).1 }
            (s.length + output.length) = (al1, StrRet.some w) ∧
        w.length = s.length ∧ s.length + output.length ≤ w.volume ∧
        w.data.length = w.volume + 1 ∧ w.volume + (STRING_HEADER_SIZE + 1) ≤ SIZE_MAX ∧
        w.data.take s.length = s.data.take s.length ∧
        mx_string_catf al s output =
          (al1, StrRet.some
            { volume := w.volume, length := s.length + output.length
              data := (vsnprintf w.data s.length (w.volume - s.length + 1) output).1 })) := by
  have hl := hw.len_le
  have hdl := hw.data_len
  have hv := hw.size_le
  rw [mx_string_catf_eq al s output hl hv hsum]
  by_cases hfit : output.length < s.volume - s.length + 1
  · left
    rw [if_pos hfit]
    exact ⟨by omega, rfl⟩
  · right
    rw [if_neg hfit]
    have hlen1 : (vsnprintf s.data s.length (s.volume - s.length + 1) output).1.length
        = s.volume + 1 := by
      rw [vsnprintf_length _ _ _ _ (by omega), hdl]
    rcases he : mx_string_ensure al
        { s with data := (vsnprintf s.data s.length (s.volume - s.length + 1) output).1 }
        (s.length + output.length) with ⟨al1, orig | w⟩
    · left
      exact ⟨by omega, al1, orig, rfl, rfl⟩
    · right
      obtain ⟨h1, h2, _, h4, h5, h6⟩ := mx_string_ensure_sized al al1
        { s with data := (vsnprintf s.data s.length (s.volume - s.length + 1) output).1 }
        w (s.length + output.length) hv hlen1 hl he
      have h1 : w.length = s.length := h1
      have hb := catf_buffer w.volume w.length (by omega) h5
      have h7 : w.data.take s.length = s.data.take s.length := by
        rw [h6 s.length (by rw [hlen1]; omega)]
        exact vsnprintf_take _ _ _ _ _ (Nat.le_refl _) (by omega)
      refine ⟨by omega, al1, w, rfl, h1, h2, h4, h5, h7, ?_⟩
      dsimp only
      rw [hb, if_pos (by omega), h1, size_add_eq hsum]

/-- C24: with the formatter producing the fixed output `output` of `d` bytes, on every
well-formed byte string whose new length `length + d` is representable, `mx_string_catf`
returns the same block without calling the allocator when `d <= volume - length`, and
otherwise calls `mx_string_ensure(length + d)` on the block and formats again into the
block it returns; every successful call returns a well-formed string of length `length + d`
whose bytes are the old bytes followed by the output, with `data[new length] == 0` and
`new length <= volume`; and every `NULL` return is the `NULL` of `mx_string_ensure`, so the
last `return NULL` of the function is never reached. -/
theorem C24_string_catf (al : Allocator) (s : string_header_t) (output : List Byte)
    (hw : s.wf) (hsum : s.length + output.length ≤ SIZE_MAX) :
    (output.length ≤ s.volume - s.length →
      ∃ r, mx_string_catf al s output = (al, StrRet.some r) ∧ r.volume = s.volume) ∧
    (s.volume - s.length < output.length →
      ∀ al1 w,
        mx_string_ensure al
            { s with data := (vsnprintf s.data s.length (s.volume - s.length + 1) output).1 }
            (s.length + output.length) = (al1, StrRet.some w) →
        mx_string_catf al s output =
          (al1, StrRet.some
            { volume := w.volume, length := s.length + output.length
              data := (vsnprintf w.data w.length (w.volume - w.length + 1) output).1 })) ∧
    (∀ al1 r, mx_string_catf al s output = (al1, StrRet.some r) →
      r.length = s.length + output.length ∧ string_bytes r = string_bytes s ++ output ∧
      r.data[r.length]? = some 0 ∧ r.length ≤ r.volume ∧ r.wf) ∧
    (∀ al1 orig, mx_string_catf al s output = (al1, StrRet.null orig) →
      s.volume - s.length < output.length ∧
      mx_string_ensure al
          { s with data := (vsnprintf s.data s.length (s.volume - s.length + 1) output).1 }
          (s.length + output.length) = (al1, StrRet.null orig)) := by
  have hl := hw.len_le
  have hdl := hw.data_len
  have hv := hw.size_le
  refine ⟨fun hfit => ?_, fun hgrow al1 w he => ?_, fun al1 r h => ?_, fun al1 orig h => ?_⟩
  · rcases mx_string_catf_cases al s output hw hsum with
      ⟨_, h1⟩ | ⟨hn, _⟩ | ⟨hn, _⟩
    · exact ⟨_, h1, rfl⟩
    · omega
    · omega
  · rcases mx_string_catf_cases al s output hw hsum with
      ⟨hn, _⟩ | ⟨_, al2, orig, he2, _⟩ | ⟨_, al2, w2, he2, hwl, _, _, _, _, h1⟩
    · omega
    · rw [he] at he2
      cases (Prod.mk.inj he2).2
    · rw [he] at he2
      obtain ⟨ha, hww⟩ := Prod.mk.inj he2
      have hww := StrRet.some.inj hww
      subst ha
      subst hww
      rw [h1, hwl]
  · rcases mx_string_catf_cases al s output hw hsum with
      ⟨hfit, h1⟩ | ⟨_, al2, orig, _, h1⟩ | ⟨_, al2, w, _, hwl, hroom, hwd, hwv, hwt, h1⟩
    · rw [h1] at h
      have hr := StrRet.some.inj (Prod.mk.inj h).2
      subst hr
      obtain ⟨hb, ht, hwf⟩ := catf_pass_fits s.data output s.volume s.length hdl
        (by omega) hv
      exact ⟨rfl, hb, ht, by show s.length + output.length ≤ s.volume; omega, hwf⟩
    · rw [h1] at h
      cases (Prod.mk.inj h).2
    · rw [h1] at h
      have hr := StrRet.some.inj (Prod.mk.inj h).2
      subst hr
      obtain ⟨hb, ht, hwf⟩ := catf_pass_fits w.data output w.volume s.length hwd hroom hwv
      refine ⟨rfl, ?_, ht, hroom, hwf⟩
      rw [hb, hwt]
      rfl
  · rcases mx_string_catf_cases al s output hw hsum with
      ⟨_, h1⟩ | ⟨hn, al2, orig2, he, h1⟩ | ⟨_, al2, w, _, _, _, _, _, _, h1⟩
    · rw [h1] at h
      cases (Prod.mk.inj h).2
    · rw [h1] at h
      obtain ⟨ha, ho⟩ := Prod.mk.inj h
      have ho := StrRet.null.inj ho
      subst ha
      subst ho
      exact ⟨hn, he⟩
    · rw [h1] at h
      cases (Prod.mk.inj h).2

/-- C24 at concrete inputs: `"c"` fits the spare byte of `"ab"` at volume 3, and `"hello"`
makes the block grow. -/
theorem C24_string_catf_witness :
    (∃ r, mx_string_catf alloc_fail str_ab_spare [99] = (alloc_fail, StrRet.some r) ∧
      r.volume = str_ab_spare.volume) ∧
    (mx_string_catf alloc_ok str_ab_spare [104, 101, 108, 108, 111]).2
      = StrRet.some { volume := 11, length := 7
                      data := [97, 98, 104, 101, 108, 108, 111, 0, 0, 0, 0, 0] } ∧
    string_bytes (mx_string_catf alloc_ok str_ab_spare [104, 101, 108, 108, 111]).2.block
      = string_bytes str_ab_spare ++ [104, 101, 108, 108, 111] :=
  ⟨(C24_string_catf alloc_fail str_ab_spare [99] str_ab_spare_wf (by decide)).1 (by decide),
    by decide,
    ((C24_string_catf alloc_ok str_ab_spare [104, 101, 108, 108, 111] str_ab_spare_wf
      (by decide)).2.2.1 _ _ rfl).2.1⟩

/-! ## `bitset.c`: units and bits -/

theorem mx_bitset_get_eq (b : bitset_header_t) (i : Nat) :
    mx_bitset_get b i = (b.unit (i / 32)).testBit (i % 32) := by
  unfold mx_bitset_get MX_BITSET_UNIT_BITS Nat.testBit
  dsimp only
  rw [Nat.and_comm]

theorem volume_to_length_eq (volume : Nat) : volume_to_length volume = (volume + 31) / 32 := by
  unfold volume_to_length MX_BITSET_UNIT_BITS
  by_cases h : volume % 32 > 0
  · rw [if_pos h]; omega
  · rw [if_neg h]; omega

theorem volume_to_length_tail (volume : Nat) (h : volume % 32 ≠ 0) :
    volume_to_length volume = volume / 32 + 1 := by
  rw [volume_to_length_eq]; omega

theorem volume_to_length_full (volume : Nat) (h : volume % 32 = 0) :
    volume_to_length volume = volume / 32 := by
  rw [volume_to_length_eq]; omega

theorem unit_store (b : bitset_header_t) (i j value : Nat) :
    (b.store i value).unit j = if i = j ∧ i < b.data.length then value else b.unit j := by
  unfold bitset_header_t.store bitset_header_t.unit
  rw [List.getD_eq_getElem?_getD, List.getD_eq_getElem?_getD, List.getElem?_set]
  by_cases hij : i = j
  · by_cases hl : i < b.data.length
    · rw [if_pos hij, if_pos hl, if_pos ⟨hij, hl⟩]; rfl
    · rw [if_pos hij, if_neg hl, if_neg (fun h => hl h.2)]
      subst hij
      rw [List.getElem?_eq_none (by omega)]
  · rw [if_neg hij, if_neg (fun h => hij h.1)]

theorem unit_lt_of_wf (b : bitset_header_t) (hw : b.wf) (u : Nat) : b.unit u < 2 ^ 32 := by
  unfold bitset_header_t.unit
  rw [List.getD_eq_getElem?_getD]
  by_cases hu : u < b.data.length
  · rw [List.getElem?_eq_getElem hu]
    exact hw.unit_lt _ (List.getElem_mem _)
  · rw [List.getElem?_eq_none (by omega)]
    show 0 < 2 ^ 32
    decide

/-- The mask `(1U << offset) - 1` of `mx_bitset_sanitize`. -/
theorem sanitize_mask (offset : Nat) (h : offset < 32) :
    uint_sub (uint_shl 1 offset) 1 = 2 ^ offset - 1 := by
  unfold uint_sub uint_shl UINT_MOD
  rw [Nat.one_shiftLeft]
  have h1 : 2 ^ offset < 2 ^ 32 := Nat.pow_lt_pow_right (by decide) h
  have h2 : 0 < 2 ^ offset := Nat.two_pow_pos offset
  have e : (4294967296 : Nat) = 2 ^ 32 := by decide
  rw [e, Nat.mod_eq_of_lt h1]
  have : 2 ^ offset + 2 ^ 32 - 1 = (2 ^ offset - 1) + 2 ^ 32 := by omega
  rw [this, Nat.add_mod_right, Nat.mod_eq_of_lt (by omega)]

theorem testBit_mask (offset k : Nat) : (2 ^ offset - 1).testBit k = decide (k < offset) :=
  Nat.testBit_two_pow_sub_one offset k

theorem testBit_not_mask (offset k : Nat) (h : offset < 32) :
    (uint_not (2 ^ offset - 1)).testBit k = (decide (k < 32) && decide (offset ≤ k)) := by
  unfold uint_not UINT_MAX
  have h1 : 2 ^ offset < 2 ^ 32 := Nat.pow_lt_pow_right (by decide) h
  have h2 : 0 < 2 ^ offset := Nat.two_pow_pos offset
  have e : 4294967295 - (2 ^ offset - 1) = 2 ^ 32 - ((2 ^ offset - 1) + 1) := by
    have e32 : (2 : Nat) ^ 32 = 4294967296 := by decide
    omega
  rw [e, Nat.testBit_two_pow_sub_succ (by omega), testBit_mask]
  by_cases hk : k < offset
  · simp [hk, Nat.not_le.mpr hk]
  · simp [hk, Nat.not_lt.mp hk]

/-! ## `mx_bitset_sanitize` -/

theorem mx_bitset_sanitize_eq (b : bitset_header_t) (x : Bool) :
    mx_bitset_sanitize b x =
      if b.volume % 32 = 0 then b
      else b.store (b.volume / 32)
        (if x then b.unit (b.volume / 32) ||| uint_not (2 ^ (b.volume % 32) - 1)
          else b.unit (b.volume / 32) &&& (2 ^ (b.volume % 32) - 1)) := by
  unfold mx_bitset_sanitize mx_bitset_volume MX_BITSET_UNIT_BITS
  dsimp only
  rw [sanitize_mask _ (Nat.mod_lt _ (by decide))]

theorem sanitize_volume (b : bitset_header_t) (x : Bool) :
    (mx_bitset_sanitize b x).volume = b.volume := by
  rw [mx_bitset_sanitize_eq]
  by_cases h : b.volume % 32 = 0
  · rw [if_pos h]
  · rw [if_neg h]; rfl

theorem sanitize_data_length (b : bitset_header_t) (x : Bool) :
    (mx_bitset_sanitize b x).data.length = b.data.length := by
  rw [mx_bitset_sanitize_eq]
  by_cases h : b.volume % 32 = 0
  · rw [if_pos h]
  · rw [if_neg h]
    exact List.length_set _ _ _

theorem sanitize_of_full (b : bitset_header_t) (x : Bool) (h : b.volume % 32 = 0) :
    mx_bitset_sanitize b x = b := by
  rw [mx_bitset_sanitize_eq, if_pos h]

theorem sanitize_unit_ne (b : bitset_header_t) (x : Bool) (u : Nat) (hu : u ≠ b.volume / 32) :
    (mx_bitset_sanitize b x).unit u = b.unit u := by
  rw [mx_bitset_sanitize_eq]
  by_cases h : b.volume % 32 = 0
  · rw [if_pos h]
  · rw [if_neg h, unit_store, if_neg (fun hh => hu hh.1.symm)]

/-- The bits of the tail unit after `mx_bitset_sanitize`, when the tail unit exists. -/
theorem sanitize_tail_testBit (b : bitset_header_t) (x : Bool) (k : Nat)
    (h : b.volume % 32 ≠ 0) (ht : b.volume / 32 < b.data.length) :
    ((mx_bitset_sanitize b x).unit (b.volume / 32)).testBit k =
      if k < b.volume % 32 then (b.unit (b.volume / 32)).testBit k
      else if x then ((b.unit (b.volume / 32)).testBit k || decide (k < 32)) else false := by
  have ho : b.volume % 32 < 32 := Nat.mod_lt _ (by decide)
  rw [mx_bitset_sanitize_eq, if_neg h, unit_store, if_pos ⟨rfl, ht⟩]
  cases x
  · simp only [Bool.false_eq_true, if_false, Nat.testBit_and, testBit_mask]
    by_cases hk : k < b.volume % 32
    · simp [hk]
    · simp [hk]
  · simp only [if_true, Nat.testBit_or, testBit_not_mask _ _ ho]
    by_cases hk : k < b.volume % 32
    · simp [hk, Nat.not_le.mpr hk]
    · simp [hk, Nat.not_lt.mp hk]

theorem sanitize_get_lt (b : bitset_header_t) (x : Bool) (i : Nat) (hi : i < b.volume) :
    mx_bitset_get (mx_bitset_sanitize b x) i = mx_bitset_get b i := by
  rw [mx_bitset_get_eq, mx_bitset_get_eq]
  by_cases hu : i / 32 = b.volume / 32
  · by_cases h : b.volume % 32 = 0
    · rw [sanitize_of_full b x h]
    · by_cases ht : b.volume / 32 < b.data.length
      · rw [hu, sanitize_tail_testBit b x _ h ht, if_pos (by omega)]
      · rw [mx_bitset_sanitize_eq, if_neg h, unit_store, if_neg (fun hh => ht hh.2)]
  · rw [sanitize_unit_ne b x _ hu]

theorem sanitize_get_pad (b : bitset_header_t) (x : Bool) (i : Nat) (hw : b.wf)
    (hi : b.volume ≤ i) (hl : i < 32 * mx_bitset_length b) :
    mx_bitset_get (mx_bitset_sanitize b x) i = x := by
  unfold mx_bitset_length mx_bitset_volume at hl
  have hlen := hw.data_len
  have h : b.volume % 32 ≠ 0 := by
    intro h0
    rw [volume_to_length_full _ h0] at hl
    omega
  rw [volume_to_length_tail _ h] at hl hlen
  have hu : i / 32 = b.volume / 32 := by omega
  rw [mx_bitset_get_eq, hu, sanitize_tail_testBit b x _ h (by omega), if_neg (by omega)]
  cases x
  · rfl
  · have : i % 32 < 32 := Nat.mod_lt _ (by decide)
    simp [this]

theorem sanitize_wf (b : bitset_header_t) (x : Bool) (hw : b.wf) :
    (mx_bitset_sanitize b x).wf := by
  refine ⟨?_, ?_, ?_, ?_⟩
  · rw [sanitize_volume]; exact hw.volume_le
  · rw [sanitize_volume]; exact hw.size_le
  · rw [sanitize_volume, sanitize_data_length]; exact hw.data_len
  · rw [mx_bitset_sanitize_eq]
    by_cases h : b.volume % 32 = 0
    · rw [if_pos h]; exact hw.unit_lt
    · rw [if_neg h]
      have ho : b.volume % 32 < 32 := Nat.mod_lt _ (by decide)
      have hu := unit_lt_of_wf b hw (b.volume / 32)
      have hm : 2 ^ (b.volume % 32) - 1 < 2 ^ 32 := by
        have : 2 ^ (b.volume % 32) < 2 ^ 32 := Nat.pow_lt_pow_right (by decide) ho
        omega
      have hn : uint_not (2 ^ (b.volume % 32) - 1) < 2 ^ 32 := by
        unfold uint_not UINT_MAX
        have e32 : (2 : Nat) ^ 32 = 4294967296 := by decide
        omega
      intro w hwm
      rcases List.mem_or_eq_of_mem_set hwm with hm1 | hm1
      · exact hw.unit_lt w hm1
      · rw [hm1]
        show _ < 2 ^ 32
        cases x
        · exact Nat.and_lt_two_pow _ hm
        · exact Nat.or_lt_two_pow hu hn

theorem store_store (b : bitset_header_t) (t v w : Nat) :
    (b.store t v).store t w = b.store t w := by
  unfold bitset_header_t.store
  dsimp only
  rw [List.set_set]

theorem store_volume (b : bitset_header_t) (t v : Nat) : (b.store t v).volume = b.volume := rfl

theorem unit_store_self (b : bitset_header_t) (t v : Nat) (ht : t < b.data.length) :
    (b.store t v).unit t = v := by
  rw [unit_store, if_pos (And.intro rfl ht)]

theorem sanitize_idempotent (b : bitset_header_t) (x : Bool) (hw : b.wf) :
    mx_bitset_sanitize (mx_bitset_sanitize b x) x = mx_bitset_sanitize b x := by
  by_cases h : b.volume % 32 = 0
  · rw [sanitize_of_full b x h, sanitize_of_full b x h]
  · have hlen := hw.data_len
    rw [volume_to_length_tail _ h] at hlen
    have ht : b.volume / 32 < b.data.length := by omega
    cases x
    · have e1 : mx_bitset_sanitize b false
          = b.store (b.volume / 32) (b.unit (b.volume / 32) &&& (2 ^ (b.volume % 32) - 1)) := by
        rw [mx_bitset_sanitize_eq, if_neg h]
        rfl
      rw [e1, mx_bitset_sanitize_eq]
      show (if b.volume % 32 = 0 then _ else _) = _
      rw [if_neg h]
      simp only [store_volume, Bool.false_eq_true, if_false]
      rw [unit_store_self _ _ _ ht, store_store]
      congr 1
      apply Nat.eq_of_testBit_eq
      intro i
      simp only [Nat.testBit_and, Bool.and_assoc, Bool.and_self]
    · have e1 : mx_bitset_sanitize b true
          = b.store (b.volume / 32)
            (b.unit (b.volume / 32) ||| uint_not (2 ^ (b.volume % 32) - 1)) := by
        rw [mx_bitset_sanitize_eq, if_neg h]
        rfl
      rw [e1, mx_bitset_sanitize_eq]
      show (if b.volume % 32 = 0 then _ else _) = _
      rw [if_neg h]
      simp only [store_volume, if_true]
      rw [unit_store_self _ _ _ ht, store_store]
      congr 1
      apply Nat.eq_of_testBit_eq
      intro i
      simp only [Nat.testBit_or, Bool.or_assoc, Bool.or_self]

/-! ## C29: `mx_bitset_sanitize` -/

/-- C29: on every well-formed bitset and for every fill value `x`, `mx_bitset_sanitize(b, x)`
sets every padding bit (the bits of the last unit at indices from `volume` up to the end of
the units, present when `volume` is not a multiple of the unit width) to `x`, leaves every bit
at an index below `volume`, every other unit and the volume unchanged, does nothing when
`volume` is a multiple of the unit width (volume 0 included), keeps the block well-formed, and
is idempotent. -/
theorem C29_sanitize (b : bitset_header_t) (x : Bool) (hw : b.wf) :
    (∀ i, b.volume ≤ i → i < MX_BITSET_UNIT_BITS * mx_bitset_length b →
      mx_bitset_get (mx_bitset_sanitize b x) i = x) ∧
    (∀ i, i < b.volume → mx_bitset_get (mx_bitset_sanitize b x) i = mx_bitset_get b i) ∧
    (∀ u, u ≠ b.volume / MX_BITSET_UNIT_BITS → (mx_bitset_sanitize b x).unit u = b.unit u) ∧
    (mx_bitset_sanitize b x).volume = b.volume ∧
    (b.volume % MX_BITSET_UNIT_BITS = 0 → mx_bitset_sanitize b x = b) ∧
    (mx_bitset_sanitize b x).wf ∧
    mx_bitset_sanitize (mx_bitset_sanitize b x) x = mx_bitset_sanitize b x :=
  ⟨fun i hi hl => sanitize_get_pad b x i hw hi hl,
    fun i hi => sanitize_get_lt b x i hi,
    fun u hu => sanitize_unit_ne b x u hu,
    sanitize_volume b x,
    fun h => sanitize_of_full b x h,
    sanitize_wf b x hw,
    sanitize_idempotent b x hw⟩

theorem bits_37_wf : bits_37.wf :=
  ⟨by decide, by decide, by decide, by decide⟩

theorem bits_10_wf : bits_10.wf :=
  ⟨by decide, by decide, by decide, by decide⟩

theorem bits_64_wf : bits_64.wf :=
  ⟨by decide, by decide, by decide, by decide⟩

theorem bits_5_wf : bits_5.wf :=
  ⟨by decide, by decide, by decide, by decide⟩

/-- C29 at concrete inputs: the 27 padding bits of a 37-bit bitset are cleared, those of a
10-bit bitset are set again, and a 64-bit bitset is left alone. -/
theorem C29_sanitize_witness :
    mx_bitset_sanitize bits_37 false = { volume := 37, data := [4294967295, 31] } ∧
    mx_bitset_get (mx_bitset_sanitize bits_37 false) 40 = false ∧
    mx_bitset_get (mx_bitset_sanitize bits_37 false) 36
      = mx_bitset_get bits_37 36 ∧
    mx_bitset_sanitize { volume := 10, data := [0] } true = bits_10 ∧
    mx_bitset_sanitize bits_64 true = bits_64 :=
  ⟨by decide,
    (C29_sanitize bits_37 false bits_37_wf).1 40 (by decide) (by decide),
    (C29_sanitize bits_37 false bits_37_wf).2.1 36 (by decide),
    by decide,
    (C29_sanitize bits_64 true bits_64_wf).2.2.2.2.1 (by decide)⟩

/-! ## C30: `mx_bitset_all`, `mx_bitset_any`, `mx_bitset_none` -/

theorem unit_eq_max_iff (w : Nat) (hw : w < 2 ^ 32) :
    w = uint_not 0 ↔ ∀ k, k < 32 → w.testBit k = true := by
  have e : uint_not 0 = 2 ^ 32 - 1 := by decide
  rw [e]
  constructor
  · intro h k hk
    rw [h, Nat.testBit_two_pow_sub_one]
    exact decide_eq_true hk
  · intro h
    apply Nat.eq_of_testBit_eq
    intro k
    rw [Nat.testBit_two_pow_sub_one]
    by_cases hk : k < 32
    · rw [h k hk, decide_eq_true hk]
    · rw [decide_eq_false hk]
      exact Nat.testBit_lt_two_pow
        (Nat.lt_of_lt_of_le hw (Nat.pow_le_pow_right (by decide) (Nat.le_of_not_lt hk)))

theorem unit_eq_zero_iff (w : Nat) (hw : w < 2 ^ 32) :
    w = 0 ↔ ∀ k, k < 32 → w.testBit k = false := by
  constructor
  · intro h k _
    rw [h, Nat.zero_testBit]
  · intro h
    apply Nat.eq_of_testBit_eq
    intro k
    rw [Nat.zero_testBit]
    by_cases hk : k < 32
    · exact h k hk
    · exact Nat.testBit_lt_two_pow
        (Nat.lt_of_lt_of_le hw (Nat.pow_le_pow_right (by decide) (Nat.le_of_not_lt hk)))

theorem unit_testBit (b : bitset_header_t) (u k : Nat) (hk : k < 32) :
    (b.unit u).testBit k = mx_bitset_get b (32 * u + k) := by
  rw [mx_bitset_get_eq]
  have h1 : (32 * u + k) / 32 = u := by omega
  have h2 : (32 * u + k) % 32 = k := by omega
  rw [h1, h2]

/-- Every unit below `n` is all ones exactly when every bit below `32 * n` is set. -/
theorem units_all_ones_iff (b : bitset_header_t) (hw : b.wf) (n : Nat) :
    (∀ u, u < n → b.unit u = uint_not 0) ↔ ∀ j, j < 32 * n → mx_bitset_get b j = true := by
  constructor
  · intro h j hj
    rw [mx_bitset_get_eq]
    exact (unit_eq_max_iff _ (unit_lt_of_wf b hw _)).mp (h (j / 32) (by omega)) (j % 32)
      (Nat.mod_lt _ (by decide))
  · intro h u hu
    refine (unit_eq_max_iff _ (unit_lt_of_wf b hw _)).mpr (fun k hk => ?_)
    rw [unit_testBit b u k hk]
    exact h _ (by omega)

/-- Every unit below `n` is zero exactly when no bit below `32 * n` is set. -/
theorem units_all_zero_iff (b : bitset_header_t) (hw : b.wf) (n : Nat) :
    (∀ u, u < n → b.unit u = 0) ↔ ∀ j, j < 32 * n → mx_bitset_get b j = false := by
  constructor
  · intro h j hj
    rw [mx_bitset_get_eq]
    exact (unit_eq_zero_iff _ (unit_lt_of_wf b hw _)).mp (h (j / 32) (by omega)) (j % 32)
      (Nat.mod_lt _ (by decide))
  · intro h u hu
    refine (unit_eq_zero_iff _ (unit_lt_of_wf b hw _)).mpr (fun k hk => ?_)
    rw [unit_testBit b u k hk]
    exact h _ (by omega)

theorem volume_le_units (b : bitset_header_t) : b.volume ≤ 32 * mx_bitset_length b := by
  unfold mx_bitset_length mx_bitset_volume
  rw [volume_to_length_eq]
  omega

theorem sanitize_length (b : bitset_header_t) (x : Bool) :
    mx_bitset_length (mx_bitset_sanitize b x) = mx_bitset_length b := by
  unfold mx_bitset_length mx_bitset_volume
  rw [sanitize_volume]

/-- After `mx_bitset_sanitize(b, 1)` every stored bit is set exactly when every bit of the
bitset is. -/
theorem sanitized_all_iff (b : bitset_header_t) (hw : b.wf) :
    (∀ j, j < 32 * mx_bitset_length b → mx_bitset_get (mx_bitset_sanitize b true) j = true) ↔
      ∀ i, i < b.volume → mx_bitset_get b i = true := by
  constructor
  · intro h i hi
    rw [← sanitize_get_lt b true i hi]
    exact h i (Nat.lt_of_lt_of_le hi (volume_le_units b))
  · intro h j hj
    by_cases hv : j < b.volume
    · rw [sanitize_get_lt b true j hv]
      exact h j hv
    · exact sanitize_get_pad b true j hw (Nat.le_of_not_lt hv) hj

/-- After `mx_bitset_sanitize(b, 0)` no stored bit is set exactly when no bit of the bitset
is. -/
theorem sanitized_none_iff (b : bitset_header_t) (hw : b.wf) :
    (∀ j, j < 32 * mx_bitset_length b → mx_bitset_get (mx_bitset_sanitize b false) j = false) ↔
      ∀ i, i < b.volume → mx_bitset_get b i = false := by
  constructor
  · intro h i hi
    rw [← sanitize_get_lt b false i hi]
    exact h i (Nat.lt_of_lt_of_le hi (volume_le_units b))
  · intro h j hj
    by_cases hv : j < b.volume
    · rw [sanitize_get_lt b false j hv]
      exact h j hv
    · exact sanitize_get_pad b false j hw (Nat.le_of_not_lt hv) hj

theorem mx_bitset_all_iff (b : bitset_header_t) (hw : b.wf) :
    (mx_bitset_all b).1 = true ↔ ∀ i, i < b.volume → mx_bitset_get b i = true := by
  rw [← sanitized_all_iff b hw, ← sanitize_length b true,
    ← units_all_ones_iff _ (sanitize_wf b true hw)]
  unfold mx_bitset_all
  dsimp only
  rw [List.all_eq_true]
  constructor
  · intro h u hu
    have := h u (List.mem_range.mpr hu)
    simpa using this
  · intro h u hu
    have := h u (List.mem_range.mp hu)
    simpa using this

theorem mx_bitset_any_false_iff (b : bitset_header_t) (hw : b.wf) :
    (mx_bitset_any b).1 = false ↔ ∀ i, i < b.volume → mx_bitset_get b i = false := by
  rw [← sanitized_none_iff b hw, ← sanitize_length b false,
    ← units_all_zero_iff _ (sanitize_wf b false hw)]
  unfold mx_bitset_any
  dsimp only
  rw [List.any_eq_false]
  constructor
  · intro h u hu
    have := h u (List.mem_range.mpr hu)
    simpa using this
  · intro h u hu
    have := h u (List.mem_range.mp hu)
    simpa using this

theorem mx_bitset_none_eq (b : bitset_header_t) :
    (mx_bitset_none b).1 = !(mx_bitset_any b).1 := by
  unfold mx_bitset_none mx_bitset_any
  dsimp only
  rw [List.not_any_eq_all_not]

/-- C30: on every well-formed bitset, whatever its padding bits hold, `mx_bitset_all` returns
true exactly when every bit at an index below `volume` is set, `mx_bitset_any` returns true
exactly when some bit at an index below `volume` is set, and `mx_bitset_none` returns the
negation of `mx_bitset_any`; for volume 0, all is true, any is false and none is true. -/
theorem C30_all_any_none (b : bitset_header_t) (hw : b.wf) :
    ((mx_bitset_all b).1 = true ↔ ∀ i, i < b.volume → mx_bitset_get b i = true) ∧
    ((mx_bitset_any b).1 = true ↔ ∃ i, i < b.volume ∧ mx_bitset_get b i = true) ∧
    (mx_bitset_none b).1 = (!(mx_bitset_any b).1) ∧
    (b.volume = 0 →
      (mx_bitset_all b).1 = true ∧ (mx_bitset_any b).1 = false ∧
      (mx_bitset_none b).1 = true) := by
  have hany : (mx_bitset_any b).1 = true ↔ ∃ i, i < b.volume ∧ mx_bitset_get b i = true := by
    constructor
    · intro h
      by_contra hne
      have hf : (mx_bitset_any b).1 = false :=
        (mx_bitset_any_false_iff b hw).mpr (fun i hi => by
          cases hg : mx_bitset_get b i
          · rfl
          · exact absurd ⟨i, hi, hg⟩ hne)
      rw [h] at hf
      cases hf
    · rintro ⟨i, hi, hg⟩
      cases ha : (mx_bitset_any b).1
      · rw [(mx_bitset_any_false_iff b hw).mp ha i hi] at hg
        cases hg
      · rfl
  refine ⟨mx_bitset_all_iff b hw, hany, mx_bitset_none_eq b, fun h0 => ?_⟩
  have ha : (mx_bitset_any b).1 = false :=
    (mx_bitset_any_false_iff b hw).mpr (fun i hi => by omega)
  refine ⟨(mx_bitset_all_iff b hw).mpr (fun i hi => by omega), ha, ?_⟩
  rw [mx_bitset_none_eq, ha]
  rfl

/-- C30 at concrete inputs: a 37-bit bitset of ones, a 10-bit bitset of zeros whose padding
bits are all set, and the empty bitset. -/
theorem C30_all_any_none_witness :
    (mx_bitset_all { volume := 37, data := [4294967295, 31] }).1 = true ∧
    (mx_bitset_any bits_10).1 = false ∧ (mx_bitset_none bits_10).1 = true ∧
    ((mx_bitset_all { volume := 0, data := [] }).1 = true ∧
      (mx_bitset_any { volume := 0, data := [] }).1 = false ∧
      (mx_bitset_none { volume := 0, data := [] }).1 = true) ∧
    ((mx_bitset_any bits_5).1 = true ↔ ∃ i, i < bits_5.volume ∧ mx_bitset_get bits_5 i = true) :=
  ⟨by decide, by decide, by decide,
    (C30_all_any_none { volume := 0, data := [] }
      ⟨by decide, by decide, by decide, by decide⟩).2.2.2 rfl,
    (C30_all_any_none bits_5 bits_5_wf).2.1⟩

/-! ## C26: `mx_bitset_popcnt` -/

theorem builtin_popcount_eq (b : bitset_header_t) (u : Nat) :
    builtin_popcount (b.unit u)
      = (List.range 32).countP (fun k => mx_bitset_get b (32 * u + k)) := by
  unfold builtin_popcount MX_BITSET_UNIT_BITS
  apply List.countP_congr
  intro k hk
  rw [unit_testBit b u k (List.mem_range.mp hk)]

theorem countP_range_add (p : Nat → Bool) (a n : Nat) :
    (List.range (a + n)).countP p
      = (List.range a).countP p + (List.range n).countP (fun k => p (a + k)) := by
  rw [List.range_add, List.countP_append, List.countP_map]
  rfl

theorem countP_le_range (p : Nat → Bool) (n : Nat) : (List.range n).countP p ≤ n := by
  have := List.countP_le_length p (l := List.range n)
  rwa [List.length_range] at this

/-- The loop of `mx_bitset_popcnt` over the first `n` units counts the set bits below
`32 * n`, as long as that count is a `size_t`. -/
theorem popcnt_loop (b : bitset_header_t) (n : Nat) :
    (List.range (32 * n)).countP (fun j => mx_bitset_get b j) ≤ SIZE_MAX →
    (List.range n).foldl (fun result i => size_add result (builtin_popcount (b.unit i))) 0
      = (List.range (32 * n)).countP (fun j => mx_bitset_get b j) := by
  induction n with
  | zero => intro _; rfl
  | succ n ih =>
    intro hle
    have e : 32 * (n + 1) = 32 * n + 32 := by omega
    rw [e, countP_range_add] at hle ⊢
    rw [List.range_succ, List.foldl_append, ih (by omega)]
    show size_add _ (builtin_popcount (b.unit n)) = _
    rw [builtin_popcount_eq, size_add_eq hle]

/-- The bits counted by `mx_bitset_popcnt` after it has cleared the padding bits. -/
theorem sanitized_count (b : bitset_header_t) (hw : b.wf) :
    (List.range (32 * mx_bitset_length b)).countP
        (fun j => mx_bitset_get (mx_bitset_sanitize b false) j)
      = (List.range b.volume).countP (fun i => mx_bitset_get b i) := by
  have hle := volume_le_units b
  have e : 32 * mx_bitset_length b = b.volume + (32 * mx_bitset_length b - b.volume) := by
    omega
  rw [e, countP_range_add]
  have h1 : (List.range b.volume).countP
      (fun j => mx_bitset_get (mx_bitset_sanitize b false) j)
      = (List.range b.volume).countP (fun i => mx_bitset_get b i) := by
    apply List.countP_congr
    intro i hi
    rw [sanitize_get_lt b false i (List.mem_range.mp hi)]
  have h2 : (List.range (32 * mx_bitset_length b - b.volume)).countP
      (fun k => mx_bitset_get (mx_bitset_sanitize b false) (b.volume + k)) = 0 := by
    rw [List.countP_eq_zero]
    intro k hk
    have hk := List.mem_range.mp hk
    rw [sanitize_get_pad b false _ hw (by omega) (by omega)]
    decide
  rw [h1, h2, Nat.add_zero]

theorem mx_bitset_popcnt_eq (b : bitset_header_t) (hw : b.wf) :
    (mx_bitset_popcnt b).1 = (List.range b.volume).countP (fun i => mx_bitset_get b i) := by
  have hc := sanitized_count b hw
  unfold mx_bitset_popcnt
  dsimp only
  rw [sanitize_length, popcnt_loop _ _ (by
    rw [hc]
    exact Nat.le_trans (countP_le_range _ _) hw.volume_le), hc]

theorem mx_bitset_unzero_eq (b : bitset_header_t) (hw : b.wf) :
    mx_bitset_unzero b
      = { volume := b.volume, data := List.replicate (mx_bitset_length b) (uint_not 0) } := by
  have hs := hw.size_le
  have hl := hw.data_len
  unfold mx_bitset_unzero memset_units
  have e1 : size_mul (mx_bitset_length b) MX_BITSET_UNIT_SIZE / MX_BITSET_UNIT_SIZE
      = mx_bitset_length b := by
    rw [size_mul_eq (by
      show volume_to_length b.volume * MX_BITSET_UNIT_SIZE ≤ SIZE_MAX
      omega)]
    exact Nat.mul_div_cancel _ (by decide)
  have e2 : uint_not 0 % 256 + uint_not 0 % 256 * 256 + uint_not 0 % 256 * 65536
      + uint_not 0 % 256 * 16777216 = uint_not 0 := by decide
  rw [e1, e2, List.drop_of_length_le (by rw [hl]; exact Nat.le_refl _), List.append_nil]

theorem unzero_wf (b : bitset_header_t) (hw : b.wf) : (mx_bitset_unzero b).wf := by
  rw [mx_bitset_unzero_eq b hw]
  refine ⟨hw.volume_le, hw.size_le, ?_, ?_⟩
  · show (List.replicate _ _).length = _
    rw [List.length_replicate]
    rfl
  · intro w hwm
    rw [List.eq_of_mem_replicate hwm]
    decide

theorem unzero_get (b : bitset_header_t) (hw : b.wf) (i : Nat) (hi : i < b.volume) :
    mx_bitset_get (mx_bitset_unzero b) i = true := by
  have hle := volume_le_units b
  rw [mx_bitset_unzero_eq b hw, mx_bitset_get_eq]
  unfold bitset_header_t.unit
  rw [List.getD_eq_getElem?_getD, List.getElem?_replicate, if_pos (by omega)]
  show (uint_not 0).testBit (i % 32) = true
  exact (unit_eq_max_iff _ (by decide)).mp rfl _ (Nat.mod_lt _ (by decide))

/-- C26: on every well-formed bitset, whatever its padding bits hold, `mx_bitset_popcnt`
returns the number of indices `i < volume` whose bit is set; after `mx_bitset_unzero` it
returns exactly the volume. -/
theorem C26_popcnt (b : bitset_header_t) (hw : b.wf) :
    (mx_bitset_popcnt b).1 = (List.range b.volume).countP (fun i => mx_bitset_get b i) ∧
    (mx_bitset_popcnt (mx_bitset_unzero b)).1 = b.volume := by
  refine ⟨mx_bitset_popcnt_eq b hw, ?_⟩
  rw [mx_bitset_popcnt_eq _ (unzero_wf b hw)]
  have hv : (mx_bitset_unzero b).volume = b.volume := rfl
  rw [hv]
  have : (List.range b.volume).countP (fun i => mx_bitset_get (mx_bitset_unzero b) i)
      = (List.range b.volume).length := by
    rw [List.countP_eq_length]
    intro i hi
    exact unzero_get b hw i (List.mem_range.mp hi)
  rw [this, List.length_range]

/-- C26 at concrete inputs: a 37-bit bitset whose 64 stored bits are all set has popcount 37,
the bitset `1, 0, 1, 0, 1` with set padding has popcount 3, and a 37-bit bitset has popcount
37 after `mx_bitset_unzero`. -/
theorem C26_popcnt_witness :
    (mx_bitset_popcnt bits_37).1 = 37 ∧ (mx_bitset_popcnt bits_5).1 = 3 ∧
    (mx_bitset_popcnt (mx_bitset_unzero { volume := 37, data := [5, 9] })).1 = 37 ∧
    (mx_bitset_popcnt bits_5).1
      = (List.range bits_5.volume).countP (fun i => mx_bitset_get bits_5 i) :=
  ⟨by decide, by decide,
    (C26_popcnt { volume := 37, data := [5, 9] }
      ⟨by decide, by decide, by decide, by decide⟩).2,
    (C26_popcnt bits_5 bits_5_wf).1⟩

/-! ## C28: `mx_bitset_and`, `mx_bitset_or`, `mx_bitset_xor` -/

theorem store_data_length (b : bitset_header_t) (t v : Nat) :
    (b.store t v).data.length = b.data.length :=
  List.length_set _ _ _

theorem unit_loop_succ (f : Nat → Nat → Nat) (a b : bitset_header_t) (n : Nat) :
    unit_loop f a b (n + 1)
      = (unit_loop f a b n).store n (f ((unit_loop f a b n).unit n) (b.unit n)) := by
  unfold unit_loop
  rw [List.range_succ, List.foldl_append]
  rfl

theorem unit_loop_volume (f : Nat → Nat → Nat) (a b : bitset_header_t) (n : Nat) :
    (unit_loop f a b n).volume = a.volume := by
  induction n with
  | zero => rfl
  | succ n ih => rw [unit_loop_succ, store_volume, ih]

theorem unit_loop_data_length (f : Nat → Nat → Nat) (a b : bitset_header_t) (n : Nat) :
    (unit_loop f a b n).data.length = a.data.length := by
  induction n with
  | zero => rfl
  | succ n ih => rw [unit_loop_succ, store_data_length, ih]

/-- The units after the loop of a binary operation: the first `length` units of `a` are
combined with those of `b`, the others are left as they were. -/
theorem unit_loop_unit (f : Nat → Nat → Nat) (a b : bitset_header_t) (n u : Nat) :
    (unit_loop f a b n).unit u
      = if u < n ∧ u < a.data.length then f (a.unit u) (b.unit u) else a.unit u := by
  induction n with
  | zero =>
    rw [if_neg (fun h => Nat.not_lt_zero _ h.1)]
    rfl
  | succ n ih =>
    rw [unit_loop_succ, unit_store, unit_loop_data_length]
    by_cases hu : n = u
    · subst hu
      by_cases hl : n < a.data.length
      · rw [if_pos ⟨rfl, hl⟩, if_pos ⟨Nat.lt_succ_self _, hl⟩, ih,
          if_neg (fun h => Nat.lt_irrefl _ h.1)]
      · rw [if_neg (fun h => hl h.2), if_neg (fun h => hl h.2), ih,
          if_neg (fun h => hl h.2)]
    · rw [if_neg (fun h => hu h.1), ih]
      by_cases hc : u < n ∧ u < a.data.length
      · rw [if_pos hc, if_pos ⟨by omega, hc.2⟩]
      · rw [if_neg hc, if_neg (fun h => hc ⟨by omega, h.2⟩)]

/-- The bits of `a` after a binary operation whose unit function `f` acts bit by bit as `g`
and for which the fill value `x` of the padding of `b` is neutral on the right. -/
theorem binop_bits (f : Nat → Nat → Nat) (g : Bool → Bool → Bool) (x : Bool)
    (hf : ∀ p q k, (f p q).testBit k = g (p.testBit k) (q.testBit k))
    (hx : ∀ p, g p x = p) (a b : bitset_header_t) (hwa : a.wf) (hwb : b.wf) :
    (∀ i, i < min a.volume b.volume →
      mx_bitset_get (unit_loop f a
          (if mx_bitset_length b ≤ mx_bitset_length a then mx_bitset_sanitize b x else b)
          (MX_MINIMUM (mx_bitset_length a) (mx_bitset_length b))) i
        = g (mx_bitset_get a i) (mx_bitset_get b i)) ∧
    (∀ i, b.volume ≤ i → i < a.volume →
      mx_bitset_get (unit_loop f a
          (if mx_bitset_length b ≤ mx_bitset_length a then mx_bitset_sanitize b x else b)
          (MX_MINIMUM (mx_bitset_length a) (mx_bitset_length b))) i
        = mx_bitset_get a i) := by
  have hla : a.data.length = mx_bitset_length a := hwa.data_len
  have hva := volume_le_units a
  have hvb := volume_le_units b
  have hb1 : ∀ i, i < b.volume →
      mx_bitset_get
        (if mx_bitset_length b ≤ mx_bitset_length a then mx_bitset_sanitize b x else b) i
        = mx_bitset_get b i := by
    intro i hi
    by_cases hc : mx_bitset_length b ≤ mx_bitset_length a
    · rw [if_pos hc, sanitize_get_lt b x i hi]
    · rw [if_neg hc]
  have hea : mx_bitset_length a = (a.volume + 31) / 32 := volume_to_length_eq _
  have heb : mx_bitset_length b = (b.volume + 31) / 32 := volume_to_length_eq _
  rw [MX_MINIMUM_eq_min]
  constructor
  · intro i hi
    have h1 : i / 32 < min (mx_bitset_length a) (mx_bitset_length b) := by omega
    rw [mx_bitset_get_eq, unit_loop_unit, if_pos ⟨h1, by omega⟩, hf, ← mx_bitset_get_eq,
      ← mx_bitset_get_eq, hb1 i (by omega)]
  · intro i hib hia
    have hle : mx_bitset_length b ≤ mx_bitset_length a := by omega
    rw [mx_bitset_get_eq, unit_loop_unit]
    by_cases h1 : i / 32 < min (mx_bitset_length a) (mx_bitset_length b)
    · rw [if_pos ⟨h1, by omega⟩, hf, ← mx_bitset_get_eq, ← mx_bitset_get_eq, if_pos hle,
        sanitize_get_pad b x i hwb hib (by omega), hx]
    · rw [if_neg (fun h => h1 h.1), ← mx_bitset_get_eq]

/-- C28: for all well-formed bitsets `a` and `b` of any volumes, held in distinct blocks, and
whatever the padding bits of `b` hold: after `mx_bitset_and(a, b)`, `mx_bitset_or(a, b)` or
`mx_bitset_xor(a, b)` every bit of `a` at an index `i < min(volume(a), volume(b))` is the old
`a_i` combined with the old `b_i`, and every bit of `a` at an index `i` with
`volume(b) <= i < volume(a)` is unchanged. -/
theorem C28_binary_ops (a b : bitset_header_t) (hwa : a.wf) (hwb : b.wf) :
    ((∀ i, i < min a.volume b.volume →
        mx_bitset_get (mx_bitset_and a b).1 i = (mx_bitset_get a i && mx_bitset_get b i)) ∧
      (∀ i, b.volume ≤ i → i < a.volume →
        mx_bitset_get (mx_bitset_and a b).1 i = mx_bitset_get a i)) ∧
    ((∀ i, i < min a.volume b.volume →
        mx_bitset_get (mx_bitset_or a b).1 i = (mx_bitset_get a i || mx_bitset_get b i)) ∧
      (∀ i, b.volume ≤ i → i < a.volume →
        mx_bitset_get (mx_bitset_or a b).1 i = mx_bitset_get a i)) ∧
    ((∀ i, i < min a.volume b.volume →
        mx_bitset_get (mx_bitset_xor a b).1 i = (mx_bitset_get a i != mx_bitset_get b i)) ∧
      (∀ i, b.volume ≤ i → i < a.volume →
        mx_bitset_get (mx_bitset_xor a b).1 i = mx_bitset_get a i)) :=
  ⟨binop_bits (fun x y => x &&& y) (fun p q => p && q) true
      (fun p q k => Nat.testBit_and p q k) (fun p => Bool.and_true p) a b hwa hwb,
    binop_bits (fun x y => x ||| y) (fun p q => p || q) false
      (fun p q k => Nat.testBit_or p q k) (fun p => Bool.or_false p) a b hwa hwb,
    binop_bits (fun x y => x ^^^ y) (fun p q => p != q) false
      (fun p q k => by
        rw [Nat.testBit_xor])
      (fun p => by cases p <;> rfl) a b hwa hwb⟩

/-- C28 at concrete inputs: the AND of the 64-bit bitset of ones with the 5-bit bitset
`1, 0, 1, 0, 1`, once with set and once with clear padding bits, leaves `1, 0, 1, 0, 1` in the
first five bits of `a` and the other 59 bits set. -/
theorem C28_binary_ops_witness :
    (mx_bitset_and bits_64 bits_5).1 = { volume := 64, data := [4294967285, 4294967295] } ∧
    (mx_bitset_and bits_64 { volume := 5, data := [21] }).1
      = { volume := 64, data := [4294967285, 4294967295] } ∧
    (List.range 5).map (fun i => mx_bitset_get (mx_bitset_and bits_64 bits_5).1 i)
      = [true, false, true, false, true] ∧
    (mx_bitset_popcnt { volume := 5, data := (mx_bitset_and bits_64 bits_5).1.data }).1 = 3 ∧
    mx_bitset_get (mx_bitset_and bits_64 bits_5).1 1
      = (mx_bitset_get bits_64 1 && mx_bitset_get bits_5 1) ∧
    mx_bitset_get (mx_bitset_xor bits_64 bits_5).1 40 = mx_bitset_get bits_64 40 :=
  ⟨by decide, by decide, by decide, by decide,
    (C28_binary_ops bits_64 bits_5 bits_64_wf bits_5_wf).1.1 1 (by decide),
    (C28_binary_ops bits_64 bits_5 bits_64_wf bits_5_wf).2.2.2 40 (by decide) (by decide)⟩

/-! ## C27: `mx_bitset_next` -/

theorem builtin_ffs_zero (x : Nat) (h : builtin_ffs x = 0) :
    ∀ k, k < 32 → x.testBit k = false := by
  unfold builtin_ffs MX_BITSET_UNIT_BITS at h
  intro k hk
  rcases hf : (List.range 32).find? (fun k => x.testBit k) with _ | j
  · have := List.find?_eq_none.mp hf k (List.mem_range.mpr hk)
    simpa using this
  · rw [hf] at h
    cases h

theorem builtin_ffs_pos (x : Nat) (h : builtin_ffs x ≠ 0) :
    ∃ k, k < 32 ∧ builtin_ffs x = k + 1 ∧ x.testBit k = true ∧
      ∀ j, j < k → x.testBit j = false := by
  unfold builtin_ffs MX_BITSET_UNIT_BITS at h ⊢
  rcases hf : (List.range 32).find? (fun k => x.testBit k) with _ | k
  · rw [hf] at h
    exact absurd rfl h
  · obtain ⟨h1, h2, h3⟩ := List.find?_range_eq_some.mp hf
    refine ⟨k, List.mem_range.mp h2, rfl, h1, fun j hj => ?_⟩
    have := h3 j hj
    simpa using this

theorem find_range'_some (p : Nat → Bool) (n : Nat) :
    ∀ s u, (List.range' s n).find? p = some u →
      s ≤ u ∧ u < s + n ∧ p u = true ∧ ∀ v, s ≤ v → v < u → p v = false := by
  induction n with
  | zero => intro s u h; cases h
  | succ n ih =>
    intro s u h
    rw [List.range'_succ, List.find?_cons] at h
    cases hp : p s
    · rw [hp] at h
      obtain ⟨h1, h2, h3, h4⟩ := ih (s + 1) u h
      refine ⟨by omega, by omega, h3, fun v hv1 hv2 => ?_⟩
      by_cases hvs : v = s
      · rw [hvs]; exact hp
      · exact h4 v (by omega) hv2
    · rw [hp] at h
      have hu : s = u := Option.some.inj h
      subst hu
      exact ⟨Nat.le_refl _, by omega, hp, fun v hv1 hv2 => by omega⟩

theorem find_range'_none (p : Nat → Bool) (s n : Nat)
    (h : (List.range' s n).find? p = none) : ∀ v, s ≤ v → v < s + n → p v = false := by
  intro v hv1 hv2
  have := List.find?_eq_none.mp h v (List.mem_range'_1.mpr ⟨hv1, hv2⟩)
  simpa using this

theorem unit_of_length_le (b : bitset_header_t) (u : Nat) (h : b.data.length ≤ u) :
    b.unit u = 0 := by
  unfold bitset_header_t.unit
  rw [List.getD_eq_getElem?_getD, List.getElem?_eq_none h]
  rfl

/-- A unit on which `__builtin_ffs` returns zero has no set bit. -/
theorem get_of_ffs_zero (b : bitset_header_t) (j : Nat)
    (h : builtin_ffs (b.unit (j / 32)) = 0) : mx_bitset_get b j = false := by
  rw [mx_bitset_get_eq]
  exact builtin_ffs_zero _ h _ (Nat.mod_lt _ (by decide))

/-- The bits at and above offset `off` of a unit whose shifted value has no first set bit. -/
theorem get_of_shifted_ffs_zero (b : bitset_header_t) (i j : Nat)
    (h : builtin_ffs (b.unit (i / 32) >>> (i % 32)) = 0) (hij : i ≤ j)
    (hu : j / 32 = i / 32) : mx_bitset_get b j = false := by
  rw [mx_bitset_get_eq, hu]
  have := builtin_ffs_zero _ h (j % 32 - i % 32) (by omega)
  rw [Nat.testBit_shiftRight] at this
  have e : i % 32 + (j % 32 - i % 32) = j % 32 := by omega
  rw [e] at this
  exact this

/-- The search of `mx_bitset_next` from index `i` in a block `c` whose set bits all lie below
`V`: it ends at the least index from `i` on whose bit is set, or at `MX_ABSENT` when there is
none. -/
theorem next_scan (c : bitset_header_t) (V : Nat) (hV : V ≤ SIZE_MAX)
    (hc : c.wf)
    (hP : ∀ j, mx_bitset_get c j = true → j < V) (i : Nat) :
    ((if builtin_ffs (c.unit (i / MX_BITSET_UNIT_BITS) >>> (i % MX_BITSET_UNIT_BITS)) ≠ 0 then
        (size_sub (size_add (size_add (size_mul (i / MX_BITSET_UNIT_BITS) MX_BITSET_UNIT_BITS)
          (i % MX_BITSET_UNIT_BITS))
          (builtin_ffs (c.unit (i / MX_BITSET_UNIT_BITS) >>> (i % MX_BITSET_UNIT_BITS)))) 1, c)
      else
        match (List.range' (i / MX_BITSET_UNIT_BITS + 1)
            (mx_bitset_length c - (i / MX_BITSET_UNIT_BITS + 1))).find?
            (fun u => builtin_ffs (c.unit u) != 0) with
        | some u => (size_sub (size_add (size_mul u MX_BITSET_UNIT_BITS)
            (builtin_ffs (c.unit u))) 1, c)
        | none => (MX_ABSENT, c)).1 = MX_ABSENT ∧
      ∀ j, i ≤ j → mx_bitset_get c j = false) ∨
    (∃ r, (if builtin_ffs (c.unit (i / MX_BITSET_UNIT_BITS) >>> (i % MX_BITSET_UNIT_BITS)) ≠ 0
      then
        (size_sub (size_add (size_add (size_mul (i / MX_BITSET_UNIT_BITS) MX_BITSET_UNIT_BITS)
          (i % MX_BITSET_UNIT_BITS))
          (builtin_ffs (c.unit (i / MX_BITSET_UNIT_BITS) >>> (i % MX_BITSET_UNIT_BITS)))) 1, c)
      else
        match (List.range' (i / MX_BITSET_UNIT_BITS + 1)
            (mx_bitset_length c - (i / MX_BITSET_UNIT_BITS + 1))).find?
            (fun u => builtin_ffs (c.unit u) != 0) with
        | some u => (size_sub (size_add (size_mul u MX_BITSET_UNIT_BITS)
            (builtin_ffs (c.unit u))) 1, c)
        | none => (MX_ABSENT, c)).1 = r ∧
      i ≤ r ∧ mx_bitset_get c r = true ∧ ∀ j, i ≤ j → j < r → mx_bitset_get c j = false) := by
  unfold MX_BITSET_UNIT_BITS
  have hlen : c.data.length = mx_bitset_length c := hc.data_len
  by_cases h0 : builtin_ffs (c.unit (i / 32) >>> (i % 32)) ≠ 0
  · right
    rw [if_pos h0]
    obtain ⟨k, hk, hr, hb, hmin⟩ := builtin_ffs_pos _ h0
    rw [Nat.testBit_shiftRight] at hb
    have hlt : i % 32 + k < 32 := by
      by_contra hge
      have hf : (c.unit (i / 32)).testBit (i % 32 + k) = false :=
        Nat.testBit_lt_two_pow (Nat.lt_of_lt_of_le (unit_lt_of_wf c hc _)
          (Nat.pow_le_pow_right (by decide) (Nat.le_of_not_lt hge)))
      rw [hf] at hb
      cases hb
    have hg : mx_bitset_get c (i + k) = true := by
      rw [mx_bitset_get_eq]
      have e1 : (i + k) / 32 = i / 32 := by omega
      have e2 : (i + k) % 32 = i % 32 + k := by omega
      rw [e1, e2]
      exact hb
    have hrV := hP _ hg
    refine ⟨i + k, ?_, by omega, hg, fun j hj1 hj2 => ?_⟩
    · show size_sub (size_add (size_add (size_mul (i / 32) 32) (i % 32))
        (builtin_ffs (c.unit (i / 32) >>> (i % 32)))) 1 = i + k
      have e1 : size_mul (i / 32) 32 = i / 32 * 32 := size_mul_eq (by omega)
      have e2 : size_add (i / 32 * 32) (i % 32) = i := by
        rw [size_add_eq (by omega)]; omega
      have e3 : size_add i (k + 1) = i + (k + 1) := size_add_eq (by omega)
      rw [hr, e1, e2, e3, size_sub_eq (by omega) (by omega)]
      omega
    · rw [mx_bitset_get_eq]
      have e1 : j / 32 = i / 32 := by omega
      have e2 : j % 32 = i % 32 + (j - i) := by omega
      rw [e1, e2, ← Nat.testBit_shiftRight]
      exact hmin _ (by omega)
  · have h0 : builtin_ffs (c.unit (i / 32) >>> (i % 32)) = 0 := Decidable.not_not.mp h0
    have hfirst : ∀ j, i ≤ j → j / 32 = i / 32 → mx_bitset_get c j = false :=
      fun j hj hu => get_of_shifted_ffs_zero c i j h0 hj hu
    rw [if_neg (fun h => h h0)]
    rcases hf : (List.range' (i / 32 + 1) (mx_bitset_length c - (i / 32 + 1))).find?
        (fun u => builtin_ffs (c.unit u) != 0) with _ | u
    · left
      refine ⟨rfl, fun j hj => ?_⟩
      by_cases hu : j / 32 = i / 32
      · exact hfirst j hj hu
      · by_cases hl : j / 32 < mx_bitset_length c
        · have := find_range'_none _ _ _ hf (j / 32) (by omega) (by omega)
          exact get_of_ffs_zero c j (by simpa using this)
        · rw [mx_bitset_get_eq, unit_of_length_le c _ (by omega), Nat.zero_testBit]
    · right
      obtain ⟨hu1, hu2, hu3, hu4⟩ := find_range'_some _ _ _ _ hf
      have hu3 : builtin_ffs (c.unit u) ≠ 0 := by simpa using hu3
      obtain ⟨k, hk, hr, hb, hmin⟩ := builtin_ffs_pos _ hu3
      have hg : mx_bitset_get c (32 * u + k) = true := by
        rw [← unit_testBit c u k hk]
        exact hb
      have hrV := hP _ hg
      refine ⟨32 * u + k, ?_, by omega, hg, fun j hj1 hj2 => ?_⟩
      · show size_sub (size_add (size_mul u 32) (builtin_ffs (c.unit u))) 1 = 32 * u + k
        have e1 : size_mul u 32 = u * 32 := size_mul_eq (by omega)
        have e2 : size_add (u * 32) (k + 1) = u * 32 + (k + 1) := size_add_eq (by omega)
        rw [hr, e1, e2, size_sub_eq (by omega) (by omega)]
        omega
      · by_cases hju : j / 32 = i / 32
        · exact hfirst j hj1 hju
        · by_cases hjl : j / 32 < u
          · have := hu4 (j / 32) (by omega) hjl
            exact get_of_ffs_zero c j (by simpa using this)
          · have e1 : j / 32 = u := by omega
            rw [mx_bitset_get_eq, e1]
            exact hmin _ (by omega)

/-- After `mx_bitset_sanitize(b, 0)` every set bit of the block lies below the volume. -/
theorem sanitized_get_lt_volume (b : bitset_header_t) (hw : b.wf) (j : Nat)
    (h : mx_bitset_get (mx_bitset_sanitize b false) j = true) : j < b.volume := by
  by_contra hge
  by_cases hl : j < 32 * mx_bitset_length b
  · rw [sanitize_get_pad b false j hw (Nat.le_of_not_lt hge) hl] at h
    cases h
  · have hlen : (mx_bitset_sanitize b false).data.length = mx_bitset_length b := by
      rw [sanitize_data_length]
      exact hw.data_len
    rw [mx_bitset_get_eq, unit_of_length_le _ _ (by omega), Nat.zero_testBit] at h
    cases h

/-- The result of `mx_bitset_next` is `MX_ABSENT` with no set bit from `i` on below the
volume, or the least index from `i` on below the volume whose bit is set. -/
theorem mx_bitset_next_spec (b : bitset_header_t) (i : Nat) (hw : b.wf) :
    ((mx_bitset_next b i).1 = MX_ABSENT ∧
      ∀ j, i ≤ j → j < b.volume → mx_bitset_get b j = false) ∨
    (i ≤ (mx_bitset_next b i).1 ∧ (mx_bitset_next b i).1 < b.volume ∧
      mx_bitset_get b (mx_bitset_next b i).1 = true ∧
      ∀ j, i ≤ j → j < (mx_bitset_next b i).1 → mx_bitset_get b j = false) := by
  unfold mx_bitset_next mx_bitset_volume
  dsimp only
  by_cases hv : b.volume ≤ i
  · left
    rw [if_pos hv]
    exact ⟨rfl, fun j hj1 hj2 => by omega⟩
  · rw [if_neg hv]
    rcases next_scan (mx_bitset_sanitize b false) b.volume hw.volume_le
        (sanitize_wf b false hw) (sanitized_get_lt_volume b hw) i with
      ⟨h1, h2⟩ | ⟨r, h1, h2, h3, h4⟩
    · left
      refine ⟨h1, fun j hj1 hj2 => ?_⟩
      rw [← sanitize_get_lt b false j hj2]
      exact h2 j hj1
    · right
      have hr := sanitized_get_lt_volume b hw r h3
      rw [h1]
      refine ⟨h2, hr, ?_, fun j hj1 hj2 => ?_⟩
      · rw [← sanitize_get_lt b false r hr]
        exact h3
      · rw [← sanitize_get_lt b false j (by omega)]
        exact h4 j hj1 hj2

/-- C27: on every well-formed bitset and for every start index `i`, whatever the padding
bits hold, `mx_bitset_next(b, i)` returns the least index `j` with `i <= j < volume` whose bit
is set, and returns `MX_ABSENT` when there is no such `j`, in particular when
`i >= volume`; an index it returns is never `MX_ABSENT`. -/
theorem C27_next (b : bitset_header_t) (i : Nat) (hw : b.wf) :
    (∀ j, i ≤ j → j < b.volume → mx_bitset_get b j = true →
      (∀ k, i ≤ k → k < j → mx_bitset_get b k = false) →
      (mx_bitset_next b i).1 = j ∧ j ≠ MX_ABSENT) ∧
    ((∀ j, i ≤ j → j < b.volume → mx_bitset_get b j = false) →
      (mx_bitset_next b i).1 = MX_ABSENT) ∧
    (b.volume ≤ i → (mx_bitset_next b i).1 = MX_ABSENT) ∧
    ((mx_bitset_next b i).1 ≠ MX_ABSENT →
      i ≤ (mx_bitset_next b i).1 ∧ (mx_bitset_next b i).1 < b.volume ∧
      mx_bitset_get b (mx_bitset_next b i).1 = true) := by
  have hV := hw.volume_le
  have hnone : (∀ j, i ≤ j → j < b.volume → mx_bitset_get b j = false) →
      (mx_bitset_next b i).1 = MX_ABSENT := by
    intro hall
    rcases mx_bitset_next_spec b i hw with ⟨h1, _⟩ | ⟨h1, h2, h3, _⟩
    · exact h1
    · rw [hall _ h1 h2] at h3
      cases h3
  refine ⟨fun j hj1 hj2 hg hmin => ?_, hnone, fun hv => hnone (fun j hj1 hj2 => by omega),
    fun hne => ?_⟩
  · rcases mx_bitset_next_spec b i hw with ⟨_, h2⟩ | ⟨h1, h2, h3, h4⟩
    · rw [h2 j hj1 hj2] at hg
      cases hg
    · refine ⟨?_, by unfold MX_ABSENT; omega⟩
      rcases Nat.lt_trichotomy (mx_bitset_next b i).1 j with hlt | heq | hgt
      · rw [hmin _ h1 hlt] at h3
        cases h3
      · exact heq
      · rw [h4 j hj1 hgt] at hg
        cases hg
  · rcases mx_bitset_next_spec b i hw with ⟨h1, _⟩ | ⟨h1, h2, h3, _⟩
    · exact absurd h1 hne
    · exact ⟨h1, h2, h3⟩

/-- C27 at concrete inputs: on the 10-bit bitset of zeros with set padding bits the search
finds nothing from any start index, and on a 70-bit bitset with bits 4, 63 and 67 set it
finds 63 from index 5. -/
theorem C27_next_witness :
    (List.range 12).map (fun i => (mx_bitset_next bits_10 i).1)
      = List.replicate 12 MX_ABSENT ∧
    (mx_bitset_next bits_10 3).1 = MX_ABSENT ∧
    (mx_bitset_next bits_10 10).1 = MX_ABSENT ∧
    ((mx_bitset_next { volume := 70, data := [16, 2147483648, 4294967272] } 5).1 = 63 ∧
      63 ≠ MX_ABSENT) :=
  ⟨by decide,
    (C27_next bits_10 3 bits_10_wf).2.1 (by decide),
    (C27_next bits_10 10 bits_10_wf).2.2.1 (by decide),
    (C27_next { volume := 70, data := [16, 2147483648, 4294967272] } 5
      ⟨by decide, by decide, by decide, by decide⟩).1 63 (by decide) (by decide)
      (by decide) (by decide)⟩

/-! ## C39: the shrink target of `mx_vector_excise` and `mx_string_excise` -/

/-- C39: for every capacity `1 <= V <= SIZE_MAX` and new length `L <= (V - 1) / 2` (the test
of the shrink branch, whose `V - 1` does not wrap), no step of the `size_t` computation
`L / 5 * 6 + ((L % 5) * 6 + 4) / 5` overflows, its value `shrink_volume L` is `(6L + 4) / 5`,
and `L <= (6L + 4) / 5 < V`. -/
theorem C39_shrink_volume (V L : Nat) (hV : V ≤ SIZE_MAX) (h1 : 1 ≤ V)
    (hL : L ≤ (V - 1) / 2) :
    size_sub V 1 / 2 = (V - 1) / 2 ∧
    L / 5 * 6 ≤ SIZE_MAX ∧ L % 5 * 6 ≤ SIZE_MAX ∧ L % 5 * 6 + 4 ≤ SIZE_MAX ∧
    L / 5 * 6 + (L % 5 * 6 + 4) / 5 ≤ SIZE_MAX ∧
    shrink_volume L = (6 * L + 4) / 5 ∧ L ≤ shrink_volume L ∧ shrink_volume L < V := by
  have hs : shrink_volume L = (6 * L + 4) / 5 := shrink_volume_eq (by omega)
  rw [hs, size_sub_eq h1 hV]
  unfold SIZE_MAX at hV ⊢
  omega

/-- C39 at concrete inputs: removing down to 4 elements from capacity 9 asks for capacity 5,
and the largest capacity with the largest length that shrinks. -/
theorem C39_shrink_volume_witness :
    (shrink_volume 4 = (6 * 4 + 4) / 5 ∧ 4 ≤ shrink_volume 4 ∧ shrink_volume 4 < 9) ∧
    shrink_volume 9223372036854775807 < SIZE_MAX :=
  ⟨(C39_shrink_volume 9 4 (by decide) (by decide) (by decide)).2.2.2.2.2,
    (C39_shrink_volume SIZE_MAX 9223372036854775807 (Nat.le_refl _) (by decide)
      (by decide)).2.2.2.2.2.2.2⟩

/-! ## C40: the functions that sanitize only touch padding bits -/

/-- C33, counterexample: with `a` of one unit (5 bits) and the longer `b` of two units
(37 bits, padding bits mixed), `mx_bitset_and`, `mx_bitset_or` and `mx_bitset_xor` leave `b`
exactly as it was, although sanitizing it with either fill value would change it; and with the
longer operand first, its padding bits are left as they were while the shorter second operand
is the one that is sanitized. -/
theorem C33_counterexample :
    mx_bitset_length bits_5 = 1 ∧ mx_bitset_length bits_37_mixed = 2 ∧
    mx_bitset_sanitize bits_37_mixed true ≠ bits_37_mixed ∧
    mx_bitset_sanitize bits_37_mixed false ≠ bits_37_mixed ∧
    (mx_bitset_and bits_5 bits_37_mixed).2 = bits_37_mixed ∧
    (mx_bitset_or bits_5 bits_37_mixed).2 = bits_37_mixed ∧
    (mx_bitset_xor bits_5 bits_37_mixed).2 = bits_37_mixed ∧
    (mx_bitset_or bits_37_mixed bits_5).1 = bits_37_mixed ∧
    (mx_bitset_or bits_37_mixed bits_5).2 = mx_bitset_sanitize bits_5 false ∧
    mx_bitset_sanitize bits_5 false ≠ bits_5 := by
  decide

/-- C33, amended: `mx_bitset_and`, `mx_bitset_or` and `mx_bitset_xor` sanitize their second
operand `b` (filling its padding bits with 1 for and, with 0 for or and xor) exactly when `b`
has no more units than `a`; when `b` has more units than `a` they leave `b` as it is; and in
every case the units of `a` from index `min(length(a), length(b))` on, where the padding of a
longer `a` lies, are left as they were. -/
theorem C33_sanitized_operand (a b : bitset_header_t) :
    (mx_bitset_length b ≤ mx_bitset_length a →
      (mx_bitset_and a b).2 = mx_bitset_sanitize b true ∧
      (mx_bitset_or a b).2 = mx_bitset_sanitize b false ∧
      (mx_bitset_xor a b).2 = mx_bitset_sanitize b false) ∧
    (mx_bitset_length a < mx_bitset_length b →
      (mx_bitset_and a b).2 = b ∧ (mx_bitset_or a b).2 = b ∧ (mx_bitset_xor a b).2 = b) ∧
    (∀ u, min (mx_bitset_length a) (mx_bitset_length b) ≤ u →
      (mx_bitset_and a b).1.unit u = a.unit u ∧ (mx_bitset_or a b).1.unit u = a.unit u ∧
      (mx_bitset_xor a b).1.unit u = a.unit u) := by
  refine ⟨fun h => ?_, fun h => ?_, fun u hu => ?_⟩
  · unfold mx_bitset_and mx_bitset_or mx_bitset_xor
    dsimp only
    rw [if_pos h, if_pos h]
    exact ⟨rfl, rfl, rfl⟩
  · unfold mx_bitset_and mx_bitset_or mx_bitset_xor
    dsimp only
    rw [if_neg (Nat.not_le.mpr h), if_neg (Nat.not_le.mpr h)]
    exact ⟨rfl, rfl, rfl⟩
  · unfold mx_bitset_and mx_bitset_or mx_bitset_xor
    dsimp only
    rw [MX_MINIMUM_eq_min, unit_loop_unit, unit_loop_unit, unit_loop_unit,
      if_neg (fun hh => Nat.lt_irrefl _ (Nat.lt_of_lt_of_le hh.1 hu)),
      if_neg (fun hh => Nat.lt_irrefl _ (Nat.lt_of_lt_of_le hh.1 hu)),
      if_neg (fun hh => Nat.lt_irrefl _ (Nat.lt_of_lt_of_le hh.1 hu))]
    exact ⟨rfl, rfl, rfl⟩

/-- C33, amended, at concrete inputs: the shorter second operand is sanitized, the longer
second operand is not, and the second unit of a longer first operand is left alone. -/
theorem C33_sanitized_operand_witness :
    ((mx_bitset_and bits_64 bits_5).2 = mx_bitset_sanitize bits_5 true ∧
      (mx_bitset_or bits_64 bits_5).2 = mx_bitset_sanitize bits_5 false ∧
      (mx_bitset_xor bits_64 bits_5).2 = mx_bitset_sanitize bits_5 false) ∧
    ((mx_bitset_and bits_5 bits_37_mixed).2 = bits_37_mixed ∧
      (mx_bitset_or bits_5 bits_37_mixed).2 = bits_37_mixed ∧
      (mx_bitset_xor bits_5 bits_37_mixed).2 = bits_37_mixed) ∧
    (mx_bitset_xor bits_37_mixed bits_5).1.unit 1 = bits_37_mixed.unit 1 :=
  ⟨(C33_sanitized_operand bits_64 bits_5).1 (by decide),
    (C33_sanitized_operand bits_5 bits_37_mixed).2.1 (by decide),
    ((C33_sanitized_operand bits_37_mixed bits_5).2.2 1 (by decide)).2.2⟩

/-! ## C31: `mx_bitset_set`, `mx_bitset_reset`, `mx_bitset_assign`, `mx_bitset_toggle` -/

theorem uint_shl_one (offset : Nat) (h : offset < 32) : uint_shl 1 offset = 2 ^ offset := by
  unfold uint_shl UINT_MOD
  rw [Nat.one_shiftLeft]
  have h1 : 2 ^ offset < 2 ^ 32 := Nat.pow_lt_pow_right (by decide) h
  have e : (4294967296 : Nat) = 2 ^ 32 := by decide
  rw [e, Nat.mod_eq_of_lt h1]

theorem testBit_bit (offset k : Nat) : (2 ^ offset).testBit k = decide (offset = k) :=
  Nat.testBit_two_pow

theorem testBit_not_bit (offset k : Nat) (h : offset < 32) :
    (uint_not (2 ^ offset)).testBit k = (decide (k < 32) && !decide (offset = k)) := by
  unfold uint_not UINT_MAX
  have h1 : 2 ^ offset < 2 ^ 32 := Nat.pow_lt_pow_right (by decide) h
  have e : 4294967295 - 2 ^ offset = 2 ^ 32 - (2 ^ offset + 1) := by
    have e32 : (2 : Nat) ^ 32 = 4294967296 := by decide
    omega
  rw [e, Nat.testBit_two_pow_sub_succ h1, testBit_bit]

/-- The bits after a store into the unit of index `i / 32` whose new value has, at each
position `k`, the bit `g k (old bit)`. -/
theorem get_store_unit (b : bitset_header_t) (i j value : Nat) (g : Nat → Bool → Bool)
    (hi : i / 32 < b.data.length)
    (hv : ∀ k, k < 32 → value.testBit k = g k ((b.unit (i / 32)).testBit k)) :
    mx_bitset_get (b.store (i / 32) value) j =
      if j / 32 = i / 32 then g (j % 32) (mx_bitset_get b j) else mx_bitset_get b j := by
  rw [mx_bitset_get_eq, mx_bitset_get_eq, unit_store]
  by_cases hj : j / 32 = i / 32
  · rw [if_pos hj, if_pos (And.intro hj.symm hi), hv _ (Nat.mod_lt _ (by decide)), hj]
  · rw [if_neg hj, if_neg (fun hh => hj hh.1.symm)]

theorem unit_index_lt (b : bitset_header_t) (hw : b.wf) (i : Nat) (hi : i < b.volume) :
    i / 32 < b.data.length := by
  have h1 := volume_le_units b
  have h2 : b.data.length = mx_bitset_length b := hw.data_len
  omega

theorem store_unit_self (b : bitset_header_t) (u : Nat) (hu : u < b.data.length) :
    b.store u (b.unit u) = b := by
  unfold bitset_header_t.store bitset_header_t.unit
  have : b.data.set u (b.data.getD u 0) = b.data := by
    rw [List.getD_eq_getElem b.data 0 hu]
    apply List.ext_getElem?
    intro j
    rw [List.getElem?_set]
    by_cases huj : u = j
    · subst huj; rw [if_pos rfl, if_pos hu, List.getElem?_eq_getElem hu]
    · rw [if_neg huj]
  rw [this]

theorem mx_bitset_set_get (b : bitset_header_t) (hw : b.wf) (i j : Nat) (hi : i < b.volume) :
    mx_bitset_get (mx_bitset_set b i) j =
      if j / 32 = i / 32 then (mx_bitset_get b j || decide (i % 32 = j % 32))
      else mx_bitset_get b j := by
  unfold mx_bitset_set MX_BITSET_UNIT_BITS
  dsimp only
  rw [uint_shl_one _ (Nat.mod_lt _ (by decide))]
  exact get_store_unit b i j _ (fun k p => p || decide (i % 32 = k)) (unit_index_lt b hw i hi)
    (fun k _ => by rw [Nat.testBit_or, testBit_bit])

theorem mx_bitset_reset_get (b : bitset_header_t) (hw : b.wf) (i j : Nat)
    (hi : i < b.volume) :
    mx_bitset_get (mx_bitset_reset b i) j =
      if j / 32 = i / 32 then (mx_bitset_get b j && !decide (i % 32 = j % 32))
      else mx_bitset_get b j := by
  unfold mx_bitset_reset MX_BITSET_UNIT_BITS
  dsimp only
  rw [uint_shl_one _ (Nat.mod_lt _ (by decide))]
  exact get_store_unit b i j _ (fun k p => p && !decide (i % 32 = k))
    (unit_index_lt b hw i hi)
    (fun k hk => by
      rw [Nat.testBit_and, testBit_not_bit _ _ (Nat.mod_lt _ (by decide)), decide_eq_true hk,
        Bool.true_and])

theorem mx_bitset_toggle_get (b : bitset_header_t) (hw : b.wf) (i j : Nat)
    (hi : i < b.volume) :
    mx_bitset_get (mx_bitset_toggle b i) j =
      if j / 32 = i / 32 then (mx_bitset_get b j != decide (i % 32 = j % 32))
      else mx_bitset_get b j := by
  unfold mx_bitset_toggle MX_BITSET_UNIT_BITS
  dsimp only
  rw [uint_shl_one _ (Nat.mod_lt _ (by decide))]
  exact get_store_unit b i j _ (fun k p => p != decide (i % 32 = k))
    (unit_index_lt b hw i hi)
    (fun k _ => by rw [Nat.testBit_xor, testBit_bit])

theorem mx_bitset_toggle_toggle (b : bitset_header_t) (hw : b.wf) (i : Nat)
    (hi : i < b.volume) : mx_bitset_toggle (mx_bitset_toggle b i) i = b := by
  have hu := unit_index_lt b hw i hi
  unfold mx_bitset_toggle MX_BITSET_UNIT_BITS
  dsimp only
  rw [unit_store_self _ _ _ hu, store_store, Nat.xor_assoc, Nat.xor_self, Nat.xor_zero,
    store_unit_self b _ hu]

/-- C31: for every well-formed bitset and index `i < volume`: after `mx_bitset_set(b, i)` the
bit `i` is set, after `mx_bitset_reset(b, i)` it is clear, after `mx_bitset_assign(b, i, x)`
it equals `x`, after `mx_bitset_toggle(b, i)` it is the negation of its old value; in each
case every other bit `j != i` and the volume are unchanged, and toggling the same index twice
restores the bitset. -/
theorem C31_set_reset_assign_toggle (b : bitset_header_t) (i : Nat) (hw : b.wf)
    (hi : i < b.volume) :
    (mx_bitset_get (mx_bitset_set b i) i = true ∧
      mx_bitset_get (mx_bitset_reset b i) i = false ∧
      (∀ x, mx_bitset_get (mx_bitset_assign b i x) i = x) ∧
      mx_bitset_get (mx_bitset_toggle b i) i = !mx_bitset_get b i) ∧
    (∀ j, j ≠ i →
      mx_bitset_get (mx_bitset_set b i) j = mx_bitset_get b j ∧
      mx_bitset_get (mx_bitset_reset b i) j = mx_bitset_get b j ∧
      (∀ x, mx_bitset_get (mx_bitset_assign b i x) j = mx_bitset_get b j) ∧
      mx_bitset_get (mx_bitset_toggle b i) j = mx_bitset_get b j) ∧
    ((mx_bitset_set b i).volume = b.volume ∧ (mx_bitset_reset b i).volume = b.volume ∧
      (∀ x, (mx_bitset_assign b i x).volume = b.volume) ∧
      (mx_bitset_toggle b i).volume = b.volume) ∧
    mx_bitset_toggle (mx_bitset_toggle b i) i = b := by
  have hset : mx_bitset_get (mx_bitset_set b i) i = true := by
    rw [mx_bitset_set_get b hw i i hi, if_pos rfl, decide_eq_true rfl, Bool.or_true]
  have hreset : mx_bitset_get (mx_bitset_reset b i) i = false := by
    rw [mx_bitset_reset_get b hw i i hi, if_pos rfl, decide_eq_true rfl]
    simp
  have hother : ∀ j, j ≠ i → decide (i % 32 = j % 32) = true → ¬ j / 32 = i / 32 := by
    intro j hj hd he
    have := of_decide_eq_true hd
    omega
  have hset2 : ∀ j, j ≠ i → mx_bitset_get (mx_bitset_set b i) j = mx_bitset_get b j := by
    intro j hj
    rw [mx_bitset_set_get b hw i j hi]
    by_cases he : j / 32 = i / 32
    · rw [if_pos he]
      cases hd : decide (i % 32 = j % 32)
      · rw [Bool.or_false]
      · exact absurd he (hother j hj hd)
    · rw [if_neg he]
  have hreset2 : ∀ j, j ≠ i → mx_bitset_get (mx_bitset_reset b i) j = mx_bitset_get b j := by
    intro j hj
    rw [mx_bitset_reset_get b hw i j hi]
    by_cases he : j / 32 = i / 32
    · rw [if_pos he]
      cases hd : decide (i % 32 = j % 32)
      · simp
      · exact absurd he (hother j hj hd)
    · rw [if_neg he]
  refine ⟨⟨hset, hreset, fun x => ?_, ?_⟩, fun j hj => ⟨hset2 j hj, hreset2 j hj, fun x => ?_, ?_⟩,
    ⟨rfl, rfl, fun x => ?_, rfl⟩, mx_bitset_toggle_toggle b hw i hi⟩
  · cases x
    · exact hreset
    · exact hset
  · rw [mx_bitset_toggle_get b hw i i hi, if_pos rfl, decide_eq_true rfl]
    cases mx_bitset_get b i <;> rfl
  · cases x
    · exact hreset2 j hj
    · exact hset2 j hj
  · rw [mx_bitset_toggle_get b hw i j hi]
    by_cases he : j / 32 = i / 32
    · rw [if_pos he]
      cases hd : decide (i % 32 = j % 32)
      · cases mx_bitset_get b j <;> rfl
      · exact absurd he (hother j hj hd)
    · rw [if_neg he]
  · cases x <;> rfl

/-- C31 at concrete inputs: bit 3 of the 10-bit bitset of zeros and bit 36 of a 37-bit
bitset. -/
theorem C31_set_reset_assign_toggle_witness :
    mx_bitset_get (mx_bitset_set bits_10 3) 3 = true ∧
    mx_bitset_get (mx_bitset_reset bits_37 36) 36 = false ∧
    mx_bitset_get (mx_bitset_reset bits_37 36) 35 = mx_bitset_get bits_37 35 ∧
    mx_bitset_toggle (mx_bitset_toggle bits_37 36) 36 = bits_37 ∧
    mx_bitset_set bits_10 3 = { volume := 10, data := [4294966280] } :=
  ⟨(C31_set_reset_assign_toggle bits_10 3 bits_10_wf (by decide)).1.1,
    (C31_set_reset_assign_toggle bits_37 36 bits_37_wf (by decide)).1.2.1,
    ((C31_set_reset_assign_toggle bits_37 36 bits_37_wf (by decide)).2.1 35 (by decide)).2.1,
    (C31_set_reset_assign_toggle bits_37 36 bits_37_wf (by decide)).2.2.2,
    by decide⟩

/-! ## C36: `mx_fnv1a` -/

theorem foldl_range_getD (f : Nat → Byte → Nat) (s : List Byte) :
    ∀ h0, (List.range s.length).foldl (fun h i => f h (s.getD i 0)) h0 = s.foldl f h0 := by
  induction s with
  | nil => intro h0; rfl
  | cons x xs ih =>
    intro h0
    rw [List.length_cons, List.range_succ_eq_map, List.foldl_cons, List.foldl_map,
      List.foldl_cons]
    exact ih (f h0 x)

/-- On bytes below `0x80` the function `mx_fnv1a` computes the FNV-1a hash. -/
theorem mx_fnv1a_ascii (s : List Byte) (h : ∀ c ∈ s, c < 128) :
    mx_fnv1a s s.length = fnv1a_64 s := by
  unfold mx_fnv1a fnv1a_64
  rw [foldl_range_getD
    (fun hash c => ((hash ^^^ char_to_uint64 c) * 1099511628211) % UINT64_MOD) s]
  have key : ∀ (l : List Byte), (∀ c ∈ l, c < 128) → ∀ h0,
      l.foldl (fun hash c => ((hash ^^^ char_to_uint64 c) * 1099511628211) % UINT64_MOD) h0
        = l.foldl (fun h c => ((h ^^^ c) * 1099511628211) % UINT64_MOD) h0 := by
    intro l
    induction l with
    | nil => intro _ _; rw [List.foldl_nil, List.foldl_nil]
    | cons x xs ih =>
      intro hl h0
      have hx : x < 128 := hl x (List.mem_cons_self _ _)
      have e : char_to_uint64 x = x := by
        unfold char_to_uint64
        rw [Nat.mod_eq_of_lt (Nat.lt_trans hx (by decide)), if_pos hx]
      rw [List.foldl_cons, List.foldl_cons, e]
      exact ih (fun c hc => hl c (List.mem_cons_of_mem _ hc)) _
  exact key s h _

/-- C36 at the failing input: for the one-byte sequence `0x80`, on a target whose plain `char`
is signed, `hash ^ string[0]` xors the offset basis with `0xFFFFFFFFFFFFFF80` and `mx_fnv1a`
returns 5808531584386460767, while the FNV-1a hash of the octet `0x80` is
12638293853183578463; the two agree on the empty sequence and on `"a"` and `"foobar"`, whose
bytes are below `0x80`. -/
theorem C36_fnv1a_sign_extension :
    char_to_uint64 128 = 18446744073709551488 ∧
    mx_fnv1a [128] 1 = 5808531584386460767 ∧ fnv1a_64 [128] = 12638293853183578463 ∧
    mx_fnv1a [128] 1 ≠ fnv1a_64 [128] ∧
    mx_string_hash { volume := 1, length := 1, data := [128, 0] } ≠ fnv1a_64 [128] ∧
    mx_fnv1a [] 0 = 14695981039346656037 ∧ fnv1a_64 [] = 14695981039346656037 ∧
    mx_fnv1a [97] 1 = fnv1a_64 [97] ∧
    mx_fnv1a [102, 111, 111, 98, 97, 114] 6 = 9625390261332436968 ∧
    fnv1a_64 [102, 111, 111, 98, 97, 114] = 9625390261332436968 := by
  decide

/-! ## C35: `mx_vector_find`, `mx_vector_find_next`, `mx_vector_find_last` -/

theorem find_reverse_range_some (p : Nat → Bool) (n : Nat) :
    ∀ u, (List.range n).reverse.find? p = some u →
      u < n ∧ p u = true ∧ ∀ v, u < v → v < n → p v = false := by
  induction n with
  | zero => intro u h; cases h
  | succ n ih =>
    intro u h
    rw [List.range_succ, List.reverse_append, List.reverse_singleton, List.singleton_append,
      List.find?_cons] at h
    cases hp : p n
    · rw [hp] at h
      obtain ⟨h1, h2, h3⟩ := ih u h
      refine ⟨by omega, h2, fun v hv1 hv2 => ?_⟩
      by_cases hvn : v = n
      · rw [hvn]; exact hp
      · exact h3 v hv1 (by omega)
    · rw [hp] at h
      have hu : n = u := Option.some.inj h
      subst hu
      exact ⟨Nat.lt_succ_self _, hp, fun v hv1 hv2 => by omega⟩

theorem find_reverse_range_none (p : Nat → Bool) (n : Nat)
    (h : (List.range n).reverse.find? p = none) : ∀ v, v < n → p v = false := by
  intro v hv
  have := List.find?_eq_none.mp h v (List.mem_reverse.mpr (List.mem_range.mpr hv))
  simpa using this

/-- The element `mx_vector_at(v, j)` points to is the `j`-th element of a well-formed
vector. -/
theorem mx_vector_get_eq_element (v : header_t) (hw : v.wf) (j : Nat) (hj : j < v.length) :
    (elements v)[j]? = some (mx_vector_get v j) := by
  have hl := hw.len_le
  have hs := hw.size_le
  have hle : j * v.element_size ≤ v.volume * v.element_size :=
    Nat.mul_le_mul_right _ (by omega)
  unfold elements chunks mx_vector_get mx_vector_at
  rw [List.getElem?_map, List.getElem?_range hj, size_mul_eq (by omega)]
  rfl

/-- C35: with `P j` standing for `eqf(element j, data)`: `mx_vector_find_next(v, i, eqf, data)`
returns the least index `j` with `i <= j < length` and `P j`, or `MX_ABSENT` when there is
none; `mx_vector_find` is `mx_vector_find_next` from index 0; `mx_vector_find_last(v, i, eqf,
data)` returns the greatest index `j < i` with `P j`, or `MX_ABSENT` when there is none; and on
a well-formed vector the bytes given to `eqf` for `j < length` are the `j`-th element. -/
theorem C35_find {δ : Type} (v : header_t) (i : Nat) (eqf : List Byte → δ → Bool) (data : δ) :
    (∀ j, i ≤ j → j < v.length → eqf (mx_vector_get v j) data = true →
      (∀ k, i ≤ k → k < j → eqf (mx_vector_get v k) data = false) →
      mx_vector_find_next v i eqf data = j) ∧
    ((∀ j, i ≤ j → j < v.length → eqf (mx_vector_get v j) data = false) →
      mx_vector_find_next v i eqf data = MX_ABSENT) ∧
    mx_vector_find v eqf data = mx_vector_find_next v 0 eqf data ∧
    (∀ j, j < i → eqf (mx_vector_get v j) data = true →
      (∀ k, j < k → k < i → eqf (mx_vector_get v k) data = false) →
      mx_vector_find_last v i eqf data = j) ∧
    ((∀ j, j < i → eqf (mx_vector_get v j) data = false) →
      mx_vector_find_last v i eqf data = MX_ABSENT) ∧
    (v.wf → ∀ j, j < v.length → (elements v)[j]? = some (mx_vector_get v j)) := by
  refine ⟨fun j hj1 hj2 hp hmin => ?_, fun hall => ?_, rfl, fun j hj hp hmax => ?_,
    fun hall => ?_, fun hw j hj => mx_vector_get_eq_element v hw j hj⟩
  · unfold mx_vector_find_next
    rcases hf : (List.range' i (v.length - i)).find?
        (fun j => eqf (mx_vector_get v j) data) with _ | u
    · have := find_range'_none _ _ _ hf j hj1 (by omega)
      rw [hp] at this
      cases this
    · obtain ⟨h1, h2, h3, h4⟩ := find_range'_some _ _ _ _ hf
      show u = j
      rcases Nat.lt_trichotomy u j with hlt | heq | hgt
      · rw [hmin u h1 hlt] at h3
        cases h3
      · exact heq
      · have := h4 j hj1 hgt
        rw [hp] at this
        cases this
  · unfold mx_vector_find_next
    rcases hf : (List.range' i (v.length - i)).find?
        (fun j => eqf (mx_vector_get v j) data) with _ | u
    · rfl
    · obtain ⟨h1, h2, h3, _⟩ := find_range'_some _ _ _ _ hf
      rw [hall u h1 (by omega)] at h3
      cases h3
  · unfold mx_vector_find_last
    rcases hf : (List.range i).reverse.find?
        (fun j => eqf (mx_vector_get v j) data) with _ | u
    · have := find_reverse_range_none _ _ hf j hj
      rw [hp] at this
      cases this
    · obtain ⟨h1, h2, h3⟩ := find_reverse_range_some _ _ _ hf
      show u = j
      rcases Nat.lt_trichotomy u j with hlt | heq | hgt
      · have := h3 j hlt hj
        rw [hp] at this
        cases this
      · exact heq
      · rw [hmax u hgt h1] at h2
        cases h2
  · unfold mx_vector_find_last
    rcases hf : (List.range i).reverse.find?
        (fun j => eqf (mx_vector_get v j) data) with _ | u
    · rfl
    · obtain ⟨h1, h2, _⟩ := find_reverse_range_some _ _ _ hf
      rw [hall u h1] at h2
      cases h2

theorem vec_1213_wf : vec_1213.wf :=
  ⟨by decide, by decide, by decide, by decide, by decide⟩

/-- C35 at concrete inputs: searching the elements `1, 2, 1, 3` for the byte 1, 3 or 7. -/
theorem C35_find_witness :
    mx_vector_find_next vec_1213 1 (fun e d => e == [d]) 1 = 2 ∧
    mx_vector_find_next vec_1213 1 (fun e d => e == [d]) 7 = MX_ABSENT ∧
    mx_vector_find vec_1213 (fun e d => e == [d]) 1 = 0 ∧
    mx_vector_find_last vec_1213 4 (fun e d => e == [d]) 1 = 2 ∧
    mx_vector_find_last vec_1213 2 (fun e d => e == [d]) 3 = MX_ABSENT ∧
    mx_vector_find_next vec_1213 4 (fun e d => e == [d]) 1 = MX_ABSENT ∧
    (elements vec_1213)[3]? = some (mx_vector_get vec_1213 3) :=
  ⟨(C35_find vec_1213 1 (fun e d => e == [d]) 1).1 2 (by decide) (by decide) (by decide)
      (by decide),
    (C35_find vec_1213 1 (fun e d => e == [d]) 7).2.1 (by decide),
    by decide,
    (C35_find vec_1213 4 (fun e d => e == [d]) 1).2.2.2.1 2 (by decide) (by decide)
      (fun k h1 h2 =>
        (by decide : ∀ k, 3 ≤ k → k < 4 → (mx_vector_get vec_1213 k == [1]) = false) k h1 h2),
    (C35_find vec_1213 2 (fun e d => e == [d]) 3).2.2.2.2.1 (by decide),
    by decide,
    (C35_find vec_1213 0 (fun e d => e == [d]) 0).2.2.2.2.2 vec_1213_wf 3 (by decide)⟩

/-! ## C37: geometric growth -/

theorem capacities_after_appends_add (a b len vol : Nat) :
    capacities_after_appends len vol (a + b) =
      capacities_after_appends len vol a ++
        capacities_after_appends (len + a) (volume_after_appends len vol a) b := by
  unfold capacities_after_appends
  rw [List.range_add, List.filterMap_append, List.filterMap_map]
  congr 1
  apply List.filterMap_congr
  intro j _
  show (if volume_after_appends len vol (a + j) < len + (a + j) + 1 then
      some (volume_after_appends len vol (a + j + 1)) else none) = _
  rw [volume_after_appends_add a j len vol,
    show a + j + 1 = a + (j + 1) from by omega, volume_after_appends_add a (j + 1) len vol,
    show len + (a + j) + 1 = len + a + j + 1 from by omega]

theorem capacities_after_appends_room (k len vol : Nat) (h : len + k ≤ vol) :
    capacities_after_appends len vol k = [] := by
  unfold capacities_after_appends
  rw [List.filterMap_eq_nil_iff]
  intro j hj
  have hj := List.mem_range.mp hj
  rw [(volume_after_appends_room j len vol (by omega)).1, if_neg (by omega)]

theorem capacities_after_appends_segment (a j : Nat) (hj : 1 ≤ j)
    (hfit : a + j ≤ (8 * (a + 1) + 3) / 5) :
    capacities_after_appends a a j = [(8 * (a + 1) + 3) / 5] := by
  have h1 : volume_after_appends a a 1 = (8 * (a + 1) + 3) / 5 :=
    (volume_after_appends_segment a 1 (Nat.le_refl _) (by omega)).1
  have e : j = 1 + (j - 1) := by omega
  rw [e, capacities_after_appends_add 1 (j - 1) a a, h1,
    capacities_after_appends_room (j - 1) (a + 1) _ (by omega), List.append_nil]
  unfold capacities_after_appends
  show (List.range 1).filterMap _ = _
  rw [show List.range 1 = [0] from rfl, List.filterMap_cons]
  have h0 : volume_after_appends a a 0 = a := rfl
  simp only [h0, Nat.add_zero, Nat.lt_succ_self, if_true, Nat.zero_add, h1,
    List.filterMap_nil]

/-- Extending the capacities of a run of appends from empty that ended on a full vector of
volume `a`. -/
theorem capacities_extend (a j p : Nat) (cs : List Nat)
    (hvol : volume_after_appends 0 0 a = a) (hcs : capacities_after_appends 0 0 a = cs)
    (hp : p = (8 * (a + 1) + 3) / 5) (hj : 1 ≤ j) (hfit : a + j ≤ p) :
    capacities_after_appends 0 0 (a + j) = cs ++ [p] := by
  rw [capacities_after_appends_add a j 0 0, hvol, hcs, Nat.zero_add, hp,
    capacities_after_appends_segment a j hj (by rw [← hp]; exact hfit)]

/-- The capacities reached during a thousand appends from the empty vector. -/
theorem capacities_1000 :
    capacities_after_appends 0 0 1000
      = [2, 5, 10, 18, 31, 51, 83, 135, 218, 351, 563, 903, 1447] := by
  have v0 : volume_after_appends 0 0 0 = 0 ∧ reallocs_after_appends 0 0 0 = 0 := ⟨rfl, rfl⟩
  have c0 : capacities_after_appends 0 0 0 = [] := rfl
  have v1 := appends_extend 0 0 2 2 v0.1 v0.2 (by decide) (by decide) (by decide)
  have c1 := capacities_extend 0 2 2 [] v0.1 c0 (by decide) (by decide)
    (by decide)
  have v2 := appends_extend 2 1 3 5 v1.1 v1.2 (by decide) (by decide) (by decide)
  have c2 := capacities_extend 2 3 5 [2] v1.1 c1 (by decide) (by decide)
    (by decide)
  have v3 := appends_extend 5 2 5 10 v2.1 v2.2 (by decide) (by decide) (by decide)
  have c3 := capacities_extend 5 5 10 [2, 5] v2.1 c2 (by decide) (by decide)
    (by decide)
  have v4 := appends_extend 10 3 8 18 v3.1 v3.2 (by decide) (by decide) (by decide)
  have c4 := capacities_extend 10 8 18 [2, 5, 10] v3.1 c3 (by decide) (by decide)
    (by decide)
  have v5 := appends_extend 18 4 13 31 v4.1 v4.2 (by decide) (by decide) (by decide)
  have c5 := capacities_extend 18 13 31 [2, 5, 10, 18] v4.1 c4 (by decide) (by decide)
    (by decide)
  have v6 := appends_extend 31 5 20 51 v5.1 v5.2 (by decide) (by decide) (by decide)
  have c6 := capacities_extend 31 20 51 [2, 5, 10, 18, 31] v5.1 c5 (by decide) (by decide)
    (by decide)
  have v7 := appends_extend 51 6 32 83 v6.1 v6.2 (by decide) (by decide) (by decide)
  have c7 := capacities_extend 51 32 83 [2, 5, 10, 18, 31, 51] v6.1 c6 (by decide) (by decide)
    (by decide)
  have v8 := appends_extend 83 7 52 135 v7.1 v7.2 (by decide) (by decide) (by decide)
  have c8 := capacities_extend 83 52 135 [2, 5, 10, 18, 31, 51, 83] v7.1 c7 (by decide) (by decide)
    (by decide)
  have v9 := appends_extend 135 8 83 218 v8.1 v8.2 (by decide) (by decide) (by decide)
  have c9 := capacities_extend 135 83 218 [2, 5, 10, 18, 31, 51, 83, 135] v8.1 c8 (by decide) (by decide)
    (by decide)
  have v10 := appends_extend 218 9 133 351 v9.1 v9.2 (by decide) (by decide) (by decide)
  have c10 := capacities_extend 218 133 351 [2, 5, 10, 18, 31, 51, 83, 135, 218] v9.1 c9 (by decide) (by decide)
    (by decide)
  have v11 := appends_extend 351 10 212 563 v10.1 v10.2 (by decide) (by decide) (by decide)
  have c11 := capacities_extend 351 212 563 [2, 5, 10, 18, 31, 51, 83, 135, 218, 351] v10.1 c10 (by decide) (by decide)
    (by decide)
  have v12 := appends_extend 563 11 340 903 v11.1 v11.2 (by decide) (by decide) (by decide)
  have c12 := capacities_extend 563 340 903 [2, 5, 10, 18, 31, 51, 83, 135, 218, 351, 563] v11.1 c11 (by decide) (by decide)
    (by decide)
  have v13 := appends_extend 903 12 97 1447 v12.1 v12.2 (by decide) (by decide) (by decide)
  have c13 := capacities_extend 903 97 1447 [2, 5, 10, 18, 31, 51, 83, 135, 218, 351, 563, 903] v12.1 c12 (by decide) (by decide)
    (by decide)
  exact c13

/-- One `mx_vector_append` on a full vector whose preallocating reallocation succeeds. -/
theorem append_full_grows (al : Allocator) (v : header_t) (e : List Byte)
    (junk : Nat → Byte) (hfull : v.length = v.volume)
    (hfit : (8 * (v.volume + 1) + 3) / 5 ≤ SIZE_MAX)
    (hb : (8 * (v.volume + 1) + 3) / 5 * v.element_size + HEADER_SIZE ≤ SIZE_MAX)
    (ho : al.outcome al.calls = some junk) :
    ∃ r, mx_vector_append al v (some e) =
        ({ al with calls := al.calls + 1, moved := al.moved + 1 }, Ret.some r) ∧
      r.volume = (8 * (v.volume + 1) + 3) / 5 ∧ r.length = v.length + 1 := by
  have hsum : v.length + 1 ≤ SIZE_MAX := by omega
  rw [← hfull] at hfit hb
  have hen := mx_vector_ensure_grow al v (v.length + 1) junk (by omega) hfit hb ho
  refine ⟨inject_write (resized v ((8 * (v.length + 1) + 3) / 5) junk) v.length (some e) 1
    (v.length + 1), ?_, by rw [← hfull]; rfl, rfl⟩
  show mx_vector_inject al v v.length (some e) 1 = _
  rw [mx_vector_inject_unfold al v v.length (some e) 1 hsum, hen]

/-- The run of the first `k` of a thousand appends on the vector `mx_vector_create` returns,
when every allocation succeeds. -/
theorem run_append_prefix (al : Allocator) (hok : ∀ j, al.outcome j ≠ none) (es : Nat)
    (hsz : 1447 * es + HEADER_SIZE ≤ SIZE_MAX) (xs : List (List Byte))
    (hxs : xs.length = 1000) (hx : ∀ x ∈ xs, x.length = es) (k : Nat) (hk : k ≤ 1000) :
    ∃ al1 r,
      run_tail_calls al { element_size := es, volume := 0, length := 0, data := [] }
        ((xs.take k).map (fun x => TailCall.append (some x))) = (al1, Ret.some r) ∧
      r.length = k ∧ r.volume = volume_after_appends 0 0 k ∧
      al1.moved = al.moved + reallocs_after_appends 0 0 k := by
  have hes : es ≤ SIZE_MAX := by
    unfold HEADER_SIZE at hsz
    omega
  have hlen : (xs.take k).length = k := by
    rw [List.length_take, hxs]
    omega
  have hle : volume_after_appends 0 0 k ≤ 1447 := by
    have h1 := appends_1000.1
    have e : 1000 = k + (1000 - k) := by omega
    rw [e, volume_after_appends_add k (1000 - k) 0 0] at h1
    have h2 := volume_le_volume_after_appends (1000 - k) (0 + k) (volume_after_appends 0 0 k)
    omega
  obtain ⟨al1, r, hrun, _, _, hrl, hrv, _, _, hmoved⟩ :=
    run_appends (xs.take k) al { element_size := es, volume := 0, length := 0, data := [] }
      (created_wf es hes) hok
      (fun x hxm => by
        show es ≤ x.length
        rw [hx x (List.mem_of_mem_take hxm)])
      (by
        show (8 * (0 + (xs.take k).length) + 3) / 5 ≤ SIZE_MAX
        rw [hlen]
        unfold SIZE_MAX
        omega)
      (by
        show volume_after_appends 0 0 (xs.take k).length * es + HEADER_SIZE ≤ SIZE_MAX
        rw [hlen]
        have : volume_after_appends 0 0 k * es ≤ 1447 * es := Nat.mul_le_mul_right _ hle
        omega)
  refine ⟨al1, r, hrun, ?_, ?_, ?_⟩
  · rw [hrl, hlen]
    exact Nat.zero_add k
  · rw [hrv]
    show volume_after_appends 0 0 (xs.take k).length = _
    rw [hlen]
  · rw [hmoved]
    show al.moved + reallocs_after_appends 0 0 (xs.take k).length = _
    rw [hlen]

/-- C37: whenever `mx_vector_append` on a full vector (`length == volume == V`) succeeds through
the preallocation path, the new capacity is `V' = (8(V+1)+3)/5` and `5 * V' >= 8 * V + 7`, after
one reallocation; and with every allocation succeeding, the vector `mx_vector_create` returns
has after `k <= 1000` appends the volume and the number of reallocations of the arithmetic
run, which for 1000 appends are 1447 and 13, the reallocations reaching the capacities
2, 5, 10, 18, 31, 51, 83, 135, 218, 351, 563, 903, 1447 in this order. -/
theorem C37_geometric_growth (al0 : Allocator) (hok : ∀ j, al0.outcome j ≠ none) (es : Nat)
    (hsz : 1447 * es + HEADER_SIZE ≤ SIZE_MAX) (xs : List (List Byte))
    (hxs : xs.length = 1000) (hx : ∀ x ∈ xs, x.length = es) :
    (∀ (al : Allocator) (v : header_t) (e : List Byte) (junk : Nat → Byte),
      v.length = v.volume → (8 * (v.volume + 1) + 3) / 5 ≤ SIZE_MAX →
      (8 * (v.volume + 1) + 3) / 5 * v.element_size + HEADER_SIZE ≤ SIZE_MAX →
      al.outcome al.calls = some junk →
      ∃ al1 r, mx_vector_append al v (some e) = (al1, Ret.some r) ∧
        r.volume = (8 * (v.volume + 1) + 3) / 5 ∧ 8 * v.volume + 7 ≤ 5 * r.volume ∧
        al1.moved = al.moved + 1) ∧
    (∃ al v0, mx_vector_create al0 es = (al, some v0) ∧
      ∀ k, k ≤ 1000 →
        ∃ al1 r,
          run_tail_calls al v0 ((xs.take k).map (fun x => TailCall.append (some x)))
            = (al1, Ret.some r) ∧
          r.length = k ∧ r.volume = volume_after_appends 0 0 k ∧
          al1.moved = al.moved + reallocs_after_appends 0 0 k) ∧
    volume_after_appends 0 0 1000 = 1447 ∧ reallocs_after_appends 0 0 1000 = 13 ∧
    capacities_after_appends 0 0 1000
      = [2, 5, 10, 18, 31, 51, 83, 135, 218, 351, 563, 903, 1447] := by
  refine ⟨fun al v e junk hfull hfit hb ho => ?_, ?_, appends_1000.1, appends_1000.2,
    capacities_1000⟩
  · obtain ⟨r, h1, h2, _⟩ := append_full_grows al v e junk hfull hfit hb ho
    refine ⟨_, r, h1, h2, ?_, rfl⟩
    rw [h2]
    omega
  · rcases ho : al0.outcome al0.calls with _ | junk
    · exact absurd ho (hok _)
    · refine ⟨_, _, mx_vector_create_ok al0 es junk ho, fun k hk => ?_⟩
      exact run_append_prefix { al0 with calls := al0.calls + 1, moved := al0.moved + 1 } hok
        es hsz xs hxs hx k hk

/-- C37 at a concrete input: a thousand appends of the byte `7` with every allocation
succeeding, and one append on a full vector of two elements. -/
theorem C37_geometric_growth_witness :
    (∃ al1 r, mx_vector_append alloc_ok vec_full (some [5, 6]) = (al1, Ret.some r) ∧
      r.volume = (8 * (vec_full.volume + 1) + 3) / 5 ∧ 8 * vec_full.volume + 7 ≤ 5 * r.volume ∧
      al1.moved = alloc_ok.moved + 1) ∧
    capacities_after_appends 0 0 1000
      = [2, 5, 10, 18, 31, 51, 83, 135, 218, 351, 563, 903, 1447] :=
  ⟨(C37_geometric_growth alloc_ok (fun _ h => by cases h) 1 (by decide)
      (List.replicate 1000 [7]) (List.length_replicate 1000 [7])
      (fun x hx => by rw [List.eq_of_mem_replicate hx]; rfl)).1
      alloc_ok vec_full [5, 6] (fun _ => 0) rfl (by decide) (by decide) rfl,
    (C37_geometric_growth alloc_ok (fun _ h => by cases h) 1 (by decide)
      (List.replicate 1000 [7]) (List.length_replicate 1000 [7])
      (fun x hx => by rw [List.eq_of_mem_replicate hx]; rfl)).2.2.2.2⟩

/-! ## C32: `mx_vector_pull` and `mx_vector_shift` -/

/-- The function `mx_vector_pull` on a well-formed vector of length at least 1, under any
allocator: it never returns `NULL`, copies the last element out and leaves the others. -/
theorem mx_vector_pull_ok (al : Allocator) (v : header_t) (out : Bool) (hw : v.wf)
    (h1 : 1 ≤ v.length) :
    ∃ al1 r, (mx_vector_pull al v out).1 = (al1, Ret.some r) ∧ r.wf ∧
      r.element_size = v.element_size ∧ r.length = v.length - 1 ∧
      elements r = (elements v).take (v.length - 1) ∧
      (mx_vector_pull al v out).2
        = if out then (elements v)[v.length - 1]? else none := by
  have hlen := hw.len_le
  have hvol := hw.vol_le
  have hsub : size_sub v.length 1 = v.length - 1 := size_sub_eq h1 (by omega)
  have hpull : (mx_vector_pull al v out).1 = mx_vector_excise al v (v.length - 1) 1 := by
    unfold mx_vector_pull mx_vector_remove
    dsimp only
    rw [hsub]
  have hcopy : (mx_vector_pull al v out).2
      = if out then some (mx_vector_get v (v.length - 1)) else none := by
    unfold mx_vector_pull
    dsimp only
    rw [hsub]
  rw [hpull, hcopy]
  obtain ⟨al1, r, hex, hrw, hes, hrl, _, _, hx⟩ :=
    mx_vector_excise_ok al v (v.length - 1) 1 hw (by omega)
  have hlx : (elements v).length = v.length := length_chunks _ _ _
  refine ⟨al1, r, hex, hrw, hes, hrl, ?_, ?_⟩
  · rw [hx, List.drop_of_length_le (by omega), List.append_nil]
  · rw [mx_vector_get_eq_element v hw (v.length - 1) (by omega)]

/-- The function `mx_vector_shift` on a well-formed vector of length at least 1, under any
allocator: it never returns `NULL`, copies the first element out and leaves the others. -/
theorem mx_vector_shift_ok (al : Allocator) (v : header_t) (out : Bool) (hw : v.wf)
    (h1 : 1 ≤ v.length) :
    ∃ al1 r, (mx_vector_shift al v out).1 = (al1, Ret.some r) ∧ r.wf ∧
      r.element_size = v.element_size ∧ r.length = v.length - 1 ∧
      elements r = (elements v).drop 1 ∧
      (mx_vector_shift al v out).2 = if out then (elements v)[0]? else none := by
  have hshift : (mx_vector_shift al v out).1 = mx_vector_excise al v 0 1 := by
    unfold mx_vector_shift mx_vector_remove
    dsimp only
  have hcopy : (mx_vector_shift al v out).2
      = if out then some (mx_vector_get v 0) else none := by
    unfold mx_vector_shift
    dsimp only
  rw [hshift, hcopy]
  obtain ⟨al1, r, hex, hrw, hes, hrl, _, _, hx⟩ :=
    mx_vector_excise_ok al v 0 1 hw (by omega)
  refine ⟨al1, r, hex, hrw, hes, hrl, ?_, ?_⟩
  · rw [hx, List.take_zero, List.nil_append]
  · rw [mx_vector_get_eq_element v hw 0 (by omega)]

/-- C32: for every well-formed vector of length at least 1 holding `xs`, under every
allocator: `mx_vector_pull(v, out)` copies `xs[len-1]` into `out` when `out` is not `NULL` and
returns a vector holding `xs[0..len-1)`; `mx_vector_shift(v, out)` copies `xs[0]` into `out`
and returns a vector holding `xs[1..len)`; and after a successful `mx_vector_append(v, e)`,
`mx_vector_pull` copies out `e` and returns a vector holding `xs` again. -/
theorem C32_pull_shift (al : Allocator) (v : header_t) (hw : v.wf) (h1 : 1 ≤ v.length) :
    (∀ out, ∃ al1 r, (mx_vector_pull al v out).1 = (al1, Ret.some r) ∧
      r.length = v.length - 1 ∧ elements r = (elements v).take (v.length - 1) ∧
      (mx_vector_pull al v out).2 = if out then (elements v)[v.length - 1]? else none) ∧
    (∀ out, ∃ al1 r, (mx_vector_shift al v out).1 = (al1, Ret.some r) ∧
      r.length = v.length - 1 ∧ elements r = (elements v).drop 1 ∧
      (mx_vector_shift al v out).2 = if out then (elements v)[0]? else none) ∧
    (∀ (e : List Byte) (al1 al2 : Allocator) (w : header_t), e.length = v.element_size →
      mx_vector_append al v (some e) = (al1, Ret.some w) →
      ∃ al3 r, mx_vector_pull al2 w true = ((al3, Ret.some r), some e) ∧
        r.length = v.length ∧ elements r = elements v) := by
  refine ⟨fun out => ?_, fun out => ?_, fun e al1 al2 w he happ => ?_⟩
  · obtain ⟨al1, r, h, _, _, hl, hx, hc⟩ := mx_vector_pull_ok al v out hw h1
    exact ⟨al1, r, h, hl, hx, hc⟩
  · obtain ⟨al1, r, h, _, _, hl, hx, hc⟩ := mx_vector_shift_ok al v out hw h1
    exact ⟨al1, r, h, hl, hx, hc⟩
  · have hlx : (elements v).length = v.length := length_chunks _ _ _
    obtain ⟨hww, hwe, hwl, _, _, _, gap, _, hgap, hwx⟩ :=
      mx_vector_inject_ok al al1 v w v.length 1 (some e) hw (Nat.le_refl _)
        (fun x hx => by cases hx; omega) happ
    have hg : gap = [e] := by
      rw [hgap e rfl]
      unfold chunks
      show [(e.drop (0 * v.element_size)).take v.element_size] = [e]
      rw [Nat.zero_mul, List.drop_zero, List.take_of_length_le (by omega)]
    rw [hg, List.take_of_length_le (by omega), List.drop_of_length_le (by omega),
      List.append_nil] at hwx
    obtain ⟨al3, r, hp, _, _, hrl, hrx, hc⟩ :=
      mx_vector_pull_ok al2 w true hww (by omega)
    refine ⟨al3, r, ?_, by omega, ?_⟩
    · apply Prod.ext
      · exact hp
      · rw [hc, if_pos rfl, hwx, hwl, Nat.add_sub_cancel,
          List.getElem?_append_right (by omega), hlx, Nat.sub_self]
        rfl
    · rw [hrx, hwx, hwl, Nat.add_sub_cancel, List.take_left' hlx]

/-- C32 at concrete inputs: pulling and shifting the vector `[1, 2], [3, 4]`, and appending
`[5, 6]` before pulling it off again. -/
theorem C32_pull_shift_witness :
    (mx_vector_pull alloc_fail vec_full true).2 = some [3, 4] ∧
    elements (mx_vector_pull alloc_fail vec_full true).1.2.block = [[1, 2]] ∧
    (mx_vector_shift alloc_fail vec_full true).2 = some [1, 2] ∧
    elements (mx_vector_shift alloc_fail vec_full true).1.2.block = [[3, 4]] ∧
    ∃ al3 r, mx_vector_pull alloc_fail (mx_vector_append alloc_ok vec_full (some [5, 6])).2.block
        true = ((al3, Ret.some r), some [5, 6]) ∧
      r.length = vec_full.length ∧ elements r = elements vec_full :=
  ⟨by decide, by decide, by decide, by decide,
    (C32_pull_shift alloc_ok vec_full vec_full_wf (by decide)).2.2 [5, 6]
      (mx_vector_append alloc_ok vec_full (some [5, 6])).1 alloc_fail
      (mx_vector_append alloc_ok vec_full (some [5, 6])).2.block rfl rfl⟩

/-! ## C38: the size bound on reachable vectors -/

theorem create_block_wf (al al1 : Allocator) (element_size : Nat) (v : header_t)
    (hes : element_size ≤ SIZE_MAX) (h : mx_vector_create al element_size = (al1, some v)) :
    v.wf := by
  rcases ho : al.outcome al.calls with _ | junk
  · unfold mx_vector_create at h
    rw [malloc_none al _ ho] at h
    cases (Prod.mk.inj h).2
  · rw [mx_vector_create_ok al element_size junk ho] at h
    have := Option.some.inj (Prod.mk.inj h).2
    subst this
    exact created_wf element_size hes

theorem create_exact_block_wf (al al1 : Allocator) (element_size length : Nat) (v : header_t)
    (hes : element_size ≤ SIZE_MAX) (hlen : length ≤ SIZE_MAX)
    (h : create_exact al element_size length = (al1, some v)) : v.wf := by
  rcases create_exact_cases al element_size length with ⟨_, h1⟩ | ⟨_, _, h1⟩ | ⟨junk, hb, _, h1⟩
  · rw [h1] at h; cases (Prod.mk.inj h).2
  · rw [h1] at h; cases (Prod.mk.inj h).2
  · rw [h1] at h
    have := Option.some.inj (Prod.mk.inj h).2
    subst this
    refine ⟨hes, hlen, hb, ?_, Nat.le_refl _⟩
    show ((List.range _).map junk).length = length * element_size
    rw [List.length_map, List.length_range, Nat.add_sub_cancel]

theorem create_with_block_wf (al al1 : Allocator) (element_size length : Nat) (v : header_t)
    (hes : element_size ≤ SIZE_MAX) (hlen : length ≤ SIZE_MAX)
    (h : mx_vector_create_with al element_size length = (al1, some v)) : v.wf := by
  rw [mx_vector_create_with_eq al element_size length hlen] at h
  by_cases hc : 1 ≤ length ∧ (8 * length + 3) / 5 ≤ SIZE_MAX ∧
      (8 * length + 3) / 5 * element_size + HEADER_SIZE ≤ SIZE_MAX
  · rw [if_pos hc] at h
    rcases ho : al.outcome al.calls with _ | junk
    · rw [malloc_none al _ ho] at h
      exact create_exact_block_wf _ al1 element_size length v hes hlen h
    · rw [malloc_some al _ junk ho] at h
      have := Option.some.inj (Prod.mk.inj h).2
      subst this
      refine ⟨hes, hc.2.1, hc.2.2, ?_, ?_⟩
      · show ((List.range _).map junk).length = (8 * length + 3) / 5 * element_size
        rw [List.length_map, List.length_range, Nat.add_sub_cancel]
      · show length ≤ (8 * length + 3) / 5
        omega
  · rw [if_neg hc] at h
    exact create_exact_block_wf al al1 element_size length v hes hlen h

theorem resize_block_wf (al : Allocator) (v : header_t) (volume : Nat) (hw : v.wf)
    (hv : volume ≤ SIZE_MAX) : (mx_vector_resize al v volume).2.block.wf := by
  rcases mx_vector_resize_cases al v volume with ⟨_, h1⟩ | ⟨_, _, h1⟩ | ⟨junk, hb, _, h1⟩
  · rw [h1]; exact hw
  · rw [h1]; exact hw
  · rw [h1]; exact resized_wf v volume junk hw.es_le hv hb

theorem shrink_block_wf (al : Allocator) (v : header_t) (hw : v.wf) :
    (mx_vector_shrink al v).2.block.wf := by
  have hr := resize_block_wf al v v.length hw (Nat.le_trans hw.len_le hw.vol_le)
  unfold mx_vector_shrink
  rcases hres : mx_vector_resize al v v.length with ⟨al1, orig | shrunk⟩
  · rw [hres] at hr; exact hr
  · rw [hres] at hr; exact hr

theorem ensure_block_wf (al : Allocator) (v : header_t) (n : Nat) (hw : v.wf)
    (hn : n ≤ SIZE_MAX) : (mx_vector_ensure al v n).2.block.wf := by
  rcases hens : mx_vector_ensure al v n with ⟨al1, orig | w⟩
  · rcases mx_vector_ensure_cases al v n with ⟨_, h1⟩ | ⟨_, al2, h1, _⟩ |
      ⟨_, al2, volume, junk, _, _, _, _, _, h1⟩
    · rw [h1] at hens; cases (Prod.mk.inj hens).2
    · rw [h1] at hens
      have := Ret.null.inj (Prod.mk.inj hens).2
      subst this
      exact hw
    · rw [h1] at hens; cases (Prod.mk.inj hens).2
  · exact (mx_vector_ensure_ok al al1 v w n hw hn hens).1

theorem inject_block_wf (al : Allocator) (v : header_t) (i : Nat) (elmt : Option (List Byte))
    (n : Nat) (hw : v.wf) (hi : i ≤ v.length)
    (he : ∀ e, elmt = some e → n * v.element_size ≤ e.length) :
    (mx_vector_inject al v i elmt n).2.block.wf := by
  rcases hinj : mx_vector_inject al v i elmt n with ⟨al1, orig | r⟩
  · have horig : orig = v := by
      by_cases hov : SIZE_MAX < v.length + n
      · rw [inject_null_or_overflow al v i elmt n hov] at hinj
        exact (Ret.null.inj (Prod.mk.inj hinj).2).symm
      · rw [mx_vector_inject_unfold al v i elmt n (Nat.le_of_not_lt hov)] at hinj
        rcases mx_vector_ensure_cases al v (v.length + n) with ⟨_, h1⟩ | ⟨_, al2, h1, _⟩ |
          ⟨_, al2, volume, junk, _, _, _, _, _, h1⟩
        · rw [h1] at hinj; cases (Prod.mk.inj hinj).2
        · rw [h1] at hinj
          exact (Ret.null.inj (Prod.mk.inj hinj).2).symm
        · rw [h1] at hinj; cases (Prod.mk.inj hinj).2
    rw [horig]
    exact hw
  · exact (mx_vector_inject_ok al al1 v r i n elmt hw hi he hinj).1

theorem excise_block_wf (al : Allocator) (v : header_t) (i n : Nat) (hw : v.wf)
    (hin : i + n ≤ v.length) : (mx_vector_excise al v i n).2.block.wf := by
  obtain ⟨al1, r, h, hrw, _⟩ := mx_vector_excise_ok al v i n hw hin
  rw [h]
  exact hrw

theorem duplicate_block_wf (al : Allocator) (source copy : header_t) (hw : source.wf)
    (h : (mx_vector_duplicate al source).1.2 = some copy) : copy.wf := by
  have hlen := hw.len_le
  have hsz := hw.size_le
  have hm : source.length * source.element_size ≤ source.volume * source.element_size :=
    Nat.mul_le_mul_right _ hlen
  have hdl : source.length * source.element_size ≤ source.data.length := by
    rw [hw.data_len]; exact hm
  have e1 : size_mul source.length source.element_size
      = source.length * source.element_size := size_mul_eq (by omega)
  have e2 : size_mul source.volume source.element_size
      = source.volume * source.element_size := size_mul_eq (by omega)
  have e3 : size_add HEADER_SIZE (source.volume * source.element_size) - HEADER_SIZE
      = source.volume * source.element_size := by
    rw [size_add_eq (by omega)]; omega
  have e4 : size_add HEADER_SIZE (source.length * source.element_size) - HEADER_SIZE
      = source.length * source.element_size := by
    rw [size_add_eq (by omega)]; omega
  have hcopy : ∀ (m : Nat) (junk : Nat → Byte),
      source.length * source.element_size ≤ m →
      (memcpy ((List.range m).map junk) 0 source.data
        (source.length * source.element_size)).length = m := by
    intro m junk hm1
    unfold memcpy
    simp only [List.length_append, List.length_take, List.length_drop, List.length_map,
      List.length_range]
    omega
  unfold mx_vector_duplicate at h
  dsimp only at h
  rw [e1, e2] at h
  rcases ho : al.outcome al.calls with _ | junk
  · rw [malloc_none al _ ho] at h
    dsimp only at h
    by_cases heq : source.length = source.volume
    · rw [if_pos heq] at h
      cases h
    · rw [if_neg heq] at h
      rcases ho1 : al.outcome (al.calls + 1) with _ | junk1
      · rw [malloc_none _ _ ho1] at h
        cases h
      · rw [malloc_some _ _ junk1 ho1, e4] at h
        have := Option.some.inj h
        subst this
        exact ⟨hw.es_le, Nat.le_trans hlen hw.vol_le, by
          show source.length * source.element_size + HEADER_SIZE ≤ SIZE_MAX
          omega, hcopy _ junk1 (Nat.le_refl _), Nat.le_refl _⟩
  · rw [malloc_some al _ junk ho, e3] at h
    have := Option.some.inj h
    subst this
    exact ⟨hw.es_le, hw.vol_le, hsz, hcopy _ junk hm, hlen⟩

/-- Every reachable vector is well formed. -/
theorem reachable_wf (v : header_t) (h : Reachable v) : v.wf := by
  induction h with
  | create al al1 es v hes hc => exact create_block_wf al al1 es v hes hc
  | create_with al al1 es len v hes hlen hc =>
    exact create_with_block_wf al al1 es len v hes hlen hc
  | resize al v volume _ hv ih => exact resize_block_wf al v volume ih hv
  | shrink al v _ ih => exact shrink_block_wf al v ih
  | ensure al v n _ hn ih => exact ensure_block_wf al v n ih hn
  | inject al v i elmt n _ hi _ he ih => exact inject_block_wf al v i elmt n ih hi he
  | excise al v i n _ hin ih => exact excise_block_wf al v i n ih hin
  | duplicate al v copy _ hc ih => exact duplicate_block_wf al v copy ih hc

/-- C38: every vector reachable from `mx_vector_create` or `mx_vector_create_with` through
`mx_vector_resize`, `mx_vector_shrink`, `mx_vector_ensure`, `mx_vector_inject`,
`mx_vector_excise` and `mx_vector_duplicate` satisfies
`volume * element_size + sizeof(header_t) <= SIZE_MAX` and `length <= volume`, so that the
unchecked `size_t` computations of `mx_vector_duplicate`,
`sizeof(header_t) + volume * element_size` and `sizeof(header_t) + length * element_size`,
do not wrap. -/
theorem C38_reachable_size (v : header_t) (h : Reachable v) :
    v.volume * v.element_size + HEADER_SIZE ≤ SIZE_MAX ∧ v.length ≤ v.volume ∧
    size_mul v.volume v.element_size = v.volume * v.element_size ∧
    size_add HEADER_SIZE (size_mul v.volume v.element_size)
      = HEADER_SIZE + v.volume * v.element_size ∧
    size_mul v.length v.element_size = v.length * v.element_size ∧
    size_add HEADER_SIZE (size_mul v.length v.element_size)
      = HEADER_SIZE + v.length * v.element_size := by
  have hw := reachable_wf v h
  have hsz := hw.size_le
  have hlen := hw.len_le
  have hm : v.length * v.element_size ≤ v.volume * v.element_size :=
    Nat.mul_le_mul_right _ hlen
  have e1 : size_mul v.volume v.element_size = v.volume * v.element_size :=
    size_mul_eq (by omega)
  have e2 : size_mul v.length v.element_size = v.length * v.element_size :=
    size_mul_eq (by omega)
  refine ⟨hsz, hlen, e1, ?_, e2, ?_⟩
  · rw [e1, size_add_eq (by omega)]
  · rw [e2, size_add_eq (by omega)]

/-- C38 at a concrete input: the vector left by `mx_vector_create_with(2, 3)`, an insertion
at its head, a removal of two elements (which shrinks it) and a duplication, every allocation succeeding. -/
theorem C38_reachable_size_witness :
    (mx_vector_duplicate alloc_ok
        (mx_vector_excise alloc_ok
          (mx_vector_inject alloc_ok
            { element_size := 2, volume := 5, length := 3
              data := [0, 0, 0, 0, 0, 0, 0, 0, 0, 0] } 0 (some [7, 8]) 1).2.block
          1 2).2.block).1.2
      = some { element_size := 2, volume := 3, length := 2, data := [7, 8, 0, 0, 0, 0] } ∧
    3 * 2 + HEADER_SIZE ≤ SIZE_MAX ∧
    size_add HEADER_SIZE (size_mul 3 2) = HEADER_SIZE + 3 * 2 :=
  ⟨by decide,
    (C38_reachable_size
      { element_size := 2, volume := 3, length := 2, data := [7, 8, 0, 0, 0, 0] }
      (Reachable.duplicate alloc_ok _ _
        (Reachable.excise alloc_ok _ 1 2
          (Reachable.inject alloc_ok _ 0 (some [7, 8]) 1
            (Reachable.create_with alloc_ok
              { alloc_ok with calls := 1, moved := 1 } 2 3
              { element_size := 2, volume := 5, length := 3
                data := [0, 0, 0, 0, 0, 0, 0, 0, 0, 0] }
              (by decide) (by decide) rfl)
            (by decide) (by decide) (fun e he => by cases he; decide))
          (by decide))
        (by decide))).1,
    (C38_reachable_size
      { element_size := 2, volume := 3, length := 2, data := [7, 8, 0, 0, 0, 0] }
      (Reachable.duplicate alloc_ok _ _
        (Reachable.excise alloc_ok _ 1 2
          (Reachable.inject alloc_ok _ 0 (some [7, 8]) 1
            (Reachable.create_with alloc_ok
              { alloc_ok with calls := 1, moved := 1 } 2 3
              { element_size := 2, volume := 5, length := 3
                data := [0, 0, 0, 0, 0, 0, 0, 0, 0, 0] }
              (by decide) (by decide) rfl)
            (by decide) (by decide) (fun e he => by cases he; decide))
          (by decide))
        (by decide))).2.2.2.1⟩

/-! ## C34: `mx_vector_swap` and `mx_vector_move` -/

theorem getD_of_lt (l : List Byte) (p : Nat) (h : p < l.length) :
    l[p]? = some (l.getD p 0) := by
  rw [List.getD_eq_getElem l 0 h, List.getElem?_eq_getElem h]

theorem getD_congr (l m : List Byte) (p q : Nat) (h : l[p]? = m[q]?) :
    l.getD p 0 = m.getD q 0 := by
  rw [List.getD_eq_getElem?_getD, List.getD_eq_getElem?_getD, h]

theorem swap_loop_succ (data : List Byte) (a b n : Nat) :
    swap_loop data a b (n + 1) =
      ((swap_loop data a b n).set (a + n) ((swap_loop data a b n).getD (b + n) 0)).set (b + n)
        ((swap_loop data a b n).getD (a + n) 0) := by
  unfold swap_loop
  rw [List.range_succ, List.foldl_append]
  rfl

theorem length_swap_loop (data : List Byte) (a b n : Nat) :
    (swap_loop data a b n).length = data.length := by
  induction n with
  | zero => rfl
  | succ n ih => rw [swap_loop_succ, List.length_set, List.length_set, ih]

/-- The bytes after the loop of `mx_vector_swap` on two ranges that do not overlap: the
first `n` bytes at `a` and at `b` have changed places. -/
theorem swap_loop_getElem (data : List Byte) (a b : Nat) :
    ∀ n, a + n ≤ b → b + n ≤ data.length → ∀ p,
      (swap_loop data a b n)[p]? =
        if a ≤ p ∧ p < a + n then data[b + (p - a)]?
        else if b ≤ p ∧ p < b + n then data[a + (p - b)]?
        else data[p]? := by
  intro n
  induction n with
  | zero =>
    intro _ _ p
    rw [if_neg (by omega), if_neg (by omega)]
    rfl
  | succ n ih =>
    intro h1 h2 p
    have ihn := ih (by omega) (by omega)
    have hlen := length_swap_loop data a b n
    have hb : (swap_loop data a b n).getD (b + n) 0 = data.getD (b + n) 0 :=
      getD_congr _ _ _ _ (by rw [ihn (b + n), if_neg (by omega), if_neg (by omega)])
    have ha : (swap_loop data a b n).getD (a + n) 0 = data.getD (a + n) 0 :=
      getD_congr _ _ _ _ (by rw [ihn (a + n), if_neg (by omega), if_neg (by omega)])
    rw [swap_loop_succ, hb, ha, List.getElem?_set, List.getElem?_set, List.length_set, hlen]
    have hla : data[a + n]? = some (data.getD (a + n) 0) := getD_of_lt data _ (by omega)
    have hlb : data[b + n]? = some (data.getD (b + n) 0) := getD_of_lt data _ (by omega)
    by_cases hpb : b + n = p
    · have e : a + (p - b) = a + n := by omega
      rw [if_pos hpb, if_pos (by omega),
        if_neg (show ¬ (a ≤ p ∧ p < a + (n + 1)) from by omega),
        if_pos (show b ≤ p ∧ p < b + (n + 1) from by omega), e, hla]
    · rw [if_neg hpb]
      by_cases hpa : a + n = p
      · have e : b + (p - a) = b + n := by omega
        rw [if_pos hpa, if_pos (by omega),
          if_pos (show a ≤ p ∧ p < a + (n + 1) from by omega), e, hlb]
      · rw [if_neg hpa, ihn p]
        by_cases c1 : a ≤ p ∧ p < a + n
        · rw [if_pos c1, if_pos (show a ≤ p ∧ p < a + (n + 1) from by omega)]
        · rw [if_neg c1, if_neg (show ¬ (a ≤ p ∧ p < a + (n + 1)) from by omega)]
          by_cases c2 : b ≤ p ∧ p < b + n
          · rw [if_pos c2, if_pos (show b ≤ p ∧ p < b + (n + 1) from by omega)]
          · rw [if_neg c2, if_neg (show ¬ (b ≤ p ∧ p < b + (n + 1)) from by omega)]

theorem getElem?_chunks (es n : Nat) (bytes : List Byte) (q : Nat) :
    (chunks es n bytes)[q]? = if q < n then some ((bytes.drop (q * es)).take es) else none := by
  unfold chunks
  rw [List.getElem?_map]
  by_cases h : q < n
  · rw [List.getElem?_range h, if_pos h]
    rfl
  · rw [List.getElem?_eq_none (by rw [List.length_range]; omega), if_neg h]
    rfl

theorem getElem?_chunk (bytes : List Byte) (o es r : Nat) :
    ((bytes.drop o).take es)[r]? = if r < es then bytes[o + r]? else none := by
  rw [List.getElem?_take]
  by_cases h : r < es
  · rw [if_pos h, if_pos h, List.getElem?_drop]
  · rw [if_neg h, if_neg h]

/-- The elements after `mx_vector_swap(v, i, i + 1)`: the two neighbours have changed
places. -/
theorem swap_adjacent_elements (v : header_t) (i : Nat)
    (hd : v.length * v.element_size ≤ v.data.length)
    (hs : v.length * v.element_size ≤ SIZE_MAX) (hi : i + 1 < v.length) (q : Nat) :
    (elements (mx_vector_swap v i (size_add i 1)))[q]? =
      if q = i then (elements v)[i + 1]?
      else if q = i + 1 then (elements v)[i]? else (elements v)[q]? := by
  have hlen : v.length ≤ SIZE_MAX ∨ v.element_size = 0 := by
    rcases Nat.eq_zero_or_pos v.element_size with h0 | hpos
    · exact Or.inr h0
    · left
      have : v.length * 1 ≤ v.length * v.element_size := Nat.mul_le_mul_left _ hpos
      omega
  have hmul : ∀ k, k ≤ v.length → k * v.element_size ≤ v.length * v.element_size :=
    fun k hk => Nat.mul_le_mul_right _ hk
  have hA1 : (i + 1) * v.element_size = i * v.element_size + v.element_size :=
    Nat.succ_mul _ _
  have hA2 : (i + 2) * v.element_size = i * v.element_size + v.element_size + v.element_size := by
    rw [show i + 2 = (i + 1) + 1 from rfl, Nat.succ_mul, hA1]
  have h2 := hmul (i + 2) (by omega)
  have e1 : mx_vector_at v i = i * v.element_size := by
    unfold mx_vector_at
    exact size_mul_eq (by have := hmul i (by omega); omega)
  have e2 : mx_vector_at v (size_add i 1) = (i + 1) * v.element_size := by
    unfold mx_vector_at
    rcases hlen with hl | h0
    · have ea : size_add i 1 = i + 1 := size_add_eq (by omega)
      rw [ea]
      exact size_mul_eq (by have := hmul (i + 1) (by omega); omega)
    · unfold size_mul
      rw [h0, Nat.mul_zero, Nat.mul_zero]
      rfl
  have hsw := swap_loop_getElem v.data (i * v.element_size) ((i + 1) * v.element_size)
    v.element_size (by omega) (by omega)
  unfold elements mx_vector_swap
  dsimp only
  rw [e1, e2, getElem?_chunks, getElem?_chunks, getElem?_chunks, getElem?_chunks]
  have key : ∀ q q1 : Nat, q < v.length →
      (q = i → q1 = i + 1) → (q = i + 1 → q1 = i) → (q ≠ i → q ≠ i + 1 → q1 = q) →
      ((swap_loop v.data (i * v.element_size) ((i + 1) * v.element_size)
          v.element_size).drop (q * v.element_size)).take v.element_size
        = (v.data.drop (q1 * v.element_size)).take v.element_size := by
    intro q q1 hq c1 c2 c3
    apply List.ext_getElem?
    intro r
    rw [getElem?_chunk, getElem?_chunk]
    by_cases hr : r < v.element_size
    · rw [if_pos hr, if_pos hr, hsw]
      rcases Nat.lt_trichotomy q i with hlt | heq | hgt
      · have hq1 := c3 (by omega) (by omega)
        have := Nat.mul_le_mul_right v.element_size (show q + 1 ≤ i from hlt)
        rw [Nat.succ_mul] at this
        rw [if_neg (by omega), if_neg (by omega), hq1]
      · have hq1 := c1 heq
        rw [heq, hq1, if_pos (by omega)]
        congr 1
        omega
      · by_cases hq2 : q = i + 1
        · have hq1 := c2 hq2
          rw [hq2, hq1, if_neg (by omega), if_pos (by omega)]
          congr 1
          omega
        · have hq1 := c3 (by omega) hq2
          have := Nat.mul_le_mul_right v.element_size (show i + 2 ≤ q from by omega)
          rw [if_neg (by omega), if_neg (by omega), hq1]
    · rw [if_neg hr, if_neg hr]
  by_cases hq : q < v.length
  · rw [if_pos hq]
    by_cases hqi : q = i
    · rw [if_pos hqi, if_pos (by omega), key q (i + 1) hq (fun _ => rfl) (by omega) (by omega)]
    · rw [if_neg hqi]
      by_cases hqj : q = i + 1
      · rw [if_pos hqj, if_pos (by omega), key q i hq (by omega) (fun _ => rfl) (by omega)]
      · rw [if_neg hqj, if_pos hq, key q q hq (by omega) (by omega) (fun _ _ => rfl)]
  · rw [if_neg hq, if_neg (by omega), if_neg (by omega), if_neg hq]

theorem swap_frame (v : header_t) (i j : Nat) :
    (mx_vector_swap v i j).length = v.length ∧
    (mx_vector_swap v i j).element_size = v.element_size ∧
    (mx_vector_swap v i j).volume = v.volume ∧
    (mx_vector_swap v i j).data.length = v.data.length :=
  ⟨rfl, rfl, rfl, length_swap_loop _ _ _ _⟩

/-- The `for` loop of `mx_vector_move`: `n` swaps from `s` upwards carry the element at `s`
to `s + n` and bring the elements between down by one place. -/
theorem move_up_elements (n : Nat) :
    ∀ (v : header_t) (s : Nat), v.length * v.element_size ≤ v.data.length →
      v.length * v.element_size ≤ SIZE_MAX → s + n < v.length →
      ((List.range' s n).foldl (fun w k => mx_vector_swap w k (size_add k 1)) v).length
        = v.length ∧
      ((List.range' s n).foldl (fun w k => mx_vector_swap w k (size_add k 1)) v).element_size
        = v.element_size ∧
      ((List.range' s n).foldl (fun w k => mx_vector_swap w k (size_add k 1)) v).volume
        = v.volume ∧
      ∀ p, (elements ((List.range' s n).foldl
          (fun w k => mx_vector_swap w k (size_add k 1)) v))[p]? =
        if p < s then (elements v)[p]?
        else if p < s + n then (elements v)[p + 1]?
        else if p = s + n then (elements v)[s]? else (elements v)[p]? := by
  induction n with
  | zero =>
    intro v s _ _ _
    refine ⟨rfl, rfl, rfl, fun p => ?_⟩
    show (elements v)[p]? = _
    by_cases h1 : p < s
    · rw [if_pos h1]
    · rw [if_neg h1, if_neg (by omega)]
      by_cases h2 : p = s + 0
      · rw [if_pos h2, h2]; rfl
      · rw [if_neg h2]
  | succ n ih =>
    intro v s hd hs hn
    obtain ⟨f1, f2, f3, f4⟩ := swap_frame v s (size_add s 1)
    have hsw := swap_adjacent_elements v s hd hs (by omega)
    obtain ⟨g1, g2, g3, g4⟩ := ih (mx_vector_swap v s (size_add s 1)) (s + 1)
      (by rw [f1, f2, f4]; exact hd) (by rw [f1, f2]; exact hs) (by rw [f1]; omega)
    rw [List.range'_succ, List.foldl_cons]
    refine ⟨by rw [g1, f1], by rw [g2, f2], by rw [g3, f3], fun p => ?_⟩
    rw [g4 p]
    by_cases h1 : p < s
    · rw [if_pos (show p < s + 1 from by omega), if_pos h1, hsw p, if_neg (by omega),
        if_neg (by omega)]
    · rw [if_neg h1]
      by_cases h2 : p = s
      · rw [if_pos (show p < s + 1 from by omega), if_pos (show p < s + (n + 1) from by omega),
          hsw p, if_pos h2, h2]
      · rw [if_neg (show ¬ p < s + 1 from by omega)]
        by_cases h3 : p < s + 1 + n
        · rw [if_pos h3, if_pos (show p < s + (n + 1) from by omega), hsw (p + 1),
            if_neg (by omega), if_neg (by omega)]
        · rw [if_neg h3, if_neg (show ¬ p < s + (n + 1) from by omega)]
          by_cases h4 : p = s + 1 + n
          · rw [if_pos h4, if_pos (show p = s + (n + 1) from by omega), hsw (s + 1),
              if_neg (by omega), if_pos rfl]
          · rw [if_neg h4, if_neg (show ¬ p = s + (n + 1) from by omega), hsw p,
              if_neg (by omega), if_neg (by omega)]

/-- The `while` loop of `mx_vector_move`: `n` swaps from `t + n - 1` downwards carry the
element at `t + n` to `t` and bring the elements between up by one place. -/
theorem move_down_elements (n : Nat) :
    ∀ (v : header_t) (t : Nat), v.length * v.element_size ≤ v.data.length →
      v.length * v.element_size ≤ SIZE_MAX → t + n < v.length →
      ((List.range' t n).reverse.foldl
        (fun w k => mx_vector_swap w k (size_add k 1)) v).length = v.length ∧
      ((List.range' t n).reverse.foldl
        (fun w k => mx_vector_swap w k (size_add k 1)) v).element_size = v.element_size ∧
      ((List.range' t n).reverse.foldl
        (fun w k => mx_vector_swap w k (size_add k 1)) v).volume = v.volume ∧
      ∀ p, (elements ((List.range' t n).reverse.foldl
          (fun w k => mx_vector_swap w k (size_add k 1)) v))[p]? =
        if p < t then (elements v)[p]?
        else if p = t then (elements v)[t + n]?
        else if p ≤ t + n then (elements v)[p - 1]? else (elements v)[p]? := by
  induction n with
  | zero =>
    intro v t _ _ _
    refine ⟨rfl, rfl, rfl, fun p => ?_⟩
    show (elements v)[p]? = _
    by_cases h1 : p < t
    · rw [if_pos h1]
    · rw [if_neg h1]
      by_cases h2 : p = t
      · rw [if_pos h2, h2]; rfl
      · rw [if_neg h2, if_neg (by omega)]
  | succ n ih =>
    intro v t hd hs hn
    obtain ⟨f1, f2, f3, f4⟩ := swap_frame v (t + n) (size_add (t + n) 1)
    have hsw := swap_adjacent_elements v (t + n) hd hs (by omega)
    obtain ⟨g1, g2, g3, g4⟩ := ih (mx_vector_swap v (t + n) (size_add (t + n) 1)) t
      (by rw [f1, f2, f4]; exact hd) (by rw [f1, f2]; exact hs) (by rw [f1]; omega)
    rw [List.range'_concat, List.reverse_append, List.reverse_singleton, List.singleton_append,
      List.foldl_cons, Nat.one_mul]
    refine ⟨by rw [g1, f1], by rw [g2, f2], by rw [g3, f3], fun p => ?_⟩
    rw [g4 p]
    by_cases h1 : p < t
    · rw [if_pos h1, if_pos h1, hsw p, if_neg (by omega), if_neg (by omega)]
    · rw [if_neg h1, if_neg h1]
      by_cases h2 : p = t
      · rw [if_pos h2, if_pos h2, hsw (t + n), if_pos rfl]
        rfl
      · rw [if_neg h2, if_neg h2]
        by_cases h3 : p ≤ t + n
        · rw [if_pos h3, if_pos (show p ≤ t + (n + 1) from by omega), hsw (p - 1),
            if_neg (by omega), if_neg (by omega)]
        · rw [if_neg h3]
          by_cases h4 : p = t + n + 1
          · rw [if_pos (show p ≤ t + (n + 1) from by omega), hsw p, if_neg (by omega),
              if_pos h4, h4]
            rfl
          · rw [if_neg (show ¬ p ≤ t + (n + 1) from by omega), hsw p, if_neg (by omega),
              if_neg h4]

theorem getElem?_insertIdx_le {α : Type} (x : α) :
    ∀ (n : Nat) (l : List α) (p : Nat), n ≤ l.length →
      (l.insertIdx n x)[p]? = if p < n then l[p]? else if p = n then some x else l[p - 1]? := by
  intro n
  induction n with
  | zero =>
    intro l p _
    show (x :: l)[p]? = _
    cases p with
    | zero =>
      rw [if_neg (Nat.lt_irrefl 0), if_pos rfl, List.getElem?_cons_zero]
    | succ p =>
      rw [if_neg (Nat.not_lt_zero _), if_neg (Nat.succ_ne_zero p), List.getElem?_cons_succ,
        Nat.add_sub_cancel]
  | succ n ih =>
    intro l p h
    cases l with
    | nil => cases h
    | cons y ys =>
      show (y :: ys.insertIdx n x)[p]? = _
      cases p with
      | zero =>
        rw [if_pos (Nat.succ_pos n), List.getElem?_cons_zero, List.getElem?_cons_zero]
      | succ p =>
        rw [List.getElem?_cons_succ, ih ys p (Nat.le_of_succ_le_succ h), Nat.add_sub_cancel]
        by_cases h1 : p < n
        · rw [if_pos h1, if_pos (show p + 1 < n + 1 from by omega), List.getElem?_cons_succ]
        · rw [if_neg h1, if_neg (show ¬ p + 1 < n + 1 from by omega)]
          by_cases h2 : p = n
          · rw [if_pos h2, if_pos (show p + 1 = n + 1 from by omega)]
          · rw [if_neg h2, if_neg (show ¬ p + 1 = n + 1 from by omega)]
            have e : p = (p - 1) + 1 := by omega
            rw [e, List.getElem?_cons_succ, Nat.add_sub_cancel]

/-- The sequence obtained by deleting the element at `s` and inserting it again at `t`. -/
theorem getElem?_erase_insert {α : Type} (l : List α) (x : α) (s t p : Nat)
    (hs : s < l.length) (ht : t < l.length) (hx : l[s]? = some x) :
    ((l.eraseIdx s).insertIdx t x)[p]? =
      if p < t then (if p < s then l[p]? else l[p + 1]?)
      else if p = t then l[s]?
      else (if p - 1 < s then l[p - 1]? else l[p]?) := by
  have hl : (l.eraseIdx s).length = l.length - 1 := by
    rw [List.length_eraseIdx, if_pos hs]
  rw [getElem?_insertIdx_le x t _ p (by omega)]
  by_cases h1 : p < t
  · rw [if_pos h1, if_pos h1, List.getElem?_eraseIdx]
  · rw [if_neg h1, if_neg h1]
    by_cases h2 : p = t
    · rw [if_pos h2, if_pos h2, hx]
    · rw [if_neg h2, if_neg h2, List.getElem?_eraseIdx]
      by_cases h3 : p - 1 < s
      · rw [if_pos h3, if_pos h3]
      · rw [if_neg h3, if_neg h3]
        congr 1
        omega

theorem vec_five_wf : vec_five.wf :=
  ⟨by decide, by decide, by decide, by decide, by decide⟩

/-- C34: for every well-formed vector holding `xs` and all indices `source, target < length`,
`mx_vector_move(v, target, source)` leaves the sequence obtained by deleting `xs[source]` from
`xs` and inserting it again at index `target`, so that the element at `target` is the old
`xs[source]` and the others keep their order; length, volume and element size are unchanged;
and `mx_vector_move(v, i, i)` returns the vector as it is. -/
theorem C34_move (v : header_t) (target source : Nat) (hw : v.wf)
    (hs : source < v.length) (ht : target < v.length) :
    elements (mx_vector_move v target source)
      = ((elements v).eraseIdx source).insertIdx target (mx_vector_get v source) ∧
    (elements (mx_vector_move v target source))[target]? = (elements v)[source]? ∧
    (mx_vector_move v target source).length = v.length ∧
    (mx_vector_move v target source).volume = v.volume ∧
    (mx_vector_move v target source).element_size = v.element_size ∧
    mx_vector_move v source source = v := by
  have hlen := hw.len_le
  have hsz := hw.size_le
  have hm : v.length * v.element_size ≤ v.volume * v.element_size :=
    Nat.mul_le_mul_right _ hlen
  have hd : v.length * v.element_size ≤ v.data.length := by
    rw [hw.data_len]; exact hm
  have hmax : v.length * v.element_size ≤ SIZE_MAX := by omega
  have hx := mx_vector_get_eq_element v hw source hs
  have hlx : (elements v).length = v.length := length_chunks _ _ _
  have hspec := fun (p : Nat) =>
    getElem?_erase_insert (elements v) (mx_vector_get v source) source target p
      (show source < (elements v).length from by omega)
      (show target < (elements v).length from by omega) hx
  have hself : mx_vector_move v source source = v := by
    unfold mx_vector_move
    rw [if_pos rfl]
  have main : (mx_vector_move v target source).length = v.length ∧
      (mx_vector_move v target source).volume = v.volume ∧
      (mx_vector_move v target source).element_size = v.element_size ∧
      ∀ p : Nat, (elements (mx_vector_move v target source))[p]? =
        (((elements v).eraseIdx source).insertIdx target (mx_vector_get v source))[p]? := by
    rcases Nat.lt_trichotomy target source with hlt | heq | hgt
    · obtain ⟨g1, g2, g3, g4⟩ := move_down_elements (source - target) v target hd hmax
        (by omega)
      have e : target + (source - target) = source := by omega
      rw [e] at g4
      unfold mx_vector_move
      rw [if_neg (by omega), if_pos hlt]
      refine ⟨g1, g3, g2, fun p => ?_⟩
      rw [g4 p, hspec p]
      by_cases h1 : p < target
      · rw [if_pos h1, if_pos h1, if_pos (by omega)]
      · rw [if_neg h1, if_neg h1]
        by_cases h2 : p = target
        · rw [if_pos h2, if_pos h2]
        · rw [if_neg h2, if_neg h2]
          by_cases h3 : p ≤ source
          · rw [if_pos h3, if_pos (by omega)]
          · rw [if_neg h3, if_neg (by omega)]
    · rw [heq, hself]
      refine ⟨rfl, rfl, rfl, fun p => ?_⟩
      have hspec1 := getElem?_erase_insert (elements v) (mx_vector_get v source) source
        source p (show source < (elements v).length from by omega)
        (show source < (elements v).length from by omega) hx
      rw [hspec1]
      by_cases h1 : p < source
      · rw [if_pos h1, if_pos h1]
      · rw [if_neg h1]
        by_cases h2 : p = source
        · rw [if_pos h2, h2]
        · rw [if_neg h2, if_neg (by omega)]
    · obtain ⟨g1, g2, g3, g4⟩ := move_up_elements (target - source) v source hd hmax
        (by omega)
      have e : source + (target - source) = target := by omega
      rw [e] at g4
      unfold mx_vector_move
      rw [if_neg (by omega), if_neg (by omega)]
      refine ⟨g1, g3, g2, fun p => ?_⟩
      rw [g4 p, hspec p]
      by_cases h1 : p < source
      · rw [if_pos h1, if_pos (by omega), if_pos h1]
      · rw [if_neg h1]
        by_cases h2 : p < target
        · rw [if_pos h2, if_pos h2, if_neg h1]
        · rw [if_neg h2, if_neg h2]
          by_cases h3 : p = target
          · rw [if_pos h3, if_pos h3]
          · rw [if_neg h3, if_neg h3, if_neg (by omega)]
  obtain ⟨m1, m2, m3, m4⟩ := main
  refine ⟨List.ext_getElem? m4, ?_, m1, m2, m3, hself⟩
  rw [m4 target, hspec target, if_neg (Nat.lt_irrefl _), if_pos rfl]

/-- C34 at concrete inputs: moving an element of `10, 20, 30, 40, 50` (two bytes each) down,
up and onto itself. -/
theorem C34_move_witness :
    elements (mx_vector_move vec_five 1 3)
      = [[10, 11], [40, 41], [20, 21], [30, 31], [50, 51]] ∧
    elements (mx_vector_move vec_five 4 0)
      = [[20, 21], [30, 31], [40, 41], [50, 51], [10, 11]] ∧
    elements (mx_vector_move vec_five 3 1)
      = ((elements vec_five).eraseIdx 1).insertIdx 3 (mx_vector_get vec_five 1) ∧
    mx_vector_move vec_five 2 2 = vec_five :=
  ⟨by decide, by decide,
    (C34_move vec_five 3 1 vec_five_wf (by decide) (by decide)).1,
    (C34_move vec_five 2 2 vec_five_wf (by decide) (by decide)).2.2.2.2.2⟩

end Mx
